import Mathlib

/-!
# memory-chain: account ledger, transactions, proof of work and block packaging

A shallow embedding of the Go packages `common` and `core` of memory-chain.

Modelling conventions.

* Go's `int64` is `Int64`: an integer together with its range proof.  The Go
  operators `+` and `-` are `Int64.add` and `Int64.sub`, which wrap around
  modulo `2^64` exactly as the machine does.
* The bolt bucket behind `AccountsDB` is a partial map from addresses to
  account rows.  Its reads and writes succeed: the only errors of the account
  store that are modelled are the ones the Go code raises itself (negative
  amount, overflow, underflow, empty message list).
* A Go call that mutates its receiver returns the new value of the receiver.
  `Res` pairs the store after a call with the fact that the call returned a
  non-nil error; `Outcome` also records a `panic`.
* `BlocksDB` carries, next to its bucket, the outcome of its coming bolt update
  transactions, so that a failing `AddBlock` can be stated.
* `crypto/sha256` is a library function; every definition that hashes takes
  the digest function as its first argument.
* The `float64` arithmetic of `NewTransaction` is exact IEEE-754 binary64: a
  constant is the dyadic rational it denotes, a conversion or a product is
  rounded to 53 significant bits, ties to even (`round53`).
* `TxsPoolDB.flush` runs in a goroutine and leaves the pool in memory alone; the
  pool is modelled by its in-memory sequence.
-/

namespace MemoryChain

/-! ## Machine integers and byte strings -/

abbrev Byte := Fin 256

def MinInt64 : Int := -9223372036854775808

def MaxInt64 : Int := 9223372036854775807

/-- Go's `int64`. -/
structure Int64 where
  val : Int
  lo : -9223372036854775808 ≤ val
  hi : val ≤ 9223372036854775807
deriving DecidableEq

/-- Reduction of an integer to the `int64` that has the same low 64 bits. -/
def Int64.wrap (x : Int) : Int64 :=
  ⟨(x + 9223372036854775808) % 18446744073709551616 - 9223372036854775808,
    by omega, by omega⟩

/-- Go's `a + b` on `int64`. -/
def Int64.add (a b : Int64) : Int64 := Int64.wrap (a.val + b.val)

/-- Go's `a - b` on `int64`. -/
def Int64.sub (a b : Int64) : Int64 := Int64.wrap (a.val - b.val)

/-- The `int64` constant 0. -/
def Int64.zero : Int64 := ⟨0, by decide, by decide⟩

/-! ## common/address.go, common/hash.go -/

/-- The type `Address [20]byte`. -/
structure Address where
  bytes : List Byte
  size : bytes.length = 20
deriving DecidableEq

/-- The type `Hash [32]byte`. -/
structure Hash where
  bytes : List Byte
  size : bytes.length = 32
deriving DecidableEq

def ZeroAddress : Address := ⟨List.replicate 20 0, by decide⟩

/-- The zero value `common.Hash{}`. -/
def ZeroHash : Hash := ⟨List.replicate 32 0, by decide⟩

def Address.Bytes (addr : Address) : List Byte := addr.bytes

def Hash.Bytes (hash : Hash) : List Byte := hash.bytes

/-! ## core/account.go, core/acountDB.go -/

structure Account where
  Address : Address
  Balance : Int64
  Messages : List (List Byte)
deriving DecidableEq

def NewAccount (addr : Address) (balance : Int64) : Account :=
  { Address := addr, Balance := balance, Messages := [] }

/-- The rows of `accounts_bucket`, keyed by address. -/
structure AccountsDB where
  rows : Address → Option Account

/-- The address whose first 19 bytes are zero and whose last byte is `n`
(`0x00…01` is `wellKnown 1`). -/
def wellKnown (n : Byte) : Address := ⟨List.replicate 19 0 ++ [n], by simp⟩

/-- The accounts funded at the first initialisation, each with `int64(math.Pow10(10))`,
which is `10^10`.  The Go function collects them by ranging over a map, so the order of
the returned slice is not fixed; they are listed here by address.  The addresses are the
values of `NewAddress` at the five literals (see `initAccounts_funding`). -/
def initAccounts : List Account :=
  [NewAccount (wellKnown 1) ⟨10000000000, by decide, by decide⟩,
   NewAccount (wellKnown 2) ⟨10000000000, by decide, by decide⟩,
   NewAccount (wellKnown 3) ⟨10000000000, by decide, by decide⟩,
   NewAccount (wellKnown 4) ⟨10000000000, by decide, by decide⟩,
   NewAccount (wellKnown 5) ⟨10000000000, by decide, by decide⟩]

/-- The store that `NewAccountsDB` creates when the bucket does not exist yet: one row
per account of `initAccounts`. -/
def NewAccountsDB : AccountsDB :=
  ⟨fun k => initAccounts.find? (fun account => decide (account.Address = k))⟩

/-- The store after a call and whether the call returned a non-nil error. -/
structure Res where
  db : AccountsDB
  err : Bool

/-- The bolt write `b.Put(addr.Serialize(), account.Serialize())`. -/
def AccountsDB.put (db : AccountsDB) (addr : Address) (account : Account) : AccountsDB :=
  ⟨fun k => if k = addr then some account else db.rows k⟩

/-- Read-through lookup: a missing row is created with balance 0 and no message. -/
def AccountsDB.GetAccountOf (db : AccountsDB) (addr : Address) : Account × AccountsDB :=
  match db.rows addr with
  | none =>
    let account : Account := { Address := addr, Balance := Int64.zero, Messages := [] }
    (account, db.put addr account)
  | some account => (account, db)

def AccountsDB.GetBalanceOf (db : AccountsDB) (addr : Address) : Int64 × AccountsDB :=
  let (account, db1) := db.GetAccountOf addr
  (account.Balance, db1)

def AccountsDB.IncreaseBalanceOf (db : AccountsDB) (addr : Address) (amount : Int64) : Res :=
  if amount.val < 0 then ⟨db, true⟩
  else
    let (account, db1) := db.GetAccountOf addr
    if (account.Balance.add amount).val < account.Balance.val then ⟨db1, true⟩
    else ⟨db1.put addr { account with Balance := account.Balance.add amount }, false⟩

def AccountsDB.DecreaseBalanceOf (db : AccountsDB) (addr : Address) (amount : Int64) : Res :=
  if amount.val < 0 then ⟨db, true⟩
  else
    let (account, db1) := db.GetAccountOf addr
    if (account.Balance.sub amount).val > account.Balance.val then ⟨db1, true⟩
    else ⟨db1.put addr { account with Balance := account.Balance.sub amount }, false⟩

def AccountsDB.GetMessagesOf (db : AccountsDB) (addr : Address) :
    List (List Byte) × AccountsDB :=
  let (account, db1) := db.GetAccountOf addr
  (account.Messages, db1)

def AccountsDB.PutMessagesTo (db : AccountsDB) (addr : Address) (message : List Byte) : Res :=
  let (account, db1) := db.GetAccountOf addr
  ⟨db1.put addr { account with Messages := account.Messages ++ [message] }, false⟩

def AccountsDB.DeleteMessageOf (db : AccountsDB) (addr : Address) : Res :=
  let (account, db1) := db.GetAccountOf addr
  if account.Messages.length = 0 then ⟨db1, true⟩
  else ⟨db1.put addr { account with Messages := account.Messages.dropLast }, false⟩

/-- The balance of `addr` as read through `GetAccountOf`. -/
def AccountsDB.balance (db : AccountsDB) (addr : Address) : Int :=
  (db.GetAccountOf addr).1.Balance.val

/-- The message list of `addr` as read through `GetAccountOf`. -/
def AccountsDB.messages (db : AccountsDB) (addr : Address) : List (List Byte) :=
  (db.GetAccountOf addr).1.Messages

/-! ## core/transaction.go -/

structure Transaction where
  From : Address
  To : Address
  Data : List Byte
  Amount : Int64
  Fee : Int64
  Hash : Hash
deriving DecidableEq

def MaxRetryOfExecution : Nat := 5

/-- How a call that may panic ends: it returns a nil error, returns a non-nil
error, or panics; `s` is the state the call has reached at that point. -/
inductive Outcome (σ : Type) where
  | ok (s : σ)
  | error (s : σ)
  | panic (s : σ)

def Outcome.state {σ : Type} : Outcome σ → σ
  | Outcome.ok s => s
  | Outcome.error s => s
  | Outcome.panic s => s

def Outcome.isOk {σ : Type} : Outcome σ → Bool
  | Outcome.ok _ => true
  | _ => false

def Outcome.isError {σ : Type} : Outcome σ → Bool
  | Outcome.error _ => true
  | _ => false

def Outcome.isPanic {σ : Type} : Outcome σ → Bool
  | Outcome.panic _ => true
  | _ => false

/-- The loop `for i := 0; i < n; i++ { err1 = op(); if err1 != nil { continue }; break }`:
`err` is the value `err1` holds when the loop is entered with `n` rounds left. -/
def retry (op : AccountsDB → Res) : Nat → AccountsDB → Bool → Res
  | 0, db, err => ⟨db, err⟩
  | n + 1, db, _ =>
    let r := op db
    if r.err then retry op n r.db true else ⟨r.db, false⟩

def Transaction.Exec (tx : Transaction) (db : AccountsDB) : Outcome AccountsDB :=
  let r1 := db.DecreaseBalanceOf tx.From (tx.Fee.add tx.Amount)
  if r1.err then Outcome.error r1.db
  else
    let r2 := r1.db.IncreaseBalanceOf tx.To tx.Amount
    if r2.err then
      let c := retry (fun d => d.IncreaseBalanceOf tx.From (tx.Fee.add tx.Amount))
        MaxRetryOfExecution r2.db false
      if c.err then Outcome.panic c.db else Outcome.error c.db
    else if tx.Data.length ≠ 0 then
      let r3 := r2.db.PutMessagesTo tx.To tx.Data
      if r3.err then
        let c1 := retry (fun d => d.IncreaseBalanceOf tx.From (tx.Fee.add tx.Amount))
          MaxRetryOfExecution r3.db false
        if c1.err then Outcome.panic c1.db
        else
          let c2 := retry (fun d => d.DecreaseBalanceOf tx.To tx.Amount)
            MaxRetryOfExecution c1.db false
          if c2.err then Outcome.panic c2.db else Outcome.error c2.db
      else Outcome.ok r3.db
    else Outcome.ok r2.db

/-- The retry loop of `RollBack`; a failed step restarts the body from its first step. -/
def Transaction.rollBackLoop (tx : Transaction) : Nat → AccountsDB → Bool → Res
  | 0, db, err => ⟨db, err⟩
  | n + 1, db, _ =>
    let r1 := db.IncreaseBalanceOf tx.From (tx.Fee.add tx.Amount)
    if r1.err then tx.rollBackLoop n r1.db true
    else
      let r2 := r1.db.DecreaseBalanceOf tx.To tx.Amount
      if r2.err then tx.rollBackLoop n r2.db true
      else if tx.Data.length ≠ 0 then
        let r3 := r2.db.DeleteMessageOf tx.To
        if r3.err then tx.rollBackLoop n r3.db true else ⟨r3.db, false⟩
      else ⟨r2.db, false⟩

/-- The method `RollBack` returns nothing: it ends normally (`ok`) or panics. -/
def Transaction.RollBack (tx : Transaction) (db : AccountsDB) : Outcome AccountsDB :=
  let r := tx.rollBackLoop MaxRetryOfExecution db false
  if r.err then Outcome.panic r.db else Outcome.ok r.db

/-! ## core/block.go (the record), core/proof_of_work.go -/

structure Block where
  Timestamp : Int64
  Txs : List Transaction
  PrevBlockHash : Hash
  Hash : Hash
  Nonce : Int64
  Miner : Address

/-- The constructor `NewBlock`; `now` is the value of `time.Now().Unix()`. -/
def NewBlock (now : Int64) (txs : List Transaction) (prevBlockHash : Hash) : Block :=
  { Timestamp := now, Txs := txs, PrevBlockHash := prevBlockHash, Hash := ZeroHash,
    Nonce := Int64.zero, Miner := ZeroAddress }

def targetBits : Nat := 24

structure ProofOfWork where
  block : Block
  target : Nat

def NewProofOfWork (b : Block) : ProofOfWork :=
  { block := b, target := 1 <<< (256 - targetBits) }

/-- Go's `bytes.Join(s, sep)`. -/
def bytesJoin : List (List Byte) → List Byte → List Byte
  | [], _ => []
  | [a], _ => a
  | a :: b :: rest, sep => a ++ sep ++ bytesJoin (b :: rest) sep

/-- The ASCII code of the lower-case hexadecimal digit `d`. -/
def hexDigit (d : Nat) : Byte :=
  if d < 10 then Fin.ofNat (48 + d) else Fin.ofNat (87 + d)

/-- The base-16 digits of `n`, most significant first; the first argument bounds
the number of digits. -/
def hexDigits : Nat → Nat → List Byte
  | 0, _ => []
  | fuel + 1, n =>
    if n < 16 then [hexDigit n] else hexDigits fuel (n / 16) ++ [hexDigit (n % 16)]

/-- The function `IntToHex(n) = []byte(strconv.FormatInt(n, 16))`: a minus sign for a negative
number, then the digits of its magnitude (at most 16 of them for an `int64`). -/
def IntToHex (n : Int64) : List Byte :=
  if n.val < 0 then 45 :: hexDigits 16 n.val.natAbs else hexDigits 16 n.val.natAbs

def ProofOfWork.prepareData (pow : ProofOfWork) (nonce : Int64) : List Byte :=
  let txsHash := pow.block.Txs.map (fun tx => tx.Hash.Bytes)
  bytesJoin
    [pow.block.PrevBlockHash.Bytes,
     IntToHex pow.block.Timestamp,
     IntToHex (Int64.wrap targetBits),
     IntToHex nonce,
     pow.block.Miner.Bytes]
    (bytesJoin txsHash [])

/-- The method `big.Int.SetBytes`: the bytes read as a big-endian unsigned integer. -/
def Hash.toNat (hash : Hash) : Nat :=
  hash.bytes.foldl (fun acc b => acc * 256 + b.val) 0

/-- The loop of `Run`, entered with the current `nonce` and `hash`; the first
argument bounds the rounds left (the loop has at most `MaxInt64` rounds). -/
def ProofOfWork.runLoop (sha : List Byte → Hash) (pow : ProofOfWork) :
    Nat → Int64 → Hash → Int64 × Hash
  | 0, nonce, hash => (nonce, hash)
  | k + 1, nonce, hash =>
    if nonce.val < MaxInt64 then
      let hash1 := sha (pow.prepareData nonce)
      if hash1.toNat < pow.target then (nonce, hash1)
      else pow.runLoop sha k (nonce.add ⟨1, by decide, by decide⟩) hash1
    else (nonce, hash)

def ProofOfWork.Run (sha : List Byte → Hash) (pow : ProofOfWork) : Int64 × Hash :=
  pow.runLoop sha 9223372036854775807 Int64.zero ZeroHash

def ProofOfWork.Validate (sha : List Byte → Hash) (pow : ProofOfWork) : Bool :=
  let hash := sha (pow.prepareData pow.block.Nonce)
  decide (hash.toNat < pow.target)

/-! ## core/blockDB.go -/

/-- The contents of `blocks_bucket`: the blocks keyed by hash and the bytes stored
under the key `last_block_hash`. -/
structure BlocksBucket where
  blocks : Hash → Option Block
  last : Option (List Byte)

/-- The bolt store behind `BlocksDB`: its bucket (`none` when the bucket does not
exist) and, for each coming update transaction in turn, whether bolt fails to
commit it (no entry: the commit succeeds). -/
structure BlocksDB where
  bucket : Option BlocksBucket
  faults : List Bool

/-- The method `AddBlock`: the store afterwards and whether a non-nil error was returned. -/
def BlocksDB.AddBlock (db : BlocksDB) (block : Block) : BlocksDB × Bool :=
  match db.bucket with
  | none => ({ db with faults := db.faults.tail }, true)
  | some bkt =>
    if db.faults.head? = some true then ({ db with faults := db.faults.tail }, true)
    else
      ({ bucket := some { bkt with
            blocks := fun h => if h = block.Hash then some block else bkt.blocks h },
         faults := db.faults.tail }, false)

def BlocksDB.addBlockLoop (block : Block) : Nat → BlocksDB → Bool → BlocksDB × Bool
  | 0, db, err => (db, err)
  | n + 1, db, _ =>
    let r := db.AddBlock block
    if r.2 then BlocksDB.addBlockLoop block n r.1 true else (r.1, false)

def BlocksDB.AddBlockWithRetry (db : BlocksDB) (block : Block) (maxRetry : Int) :
    BlocksDB × Bool :=
  BlocksDB.addBlockLoop block maxRetry.toNat db false

/-! ## core/block.go: BePackaged -/

def MaxRetryOfAddingBlock : Int := 5

def MinerAwardForOneBlock : Int64 := ⟨10, by decide, by decide⟩

/-- The variables of the first loop of `BePackaged`. -/
structure ExecLoop where
  realTxs : List Transaction
  notPackagedTxs : List Transaction
  db : AccountsDB

/-- The loop `for _, tx := range b.Txs` that executes the proposed transactions. -/
def execLoop : List Transaction → ExecLoop → Outcome ExecLoop
  | [], st => Outcome.ok st
  | tx :: rest, st =>
    match tx.Exec st.db with
    | Outcome.ok db1 => execLoop rest { st with realTxs := st.realTxs ++ [tx], db := db1 }
    | Outcome.error db1 =>
      execLoop rest { st with notPackagedTxs := st.notPackagedTxs ++ [tx], db := db1 }
    | Outcome.panic db1 => Outcome.panic { st with db := db1 }

/-- The loop `for _, tx := range realTxs { tx.RollBack(accountsDB) }`. -/
def rollBackAll : List Transaction → AccountsDB → Outcome AccountsDB
  | [], db => Outcome.ok db
  | tx :: rest, db =>
    match tx.RollBack db with
    | Outcome.ok db1 => rollBackAll rest db1
    | o => Outcome.panic o.state

/-- The loop `for _, tx := range b.Txs { award += tx.Fee }`. -/
def awardOf (txs : List Transaction) : Int64 :=
  txs.foldl (fun award tx => award.add tx.Fee) MinerAwardForOneBlock

/-- What `BePackaged` leaves behind: the block, both stores and the returned slice. -/
structure Packaging where
  block : Block
  blocksDB : BlocksDB
  accountsDB : AccountsDB
  returned : List Transaction

def Block.BePackaged (sha : List Byte → MemoryChain.Hash) (b : Block) (miner : Address)
    (blocksDB : BlocksDB) (accountsDB : AccountsDB) : Outcome Packaging :=
  match execLoop b.Txs ⟨[], [], accountsDB⟩ with
  | Outcome.ok st =>
    if st.realTxs.length = 0 then Outcome.error ⟨b, blocksDB, st.db, []⟩
    else
      let oldB := b
      let b1 := { b with Txs := st.realTxs }
      let pow := NewProofOfWork b1
      let (nonce, hash) := pow.Run sha
      let b2 := { b1 with Nonce := nonce, Hash := hash, Miner := miner }
      let award := awardOf b2.Txs
      let r := st.db.IncreaseBalanceOf b2.Miner award
      if r.err then
        match rollBackAll st.realTxs r.db with
        | Outcome.ok db2 =>
          Outcome.error
            ⟨{ b2 with Txs := oldB.Txs, Nonce := oldB.Nonce, Hash := oldB.Hash,
                       Miner := oldB.Miner }, blocksDB, db2, []⟩
        | o => Outcome.panic ⟨b2, blocksDB, o.state, []⟩
      else
        let added := blocksDB.AddBlockWithRetry b2 MaxRetryOfAddingBlock
        if added.2 then
          match rollBackAll st.realTxs r.db with
          | Outcome.ok db2 =>
            Outcome.error
              ⟨{ b2 with Txs := oldB.Txs, Nonce := oldB.Nonce, Hash := oldB.Hash,
                         Miner := oldB.Miner }, added.1, db2, []⟩
          | o => Outcome.panic ⟨b2, added.1, o.state, []⟩
        else Outcome.ok ⟨b2, added.1, r.db, st.notPackagedTxs⟩
  | o => Outcome.panic ⟨b, blocksDB, o.state.db, []⟩

/-! ## Quantities the statements are written with -/

/-- The state in which the first loop of `BePackaged` leaves its variables. -/
def executed (txs : List Transaction) (db : AccountsDB) : ExecLoop :=
  (execLoop txs ⟨[], [], db⟩).state

/-- For each proposed transaction in turn, whether its `Exec` returns nil when the
transactions are executed one after another on the evolving account store. -/
def execFlags : List Transaction → AccountsDB → List Bool
  | [], _ => []
  | tx :: rest, db =>
    match tx.Exec db with
    | Outcome.ok db1 => true :: execFlags rest db1
    | o => false :: execFlags rest o.state

/-- The transactions whose flag is `keep`, in the order of the list. -/
def pick (keep : Bool) : List Transaction → List Bool → List Transaction
  | tx :: txs, f :: fs => if f = keep then tx :: pick keep txs fs else pick keep txs fs
  | _, _ => []

/-- The total that the transactions of `txs` debit from `a`: the sum of
`tx.Fee + tx.Amount` (as Go computes it) over those sent by `a`. -/
def debited (txs : List Transaction) (a : Address) : Int :=
  (txs.map (fun tx => if tx.From = a then (tx.Fee.add tx.Amount).val else 0)).sum

/-- The total that the transactions of `txs` credit to `a`: the sum of `tx.Amount`
over those sent to `a`. -/
def credited (txs : List Transaction) (a : Address) : Int :=
  (txs.map (fun tx => if tx.To = a then tx.Amount.val else 0)).sum

/-- The messages that the transactions of `txs` append to the list of `a`. -/
def delivered (txs : List Transaction) (a : Address) : List (List Byte) :=
  (txs.filter (fun tx => decide (tx.To = a) && decide (tx.Data.length ≠ 0))).map
    (fun tx => tx.Data)

/-- The block as `BePackaged` completes it: the executed transactions, the nonce and
hash returned by `Run` (which is called before `b.Miner` is assigned), and the miner. -/
def packagedBlock (sha : List Byte → Hash) (b : Block) (miner : Address)
    (db : AccountsDB) : Block :=
  { b with
    Txs := (executed b.Txs db).realTxs
    Nonce := ((NewProofOfWork { b with Txs := (executed b.Txs db).realTxs }).Run sha).1
    Hash := ((NewProofOfWork { b with Txs := (executed b.Txs db).realTxs }).Run sha).2
    Miner := miner }

/-- The exact sum of the fees of `txs`. -/
def feeSum (txs : List Transaction) : Int :=
  (txs.map (fun tx => tx.Fee.val)).sum

/-! ## Concrete inputs

The transactions, stores and digest functions on which the statements below are
evaluated. -/

/-- The constant `math.MaxInt64` as an `int64`. -/
def maxInt64 : Int64 := ⟨9223372036854775807, by decide, by decide⟩

/-- A digest function that sends every input to the zero hash.  It instantiates the
digest argument where `BePackaged` is evaluated on a concrete block: the nonce search
then stops at nonce 0. -/
def zeroDigest : List Byte → Hash := fun _ => ZeroHash

/-- The transfer of scenario S2: 1000 units and the message "hi" from `0x…02` to
`0x…03`, fee 2. -/
def txS2 : Transaction :=
  { From := wellKnown 2, To := wellKnown 3, Data := [104, 105],
    Amount := ⟨1000, by decide, by decide⟩, Fee := ⟨2, by decide, by decide⟩,
    Hash := ZeroHash }

/-- A transfer of 1 unit, fee 2, from `0x…02` to itself. -/
def txSelf : Transaction :=
  { From := wellKnown 2, To := wellKnown 2, Data := [],
    Amount := ⟨1, by decide, by decide⟩, Fee := ⟨2, by decide, by decide⟩,
    Hash := ZeroHash }

/-- A store whose only row gives `0x…02` the balance `MaxInt64`. -/
def dbMax2 : AccountsDB :=
  ⟨fun k => if k = wellKnown 2 then some (NewAccount k maxInt64) else none⟩

/-- A transfer of 5 units, fee 2, from the never-funded address `0x…0a` to `0x…01`. -/
def txOverdraft : Transaction :=
  { From := wellKnown 10, To := wellKnown 1, Data := [],
    Amount := ⟨5, by decide, by decide⟩, Fee := ⟨2, by decide, by decide⟩,
    Hash := ZeroHash }

/-- A transfer of 1 unit, fee 2, from `0x…01` to `0x…02`. -/
def txTo2 : Transaction :=
  { From := wellKnown 1, To := wellKnown 2, Data := [7],
    Amount := ⟨1, by decide, by decide⟩, Fee := ⟨2, by decide, by decide⟩,
    Hash := ZeroHash }

/-- The initial store in which `0x…02` holds `MaxInt64` instead of `10^10`. -/
def dbFull2 : AccountsDB :=
  ⟨fun k => if k = wellKnown 2 then some (NewAccount k maxInt64) else NewAccountsDB.rows k⟩

/-- A digest function whose first byte is the sum of the input bytes modulo 256 and
whose other bytes are zero: unlike `zeroDigest` it depends on every byte of its input. -/
def byteSumDigest (data : List Byte) : Hash :=
  ⟨data.foldl (fun acc x => acc + x) 0 :: List.replicate 31 0, by simp⟩

/-- The creation time of the example blocks, in seconds since the epoch. -/
def timeS2 : Int64 := ⟨1700003820, by decide, by decide⟩

/-- A block store with an empty bucket whose update transactions all commit. -/
def blocksOk : BlocksDB := ⟨some ⟨fun _ => none, none⟩, []⟩

/-- A block store with an empty bucket whose next five update transactions fail. -/
def blocksFailing : BlocksDB := ⟨some ⟨fun _ => none, none⟩, [true, true, true, true, true]⟩

/-- The initial store in which the miner `0x…01` holds `MaxInt64` instead of `10^10`. -/
def dbMinerFull : AccountsDB :=
  ⟨fun k => if k = wellKnown 1 then some (NewAccount k maxInt64) else NewAccountsDB.rows k⟩

/-- The store `dbMinerFull` in which, moreover, `0x…02` holds `MaxInt64 - 5`. -/
def dbNearFull : AccountsDB :=
  ⟨fun k =>
    if k = wellKnown 2 then
      some (NewAccount k ⟨9223372036854775802, by decide, by decide⟩)
    else dbMinerFull.rows k⟩

/-- A transfer of 10 units, fee 2, from `0x…02` to `0x…03`. -/
def txOut2 : Transaction :=
  { From := wellKnown 2, To := wellKnown 3, Data := [],
    Amount := ⟨10, by decide, by decide⟩, Fee := ⟨2, by decide, by decide⟩,
    Hash := ZeroHash }

/-- A transfer of 12 units, fee 2, from `0x…04` to `0x…02`. -/
def txIn2 : Transaction :=
  { From := wellKnown 4, To := wellKnown 2, Data := [],
    Amount := ⟨12, by decide, by decide⟩, Fee := ⟨2, by decide, by decide⟩,
    Hash := ZeroHash }

/-- The initial store in which the miner `0x…01` holds `MaxInt64 - 10`. -/
def dbMinerNearFull : AccountsDB :=
  ⟨fun k =>
    if k = wellKnown 1 then
      some (NewAccount k ⟨9223372036854775797, by decide, by decide⟩)
    else NewAccountsDB.rows k⟩

/-- A transfer of 1 unit, fee 2, from the miner `0x…01` to `0x…03`. -/
def txFromMiner : Transaction :=
  { From := wellKnown 1, To := wellKnown 3, Data := [],
    Amount := ⟨1, by decide, by decide⟩, Fee := ⟨2, by decide, by decide⟩,
    Hash := ZeroHash }

/-! ## core/transaction.go: NewTransaction -/

/-- The number of binary digits of `n` (none for 0); the first argument bounds the
number of digits. -/
def bitLen : Nat → Nat → Nat
  | 0, _ => 0
  | fuel + 1, n => if n = 0 then 0 else bitLen fuel (n / 2) + 1

/-- The natural number with at most 53 significant bits that is nearest to `n`, ties
going to the even significand: the rounding of IEEE-754 binary64 (`float64`). -/
def round53 (n : Nat) : Nat :=
  let len := bitLen n n
  if len ≤ 53 then n
  else
    let s := len - 53
    let q := n / 2 ^ s
    let r := n % 2 ^ s
    let half := 2 ^ (s - 1)
    if half < r ∨ (r = half ∧ q % 2 = 1) then (q + 1) * 2 ^ s else q * 2 ^ s

/-- The value of `math.Floor(ratio * float64(x))` for the `float64` constant
`ratio = c / 2^k` and an integer `x ≥ 0`: `x` is converted to `float64`, the exact
product is rounded to `float64`, and the floor of the result is taken.  (All values
are zero or lie in the normal range of `float64`, where rounding is `round53` on the
numerator.) -/
def floorMulFloat64 (c k : Nat) (x : Nat) : Nat :=
  round53 (c * round53 x) / 2 ^ k

def MaxLengthOfData : Nat := 256

/-- The function `NewTransaction`; `message` is given by its bytes (`[]byte(message)`), and `none`
stands for the error return.  `DataFeeRatio = 0.1` is the `float64`
`3602879701896397 / 2^55`, `AmountFeeRatio = 0.0001` is `7378697629483821 / 2^66`, and
`math.MaxInt64`, compared with a `float64`, is `2^63`. -/
def NewTransaction (sha : List Byte → Hash) (sender recipient : Address)
    (message : List Byte) (amount : Int64) : Option Transaction :=
  if amount.val < 0 then none
  else
    let data := message
    if data.length > MaxLengthOfData then none
    else
      let dataFeeFloat64 := floorMulFloat64 3602879701896397 55 data.length
      if dataFeeFloat64 ≥ 9223372036854775808 ∨
          (dataFeeFloat64 : Int) ≤ -9223372036854775808 then none
      else
        let dataFee0 := Int64.wrap dataFeeFloat64
        let dataFee : Int64 := if dataFee0.val < 1 then ⟨1, by decide, by decide⟩ else dataFee0
        let amountFeeFloat64 := floorMulFloat64 7378697629483821 66 amount.val.toNat
        if amountFeeFloat64 ≥ 9223372036854775808 ∨
            (amountFeeFloat64 : Int) ≤ -9223372036854775808 then none
        else
          let amountFee0 := Int64.wrap amountFeeFloat64
          let amountFee : Int64 :=
            if amountFee0.val < 1 then ⟨1, by decide, by decide⟩ else amountFee0
          let tx : Transaction :=
            { From := sender, To := recipient, Data := data, Amount := amount,
              Fee := dataFee.add amountFee, Hash := ZeroHash }
          let txData := bytesJoin
            [tx.From.Bytes, tx.To.Bytes, tx.Data, IntToHex tx.Amount, IntToHex tx.Fee] []
          some { tx with Hash := sha txData }

/-! ## core/txs_pool.go, core/tx_poolsDB.go -/

structure TxsPool where
  Txs : List Transaction

def DefaultNumberOfTxsInBlock : Nat := 10

def TxsPool.getAllTxs (p : TxsPool) : List Transaction := p.Txs

/-- The method `getSomeTxs`, for a `number ≥ 0`. -/
def TxsPool.getSomeTxs (p : TxsPool) (number : Nat) : List Transaction :=
  if p.Txs.length ≤ number then p.getAllTxs else p.Txs.take number

def TxsPool.addTxs (p : TxsPool) (txs : List Transaction) : TxsPool :=
  { Txs := p.Txs ++ txs }

def TxsPool.leftAddTxs (p : TxsPool) (txs : List Transaction) : TxsPool :=
  { Txs := txs ++ p.Txs }

/-- The method `deleteSomeTxs`, for a `number ≥ 0`. -/
def TxsPool.deleteSomeTxs (p : TxsPool) (number : Nat) : TxsPool :=
  if p.Txs.length ≤ number then { Txs := [] } else { Txs := p.Txs.drop number }

/-- The in-memory side of `TxsPoolDB`.  Its `flush()` runs in a goroutine of its own
and writes the pool to bolt without changing it; it is not part of this model. -/
structure TxsPoolDB where
  TxsPool : TxsPool

def TxsPoolDB.GetAllTxs (db : TxsPoolDB) : List Transaction := db.TxsPool.getAllTxs

def TxsPoolDB.GetSomeTxs (db : TxsPoolDB) (number : Nat) : List Transaction :=
  db.TxsPool.getSomeTxs number

def TxsPoolDB.AddTxs (db : TxsPoolDB) (txs : List Transaction) : TxsPoolDB :=
  { TxsPool := db.TxsPool.addTxs txs }

def TxsPoolDB.LeftAddTxs (db : TxsPoolDB) (txs : List Transaction) : TxsPoolDB :=
  { TxsPool := db.TxsPool.leftAddTxs txs }

def TxsPoolDB.DeleteSomeTxs (db : TxsPoolDB) (number : Nat) : TxsPoolDB :=
  { TxsPool := db.TxsPool.deleteSomeTxs number }

/-! ## core/blockDB.go, common/hash.go: the stored tip -/

/-- The function `DeserializeHash`; `none` stands for the error return.  The Go code
declares `var hash Hash`, checks the length of `d` and returns `hash` without copying
`d` into it. -/
def DeserializeHash (d : List Byte) : Option Hash :=
  if d.length ≠ 32 then none else some ZeroHash

def NewGenesisBlock (now : Int64) : Block := NewBlock now [] ZeroHash

/-- The store that `NewBlocksDB` creates when the bucket does not exist yet: the genesis
block under its hash, and that hash under `last_block_hash`. -/
def NewBlocksDB (now : Int64) : BlocksDB :=
  { bucket := some
      { blocks := fun h =>
          if h = (NewGenesisBlock now).Hash then some (NewGenesisBlock now) else none
        last := some (NewGenesisBlock now).Hash.Bytes }
    faults := [] }

/-- The method `GetLastBlockHash`; `none` stands for the error return. -/
def BlocksDB.GetLastBlockHash (db : BlocksDB) : Option Hash :=
  match db.bucket with
  | none => none
  | some bkt =>
    match bkt.last with
    | none => DeserializeHash []
    | some d => DeserializeHash d

/-! ## core/blockchain.go -/

/-- The method `GetBlock`; `none` stands for the error return. -/
def BlocksDB.GetBlock (db : BlocksDB) (hash : Hash) : Option Block :=
  match db.bucket with
  | none => none
  | some bkt => bkt.blocks hash

/-- The record `Blockchain`, without its `TransactionsDB`, which no method reads or
writes. -/
structure Blockchain where
  Tip : Hash
  BlocksDB : BlocksDB
  AccountsDB : AccountsDB
  TxsPoolDB : TxsPoolDB

/-- The method `SendTransaction`: the blockchain afterwards and whether a non-nil error
was returned. -/
def Blockchain.SendTransaction (bc : Blockchain) (tx : Transaction) : Blockchain × Bool :=
  let got := bc.AccountsDB.GetBalanceOf tx.From
  let balance := got.1
  if balance.val < (tx.Amount.add tx.Fee).val then
    ({ bc with AccountsDB := got.2 }, true)
  else
    ({ bc with AccountsDB := got.2, TxsPoolDB := bc.TxsPoolDB.AddTxs [tx] }, false)

/-- The method `MineBlock`; `now` is the value of `time.Now().Unix()` read by `NewBlock`. -/
def Blockchain.MineBlock (sha : List Byte → Hash) (now : Int64) (bc : Blockchain)
    (miner : Address) : Outcome Blockchain :=
  let txs := bc.TxsPoolDB.GetSomeTxs DefaultNumberOfTxsInBlock
  if txs.length = 0 then Outcome.error bc
  else
    let realTxsCount := txs.length
    let block := NewBlock now txs bc.Tip
    match block.BePackaged sha miner bc.BlocksDB bc.AccountsDB with
    | Outcome.ok r =>
      Outcome.ok
        { bc with
          BlocksDB := r.blocksDB
          AccountsDB := r.accountsDB
          TxsPoolDB := (bc.TxsPoolDB.DeleteSomeTxs realTxsCount).LeftAddTxs r.returned }
    | Outcome.error r =>
      Outcome.error { bc with BlocksDB := r.blocksDB, AccountsDB := r.accountsDB }
    | Outcome.panic r =>
      Outcome.panic { bc with BlocksDB := r.blocksDB, AccountsDB := r.accountsDB }

/-- The function `NewBlockchain` on a data directory that holds no store yet: the four
stores are created, the pool is empty and `Tip` is read with `GetLastBlockHash`. -/
def NewBlockchain (now : Int64) : Option Blockchain :=
  match (NewBlocksDB now).GetLastBlockHash with
  | none => none
  | some tip =>
    some { Tip := tip, BlocksDB := NewBlocksDB now, AccountsDB := NewAccountsDB,
           TxsPoolDB := { TxsPool := { Txs := [] } } }

/-! ## Quantities the statements on NewTransaction and MineBlock are written with -/

/-- The ASCII codes of `0123456789abcdef`. -/
def lowerHex : List Byte :=
  [48, 49, 50, 51, 52, 53, 54, 55, 56, 57, 97, 98, 99, 100, 101, 102]

/-- The unprefixed, unpadded lower-case base-16 rendering of a natural number: its
base-16 digits without leading zeros, most significant first (`0` for zero). -/
def hexAscii (n : Nat) : List Byte :=
  if n = 0 then [48] else (Nat.digits 16 n).reverse.map (fun d => lowerHex.getD d 0)

/-- The PoW input as the specification lays it out: the five fields, then the hashes
of the transactions, with nothing in between. -/
def specPowInput (b : Block) (nonce : Int64) : List Byte :=
  b.PrevBlockHash.Bytes ++ IntToHex b.Timestamp ++ IntToHex (Int64.wrap 24) ++
    IntToHex nonce ++ b.Miner.Bytes ++ (b.Txs.map (fun tx => tx.Hash.Bytes)).flatten

/-- The block that a successful `MineBlock` commits: the block that `BePackaged`
completes from the peeked transactions and `bc.Tip`. -/
def Blockchain.minedBlock (sha : List Byte → Hash) (now : Int64) (bc : Blockchain)
    (miner : Address) : Block :=
  packagedBlock sha (NewBlock now (bc.TxsPoolDB.GetSomeTxs DefaultNumberOfTxsInBlock) bc.Tip)
    miner bc.AccountsDB

/-! ## Concrete inputs for NewTransaction, Run and MineBlock -/

/-- A block with no transaction whose miner field is `0x…fd`; with `byteSumDigest` the
first nonce whose digest is below the target is 3. -/
def blockSearch : Block :=
  { NewBlock timeS2 [] ZeroHash with Miner := wellKnown 253 }

/-- A digest function whose first three bytes are zero, so that every digest is below
the target; its fourth byte is the sum of the input bytes modulo 256 and its last byte
is 1. -/
def tagDigest (data : List Byte) : Hash :=
  ⟨[0, 0, 0, data.foldl (fun acc x => acc + x) 0] ++ List.replicate 27 0 ++ [1], by simp⟩

/-- The transaction that `NewTransaction` builds for the amount `10^16 - 1` and no
message, sent from `0x…02` to `0x…03`: its fee is `1 + 10^12`. -/
def txFloat : Transaction :=
  { From := wellKnown 2, To := wellKnown 3, Data := [],
    Amount := ⟨9999999999999999, by decide, by decide⟩,
    Fee := ⟨1000000000001, by decide, by decide⟩, Hash := ZeroHash }

/-- The transaction that `NewTransaction` builds for the amount `MaxInt64` and no
message, sent from `0x…02` to `0x…03`: its fee is `1 + 922337203685477`. -/
def txMax : Transaction :=
  { From := wellKnown 2, To := wellKnown 3, Data := [],
    Amount := maxInt64, Fee := ⟨922337203685478, by decide, by decide⟩, Hash := ZeroHash }

/-- The blockchain that `NewBlockchain` returns on an empty data directory. -/
def freshChain (now : Int64) : Blockchain :=
  { Tip := ZeroHash, BlocksDB := NewBlocksDB now, AccountsDB := NewAccountsDB,
    TxsPoolDB := { TxsPool := { Txs := [] } } }

/-- The creation time of the genesis block of the examples. -/
def timeGenesis : Int64 := ⟨1700000000, by decide, by decide⟩

/-- A later block time. -/
def timeLater : Int64 := ⟨1700003830, by decide, by decide⟩

/-- The fresh blockchain after `SendTransaction(txS2)`. -/
def chainSent : Blockchain := ((freshChain timeGenesis).SendTransaction txS2).1

/-- The blockchain `chainSent` after a `MineBlock` for the miner `0x…01` at `timeS2`,
with the digest `tagDigest`. -/
def chainMined : Blockchain := (chainSent.MineBlock tagDigest timeS2 (wellKnown 1)).state

/-- The blockchain `chainMined` after `SendTransaction(txOut2)`. -/
def chainSentAgain : Blockchain := (chainMined.SendTransaction txOut2).1

/-- A blockchain whose pool holds `txTo2`, which fails `Exec` on `dbFull2`, then S2. -/
def chainMixed : Blockchain :=
  { Tip := ZeroHash, BlocksDB := NewBlocksDB timeGenesis, AccountsDB := dbFull2,
    TxsPoolDB := { TxsPool := { Txs := [txTo2, txS2] } } }

/-- A blockchain whose pool holds only `txTo2`, which fails `Exec` on `dbFull2`. -/
def chainFailing : Blockchain :=
  { Tip := ZeroHash, BlocksDB := NewBlocksDB timeGenesis, AccountsDB := dbFull2,
    TxsPoolDB := { TxsPool := { Txs := [txTo2] } } }

/-! ## common/address.go, common/hash.go: the hex codec

A Go `string` is the list of its bytes (`len` counts bytes). -/

/-- Go's `strings.HasPrefix(hexS, "0x")`. -/
def hasPrefix0x (hexS : List Byte) : Bool := decide (hexS.take 2 = [48, 120])

/-- The value of a hexadecimal character as `encoding/hex` reads it (`0`-`9`, `a`-`f`,
`A`-`F`); `none` for any other byte. -/
def fromHexChar (c : Byte) : Option Nat :=
  if 48 ≤ c.val ∧ c.val ≤ 57 then some (c.val - 48)
  else if 97 ≤ c.val ∧ c.val ≤ 102 then some (c.val - 87)
  else if 65 ≤ c.val ∧ c.val ≤ 70 then some (c.val - 55)
  else none

/-- Go's `hex.DecodeString` (standard library): the bytes decoded before the end or the
first error, and whether an error was returned.  Two characters give one byte,
`(a << 4) | b`; a character that is no hexadecimal digit, or an odd length, is an
error. -/
def hexDecodeString : List Byte → List Byte × Bool
  | [] => ([], false)
  | [_] => ([], true)
  | p :: q :: rest =>
    match fromHexChar p, fromHexChar q with
    | some a, some b => (Fin.ofNat (a * 16 + b) :: (hexDecodeString rest).1,
        (hexDecodeString rest).2)
    | _, _ => ([], true)

/-- Go's `fmt.Sprintf("%x", b)` for a byte array `b`: two lower-case hexadecimal digits
per byte. -/
def hexEncode (bs : List Byte) : List Byte :=
  bs.flatMap (fun b => [hexDigit (b.val / 16), hexDigit (b.val % 16)])

def Address.Hex (addr : Address) (withPrefix : Bool) : List Byte :=
  if withPrefix then [48, 120] ++ hexEncode addr.bytes else hexEncode addr.bytes

def Hash.Hex (hash : Hash) (withPrefix : Bool) : List Byte :=
  if withPrefix then [48, 120] ++ hexEncode hash.bytes else hexEncode hash.bytes

/-- The function `NewAddress`: the address returned and whether a non-nil error was
returned. -/
def NewAddress (hexS : List Byte) : Address × Bool :=
  if ¬ hasPrefix0x hexS then (ZeroAddress, true)
  else if hexS.length ≠ 42 then (ZeroAddress, true)
  else
    if h : (hexDecodeString (hexS.drop 2)).2 = true ∨
        (hexDecodeString (hexS.drop 2)).1.length ≠ 20 then (ZeroAddress, true)
    else (⟨(hexDecodeString (hexS.drop 2)).1, Decidable.of_not_not (fun e => h (Or.inr e))⟩,
      false)

/-- The function `NewHash`: the hash returned and whether a non-nil error was
returned. -/
def NewHash (hexS : List Byte) : Hash × Bool :=
  if ¬ hasPrefix0x hexS then (ZeroHash, true)
  else if hexS.length ≠ 66 then (ZeroHash, true)
  else
    if h : (hexDecodeString (hexS.drop 2)).2 = true ∨
        (hexDecodeString (hexS.drop 2)).1.length ≠ 32 then (ZeroHash, true)
    else (⟨(hexDecodeString (hexS.drop 2)).1, Decidable.of_not_not (fun e => h (Or.inr e))⟩,
      false)

def Address.Serialize (addr : Address) : List Byte := addr.Bytes

def Hash.Serialize (hash : Hash) : List Byte := hash.Bytes

/-- The ASCII codes of the hexadecimal digits `0123456789abcdefABCDEF`. -/
def hexChars : List Byte := lowerHex ++ [65, 66, 67, 68, 69, 70]

/-- The literal `"0x0000000000000000000000000000000000000001"` of `initAccounts`, with
the last character the digit `n`. -/
def wellKnownHex (n : Nat) : List Byte :=
  [48, 120] ++ List.replicate 39 48 ++ [hexDigit n]

/-! ## core/blockchain.go: the block iterator -/

/-- The record `BlocksIterator`.  The Go field `db` points to the store of the
blockchain; here the iterator carries the store as it is while the calls of `Next` are
made. -/
structure BlocksIterator where
  currentHash : Hash
  db : BlocksDB

def Blockchain.BlocksIterator (bc : Blockchain) : MemoryChain.BlocksIterator :=
  { currentHash := bc.Tip, db := bc.BlocksDB }

/-- The method `Next`: the iterator afterwards and the block returned, `none` for the
error return. -/
def BlocksIterator.Next (i : BlocksIterator) : BlocksIterator × Option Block :=
  match i.db.GetBlock i.currentHash with
  | none => (i, none)
  | some block => ({ i with currentHash := block.PrevBlockHash }, some block)

/-- The iterator after `n` calls of `Next`. -/
def BlocksIterator.after : Nat → BlocksIterator → BlocksIterator
  | 0, i => i
  | n + 1, i => BlocksIterator.after n i.Next.1

/-- The results of `n` successive calls of `Next`. -/
def BlocksIterator.nexts : Nat → BlocksIterator → List (Option Block)
  | 0, _ => []
  | n + 1, i => i.Next.2 :: BlocksIterator.nexts n i.Next.1

/-- One call made on a blockchain: `SendTransaction(tx)`, or `MineBlock(miner)` at the
time `now`. -/
inductive Call where
  | send (tx : Transaction)
  | mine (now : Int64) (miner : Address)

/-- The blockchain after a sequence of calls, each made on the state the one before
left, whether that call succeeded or failed. -/
def Blockchain.run (sha : List Byte → Hash) : List Call → Blockchain → Blockchain
  | [], bc => bc
  | Call.send tx :: rest, bc => Blockchain.run sha rest (bc.SendTransaction tx).1
  | Call.mine now miner :: rest, bc => Blockchain.run sha rest (bc.MineBlock sha now miner).state

/-! ## Quantities the statements on supply and on the hash input are written with -/

/-- The byte string `txData` that `NewTransaction` hashes, built from the fields of
`tx`. -/
def Transaction.hashInput (tx : Transaction) : List Byte :=
  bytesJoin [tx.From.Bytes, tx.To.Bytes, tx.Data, IntToHex tx.Amount, IntToHex tx.Fee] []

/-- The exact sum of the balances of the accounts `addrs`, each read through
`GetAccountOf`. -/
def totalBalance (db : AccountsDB) (addrs : List Address) : Int :=
  (addrs.map (fun a => db.balance a)).sum

/-! ## The account store -/

theorem Int64.wrap_val (x : Int) :
    (Int64.wrap x).val = (x + 9223372036854775808) % 18446744073709551616 - 9223372036854775808 := rfl

theorem Int64.add_val (a b : Int64) :
    (a.add b).val = (a.val + b.val + 9223372036854775808) % 18446744073709551616 - 9223372036854775808 := rfl

theorem Int64.sub_val (a b : Int64) :
    (a.sub b).val = (a.val - b.val + 9223372036854775808) % 18446744073709551616 - 9223372036854775808 := rfl

theorem AccountsDB.balance_lo (db : AccountsDB) (a : Address) : -9223372036854775808 ≤ db.balance a :=
  (db.GetAccountOf a).1.Balance.lo

theorem AccountsDB.balance_hi (db : AccountsDB) (a : Address) : db.balance a ≤ 9223372036854775807 :=
  (db.GetAccountOf a).1.Balance.hi

theorem AccountsDB.balance_put (db : AccountsDB) (a k : Address) (acc : Account) :
    (db.put a acc).balance k = if k = a then acc.Balance.val else db.balance k := by
  unfold AccountsDB.balance AccountsDB.GetAccountOf AccountsDB.put
  by_cases h : k = a
  · simp [h]
  · simp only [h, if_false]
    cases db.rows k <;> rfl

theorem AccountsDB.messages_put (db : AccountsDB) (a k : Address) (acc : Account) :
    (db.put a acc).messages k = if k = a then acc.Messages else db.messages k := by
  unfold AccountsDB.messages AccountsDB.GetAccountOf AccountsDB.put
  by_cases h : k = a
  · simp [h]
  · simp only [h, if_false]
    cases db.rows k <;> rfl

theorem AccountsDB.GetAccountOf_balance (db : AccountsDB) (a k : Address) :
    (db.GetAccountOf a).2.balance k = db.balance k := by
  unfold AccountsDB.GetAccountOf
  cases h : db.rows a with
  | some acc => rfl
  | none =>
    simp only [AccountsDB.balance_put]
    split
    · next hk => subst hk; simp [AccountsDB.balance, AccountsDB.GetAccountOf, h]
    · rfl

theorem AccountsDB.GetAccountOf_messages (db : AccountsDB) (a k : Address) :
    (db.GetAccountOf a).2.messages k = db.messages k := by
  unfold AccountsDB.GetAccountOf
  cases h : db.rows a with
  | some acc => rfl
  | none =>
    simp only [AccountsDB.messages_put]
    split
    · next hk => subst hk; simp [AccountsDB.messages, AccountsDB.GetAccountOf, h]
    · rfl



theorem AccountsDB.IncreaseBalanceOf_eq (db : AccountsDB) (a : Address) (x : Int64) :
    db.IncreaseBalanceOf a x =
      if x.val < 0 then ⟨db, true⟩
      else if ((db.GetAccountOf a).1.Balance.add x).val < (db.GetAccountOf a).1.Balance.val then
        ⟨(db.GetAccountOf a).2, true⟩
      else ⟨(db.GetAccountOf a).2.put a
        { (db.GetAccountOf a).1 with Balance := (db.GetAccountOf a).1.Balance.add x }, false⟩ := rfl

theorem AccountsDB.DecreaseBalanceOf_eq (db : AccountsDB) (a : Address) (x : Int64) :
    db.DecreaseBalanceOf a x =
      if x.val < 0 then ⟨db, true⟩
      else if ((db.GetAccountOf a).1.Balance.sub x).val > (db.GetAccountOf a).1.Balance.val then
        ⟨(db.GetAccountOf a).2, true⟩
      else ⟨(db.GetAccountOf a).2.put a
        { (db.GetAccountOf a).1 with Balance := (db.GetAccountOf a).1.Balance.sub x }, false⟩ := rfl

theorem AccountsDB.PutMessagesTo_eq (db : AccountsDB) (a : Address) (m : List Byte) :
    db.PutMessagesTo a m =
      ⟨(db.GetAccountOf a).2.put a
        { (db.GetAccountOf a).1 with Messages := (db.GetAccountOf a).1.Messages ++ [m] }, false⟩ := rfl

theorem AccountsDB.DeleteMessageOf_eq (db : AccountsDB) (a : Address) :
    db.DeleteMessageOf a =
      if (db.GetAccountOf a).1.Messages.length = 0 then ⟨(db.GetAccountOf a).2, true⟩
      else ⟨(db.GetAccountOf a).2.put a
        { (db.GetAccountOf a).1 with Messages := (db.GetAccountOf a).1.Messages.dropLast }, false⟩ := rfl

theorem AccountsDB.IncreaseBalanceOf_err (db : AccountsDB) (a : Address) (x : Int64) :
    (db.IncreaseBalanceOf a x).err = true ↔
      (x.val < 0 ∨ 9223372036854775807 < db.balance a + x.val) := by
  have hlo := db.balance_lo a
  have hhi := db.balance_hi a
  have xlo := x.lo
  have xhi := x.hi
  have hb : (db.GetAccountOf a).1.Balance.val = db.balance a := rfl
  rw [AccountsDB.IncreaseBalanceOf_eq]
  simp only [Int64.add_val]
  split
  · simp; omega
  · split
    · simp; omega
    · simp; omega

theorem AccountsDB.IncreaseBalanceOf_balance (db : AccountsDB) (a k : Address) (x : Int64) :
    (db.IncreaseBalanceOf a x).db.balance k =
      if (db.IncreaseBalanceOf a x).err = true then db.balance k
      else if k = a then db.balance a + x.val else db.balance k := by
  have hlo := db.balance_lo a
  have hhi := db.balance_hi a
  have xlo := x.lo
  have xhi := x.hi
  have hb : (db.GetAccountOf a).1.Balance.val = db.balance a := rfl
  rw [AccountsDB.IncreaseBalanceOf_eq]
  simp only [Int64.add_val]
  split
  · simp
  · split
    · simp [AccountsDB.GetAccountOf_balance]
    · simp only [AccountsDB.balance_put, AccountsDB.GetAccountOf_balance, Int64.add_val]
      split
      · simp; omega
      · simp

theorem AccountsDB.IncreaseBalanceOf_messages (db : AccountsDB) (a k : Address) (x : Int64) :
    (db.IncreaseBalanceOf a x).db.messages k = db.messages k := by
  have hb : (db.GetAccountOf a).1.Messages = db.messages a := rfl
  rw [AccountsDB.IncreaseBalanceOf_eq]
  split
  · rfl
  · split
    · simp [AccountsDB.GetAccountOf_messages]
    · simp only [AccountsDB.messages_put, AccountsDB.GetAccountOf_messages]
      split
      · next h => subst h; exact hb
      · rfl

theorem AccountsDB.DecreaseBalanceOf_err (db : AccountsDB) (a : Address) (x : Int64) :
    (db.DecreaseBalanceOf a x).err = true ↔
      (x.val < 0 ∨ db.balance a - x.val < -9223372036854775808) := by
  have hlo := db.balance_lo a
  have hhi := db.balance_hi a
  have xlo := x.lo
  have xhi := x.hi
  have hb : (db.GetAccountOf a).1.Balance.val = db.balance a := rfl
  rw [AccountsDB.DecreaseBalanceOf_eq]
  simp only [Int64.sub_val]
  split
  · simp; omega
  · split
    · simp; omega
    · simp; omega

theorem AccountsDB.DecreaseBalanceOf_balance (db : AccountsDB) (a k : Address) (x : Int64) :
    (db.DecreaseBalanceOf a x).db.balance k =
      if (db.DecreaseBalanceOf a x).err = true then db.balance k
      else if k = a then db.balance a - x.val else db.balance k := by
  have hlo := db.balance_lo a
  have hhi := db.balance_hi a
  have xlo := x.lo
  have xhi := x.hi
  have hb : (db.GetAccountOf a).1.Balance.val = db.balance a := rfl
  rw [AccountsDB.DecreaseBalanceOf_eq]
  simp only [Int64.sub_val]
  split
  · simp
  · split
    · simp [AccountsDB.GetAccountOf_balance]
    · simp only [AccountsDB.balance_put, AccountsDB.GetAccountOf_balance, Int64.sub_val]
      split
      · simp; omega
      · simp

theorem AccountsDB.DecreaseBalanceOf_messages (db : AccountsDB) (a k : Address) (x : Int64) :
    (db.DecreaseBalanceOf a x).db.messages k = db.messages k := by
  have hb : (db.GetAccountOf a).1.Messages = db.messages a := rfl
  rw [AccountsDB.DecreaseBalanceOf_eq]
  split
  · rfl
  · split
    · simp [AccountsDB.GetAccountOf_messages]
    · simp only [AccountsDB.messages_put, AccountsDB.GetAccountOf_messages]
      split
      · next h => subst h; exact hb
      · rfl

theorem AccountsDB.PutMessagesTo_err (db : AccountsDB) (a : Address) (m : List Byte) :
    (db.PutMessagesTo a m).err = false := rfl

theorem AccountsDB.PutMessagesTo_balance (db : AccountsDB) (a k : Address) (m : List Byte) :
    (db.PutMessagesTo a m).db.balance k = db.balance k := by
  have hb : (db.GetAccountOf a).1.Balance.val = db.balance a := rfl
  rw [AccountsDB.PutMessagesTo_eq]
  simp only [AccountsDB.balance_put, AccountsDB.GetAccountOf_balance]
  split
  · next h => subst h; exact hb
  · rfl

theorem AccountsDB.PutMessagesTo_messages (db : AccountsDB) (a k : Address) (m : List Byte) :
    (db.PutMessagesTo a m).db.messages k =
      if k = a then db.messages a ++ [m] else db.messages k := by
  rw [AccountsDB.PutMessagesTo_eq]
  simp only [AccountsDB.messages_put, AccountsDB.GetAccountOf_messages]
  rfl

theorem AccountsDB.DeleteMessageOf_err (db : AccountsDB) (a : Address) :
    (db.DeleteMessageOf a).err = true ↔ db.messages a = [] := by
  have hb : (db.GetAccountOf a).1.Messages = db.messages a := rfl
  rw [AccountsDB.DeleteMessageOf_eq, hb]
  split
  · next h => simpa using h
  · next h => simpa using h

theorem AccountsDB.DeleteMessageOf_balance (db : AccountsDB) (a k : Address) :
    (db.DeleteMessageOf a).db.balance k = db.balance k := by
  have hb : (db.GetAccountOf a).1.Balance.val = db.balance a := rfl
  rw [AccountsDB.DeleteMessageOf_eq]
  split
  · simp [AccountsDB.GetAccountOf_balance]
  · simp only [AccountsDB.balance_put, AccountsDB.GetAccountOf_balance]
    split
    · next h => subst h; exact hb
    · rfl

theorem AccountsDB.DeleteMessageOf_messages (db : AccountsDB) (a k : Address) :
    (db.DeleteMessageOf a).db.messages k =
      if k = a then (db.messages a).dropLast else db.messages k := by
  have hb : (db.GetAccountOf a).1.Messages = db.messages a := rfl
  rw [AccountsDB.DeleteMessageOf_eq, hb]
  split
  · next h =>
    simp only [AccountsDB.GetAccountOf_messages]
    split
    · next hk => subst hk; simp [List.length_eq_zero.mp h]
    · rfl
  · simp only [AccountsDB.messages_put, AccountsDB.GetAccountOf_messages]


theorem retry_first (op : AccountsDB → Res) (n : Nat) (db : AccountsDB) (e : Bool)
    (h : (op db).err = false) : retry op (n + 1) db e = ⟨(op db).db, false⟩ := by
  simp [retry, h]

/-- The method `Exec` without its retry loops: the one compensating credit it can reach
succeeds at the first attempt. -/
theorem Transaction.Exec_eq (tx : Transaction) (db : AccountsDB) :
    tx.Exec db =
      if (db.DecreaseBalanceOf tx.From (tx.Fee.add tx.Amount)).err = true then
        Outcome.error (db.DecreaseBalanceOf tx.From (tx.Fee.add tx.Amount)).db
      else if ((db.DecreaseBalanceOf tx.From (tx.Fee.add tx.Amount)).db.IncreaseBalanceOf
          tx.To tx.Amount).err = true then
        Outcome.error
          ((((db.DecreaseBalanceOf tx.From (tx.Fee.add tx.Amount)).db.IncreaseBalanceOf
            tx.To tx.Amount).db.IncreaseBalanceOf tx.From (tx.Fee.add tx.Amount)).db)
      else if tx.Data.length ≠ 0 then
        Outcome.ok ((((db.DecreaseBalanceOf tx.From (tx.Fee.add tx.Amount)).db.IncreaseBalanceOf
            tx.To tx.Amount).db.PutMessagesTo tx.To tx.Data).db)
      else
        Outcome.ok ((db.DecreaseBalanceOf tx.From (tx.Fee.add tx.Amount)).db.IncreaseBalanceOf
            tx.To tx.Amount).db := by
  unfold Transaction.Exec
  generalize hr1 : db.DecreaseBalanceOf tx.From (tx.Fee.add tx.Amount) = r1
  by_cases h1 : r1.err = true
  · simp [h1]
  · simp only [h1, if_false]
    generalize hr2 : r1.db.IncreaseBalanceOf tx.To tx.Amount = r2
    by_cases h2 : r2.err = true
    · simp only [h2, if_true]
      have hc : (r2.db.IncreaseBalanceOf tx.From (tx.Fee.add tx.Amount)).err = false := by
        have h1b := (AccountsDB.DecreaseBalanceOf_err db tx.From (tx.Fee.add tx.Amount)).not
        rw [hr1] at h1b
        have h1c := h1b.mp h1
        have hb1 := AccountsDB.DecreaseBalanceOf_balance db tx.From tx.From (tx.Fee.add tx.Amount)
        rw [hr1] at hb1
        simp [h1] at hb1
        have hb2 := AccountsDB.IncreaseBalanceOf_balance r1.db tx.To tx.From tx.Amount
        rw [hr2] at hb2
        simp [h2] at hb2
        have hhi := db.balance_hi tx.From
        have := (AccountsDB.IncreaseBalanceOf_err r2.db tx.From (tx.Fee.add tx.Amount)).not
        rw [Bool.not_eq_true] at this
        rw [this]
        omega
      rw [show MaxRetryOfExecution = 4 + 1 from rfl,
        retry_first (fun d => d.IncreaseBalanceOf tx.From (tx.Fee.add tx.Amount)) 4 r2.db false hc]
      simp
    · simp only [h2, if_false]
      simp [AccountsDB.PutMessagesTo_err]

/-! ## Exec and RollBack -/

theorem Transaction.Exec_compensation (tx : Transaction) (db : AccountsDB)
    (h1 : ¬ (db.DecreaseBalanceOf tx.From (tx.Fee.add tx.Amount)).err = true)
    (h2 : ((db.DecreaseBalanceOf tx.From (tx.Fee.add tx.Amount)).db.IncreaseBalanceOf
      tx.To tx.Amount).err = true) :
    ¬ ((((db.DecreaseBalanceOf tx.From (tx.Fee.add tx.Amount)).db.IncreaseBalanceOf
      tx.To tx.Amount).db.IncreaseBalanceOf tx.From (tx.Fee.add tx.Amount)).err = true) := by
  have h1b := (AccountsDB.DecreaseBalanceOf_err db tx.From (tx.Fee.add tx.Amount)).not.mp h1
  have hb1 := AccountsDB.DecreaseBalanceOf_balance db tx.From tx.From (tx.Fee.add tx.Amount)
  simp [h1] at hb1
  have hb2 := AccountsDB.IncreaseBalanceOf_balance
    (db.DecreaseBalanceOf tx.From (tx.Fee.add tx.Amount)).db tx.To tx.From tx.Amount
  simp [h2] at hb2
  have hhi := db.balance_hi tx.From
  rw [AccountsDB.IncreaseBalanceOf_err]
  omega

/-- A failed `Exec` leaves every balance and message list as it was. -/
theorem Transaction.Exec_error_view (tx : Transaction) (db db1 : AccountsDB)
    (h : tx.Exec db = Outcome.error db1) (k : Address) :
    db1.balance k = db.balance k ∧ db1.messages k = db.messages k := by
  rw [Transaction.Exec_eq] at h
  split at h
  · next h1 =>
    injection h with h
    subst h
    simp [AccountsDB.DecreaseBalanceOf_balance, AccountsDB.DecreaseBalanceOf_messages, h1]
  · next h1 =>
    split at h
    · next h2 =>
      injection h with h
      subst h
      have hc := Transaction.Exec_compensation tx db h1 h2
      simp only [AccountsDB.IncreaseBalanceOf_balance, AccountsDB.IncreaseBalanceOf_messages,
        AccountsDB.DecreaseBalanceOf_balance, AccountsDB.DecreaseBalanceOf_messages,
        h1, h2, hc, if_true, if_false, and_true]
      by_cases hF : k = tx.From
      · subst hF; simp
      · simp [hF]
    · split at h <;> cases h

/-- The method `Exec` never panics. -/
theorem Transaction.Exec_no_panic (tx : Transaction) (db db1 : AccountsDB) :
    tx.Exec db ≠ Outcome.panic db1 := by
  rw [Transaction.Exec_eq]
  intro h
  split at h
  · cases h
  · split at h
    · cases h
    · split at h <;> cases h

/-- When `Exec` returns nil: which operations succeeded and what they wrote. -/
theorem Transaction.Exec_ok_view (tx : Transaction) (db db1 : AccountsDB)
    (h : tx.Exec db = Outcome.ok db1) :
    0 ≤ tx.Amount.val ∧ 0 ≤ tx.Fee.val + tx.Amount.val ∧
    (tx.Fee.add tx.Amount).val = tx.Fee.val + tx.Amount.val ∧
    -9223372036854775808 ≤ db.balance tx.From - (tx.Fee.val + tx.Amount.val) ∧
    (∀ k, db1.balance k = db.balance k - (if k = tx.From then tx.Fee.val + tx.Amount.val else 0)
        + (if k = tx.To then tx.Amount.val else 0)) ∧
    (∀ k, db1.messages k =
        if k = tx.To ∧ tx.Data.length ≠ 0 then db.messages k ++ [tx.Data] else db.messages k) := by
  rw [Transaction.Exec_eq] at h
  split at h
  · cases h
  · next h1 =>
    split at h
    · cases h
    · next h2 =>
      have e1 := (AccountsDB.DecreaseBalanceOf_err db tx.From (tx.Fee.add tx.Amount)).not.mp h1
      have e2 := (AccountsDB.IncreaseBalanceOf_err
        (db.DecreaseBalanceOf tx.From (tx.Fee.add tx.Amount)).db tx.To tx.Amount).not.mp h2
      rw [AccountsDB.DecreaseBalanceOf_balance] at e2
      simp only [h1, if_false] at e2
      have hd := Int64.add_val tx.Fee tx.Amount
      have flo := tx.Fee.lo
      have fhi := tx.Fee.hi
      have ahi := tx.Amount.hi
      have hsum : (tx.Fee.add tx.Amount).val = tx.Fee.val + tx.Amount.val := by omega
      have hb : ∀ k, ((db.DecreaseBalanceOf tx.From (tx.Fee.add tx.Amount)).db.IncreaseBalanceOf
          tx.To tx.Amount).db.balance k =
          db.balance k - (if k = tx.From then tx.Fee.val + tx.Amount.val else 0)
            + (if k = tx.To then tx.Amount.val else 0) := by
        intro k
        simp only [AccountsDB.IncreaseBalanceOf_balance,
          AccountsDB.DecreaseBalanceOf_balance, h1, h2, if_false, hsum]
        obtain ⟨f, t, data, A, F, H⟩ := tx
        simp only at *
        by_cases hT : k = t
        · subst hT
          by_cases hF : k = f
          · subst hF; simp
          · simp [hF]
        · by_cases hF : k = f
          · subst hF; simp [hT]
          · simp [hF, hT]
      refine ⟨by omega, by omega, hsum, by omega, ?_, ?_⟩
      · intro k
        split at h
        · injection h with h
          subst h
          rw [AccountsDB.PutMessagesTo_balance, hb]
        · injection h with h
          subst h
          exact hb k
      · intro k
        split at h
        · next h3 =>
          injection h with h
          subst h
          simp only [AccountsDB.PutMessagesTo_messages, AccountsDB.IncreaseBalanceOf_messages,
            AccountsDB.DecreaseBalanceOf_messages]
          by_cases hk : k = tx.To
          · subst hk; simp [h3]
          · simp [hk]
        · next h3 =>
          injection h with h
          subst h
          simp only [AccountsDB.IncreaseBalanceOf_messages,
            AccountsDB.DecreaseBalanceOf_messages]
          simp [h3]

/-- The method `Exec` returns nil exactly when the debit and the credit both pass the checks of
the account store. -/
theorem Transaction.Exec_ok_iff (tx : Transaction) (db : AccountsDB) :
    (∃ db1, tx.Exec db = Outcome.ok db1) ↔
      (0 ≤ (tx.Fee.add tx.Amount).val ∧
       -9223372036854775808 ≤ db.balance tx.From - (tx.Fee.add tx.Amount).val ∧
       0 ≤ tx.Amount.val ∧
       (if tx.To = tx.From then db.balance tx.From - (tx.Fee.add tx.Amount).val
          else db.balance tx.To) + tx.Amount.val ≤ 9223372036854775807) := by
  have e1 := AccountsDB.DecreaseBalanceOf_err db tx.From (tx.Fee.add tx.Amount)
  have e2 := AccountsDB.IncreaseBalanceOf_err
    (db.DecreaseBalanceOf tx.From (tx.Fee.add tx.Amount)).db tx.To tx.Amount
  rw [AccountsDB.DecreaseBalanceOf_balance] at e2
  rw [Transaction.Exec_eq]
  by_cases h1 : (db.DecreaseBalanceOf tx.From (tx.Fee.add tx.Amount)).err = true
  · rw [if_pos h1]
    have := e1.mp h1
    constructor
    · rintro ⟨_, h⟩; cases h
    · intro h; omega
  · rw [if_neg h1] at e2 ⊢
    have n1 := e1.not.mp h1
    generalize hc : (if tx.To = tx.From then db.balance tx.From - (tx.Fee.add tx.Amount).val
          else db.balance tx.To) = c at e2 ⊢
    by_cases h2 : ((db.DecreaseBalanceOf tx.From (tx.Fee.add tx.Amount)).db.IncreaseBalanceOf
        tx.To tx.Amount).err = true
    · rw [if_pos h2]
      have := e2.mp h2
      constructor
      · rintro ⟨_, h⟩; cases h
      · intro h; omega
    · rw [if_neg h2]
      have n2 := e2.not.mp h2
      constructor
      · intro _; omega
      · intro _
        by_cases h3 : tx.Data.length ≠ 0
        · rw [if_pos h3]; exact ⟨_, rfl⟩
        · rw [if_neg h3]; exact ⟨_, rfl⟩

theorem Transaction.rollBackLoop_succ (tx : Transaction) (n : Nat) (db : AccountsDB) (e : Bool) :
    tx.rollBackLoop (n + 1) db e =
      if (db.IncreaseBalanceOf tx.From (tx.Fee.add tx.Amount)).err = true then
        tx.rollBackLoop n (db.IncreaseBalanceOf tx.From (tx.Fee.add tx.Amount)).db true
      else if ((db.IncreaseBalanceOf tx.From (tx.Fee.add tx.Amount)).db.DecreaseBalanceOf
          tx.To tx.Amount).err = true then
        tx.rollBackLoop n ((db.IncreaseBalanceOf tx.From (tx.Fee.add tx.Amount)).db.DecreaseBalanceOf
          tx.To tx.Amount).db true
      else if tx.Data.length ≠ 0 then
        if (((db.IncreaseBalanceOf tx.From (tx.Fee.add tx.Amount)).db.DecreaseBalanceOf
          tx.To tx.Amount).db.DeleteMessageOf tx.To).err = true then
          tx.rollBackLoop n (((db.IncreaseBalanceOf tx.From (tx.Fee.add tx.Amount)).db.DecreaseBalanceOf
            tx.To tx.Amount).db.DeleteMessageOf tx.To).db true
        else ⟨(((db.IncreaseBalanceOf tx.From (tx.Fee.add tx.Amount)).db.DecreaseBalanceOf
            tx.To tx.Amount).db.DeleteMessageOf tx.To).db, false⟩
      else ⟨((db.IncreaseBalanceOf tx.From (tx.Fee.add tx.Amount)).db.DecreaseBalanceOf
          tx.To tx.Amount).db, false⟩ := rfl

/-- A `RollBack` whose credit, debit and message removal pass the checks of the
account store ends normally at its first attempt. -/
theorem Transaction.RollBack_ok (tx : Transaction) (db : AccountsDB)
    (hd : 0 ≤ (tx.Fee.add tx.Amount).val)
    (h1 : db.balance tx.From + (tx.Fee.add tx.Amount).val ≤ 9223372036854775807)
    (hA : 0 ≤ tx.Amount.val)
    (h2 : -9223372036854775808 ≤
      db.balance tx.To + (if tx.To = tx.From then (tx.Fee.add tx.Amount).val else 0)
        - tx.Amount.val)
    (h3 : tx.Data.length ≠ 0 → db.messages tx.To ≠ []) :
    ∃ db1, tx.RollBack db = Outcome.ok db1 ∧
      (∀ k, db1.balance k =
        db.balance k + (if k = tx.From then (tx.Fee.add tx.Amount).val else 0)
          - (if k = tx.To then tx.Amount.val else 0)) ∧
      (∀ k, db1.messages k =
        if k = tx.To ∧ tx.Data.length ≠ 0 then (db.messages k).dropLast else db.messages k) := by
  have e1 : ¬ (db.IncreaseBalanceOf tx.From (tx.Fee.add tx.Amount)).err = true := by
    rw [AccountsDB.IncreaseBalanceOf_err]; omega
  have b1 : ∀ k, (db.IncreaseBalanceOf tx.From (tx.Fee.add tx.Amount)).db.balance k =
      db.balance k + (if k = tx.From then (tx.Fee.add tx.Amount).val else 0) := by
    intro k
    rw [AccountsDB.IncreaseBalanceOf_balance, if_neg e1]
    by_cases hk : k = tx.From
    · subst hk; simp
    · simp [hk]
  have e2 : ¬ ((db.IncreaseBalanceOf tx.From (tx.Fee.add tx.Amount)).db.DecreaseBalanceOf
      tx.To tx.Amount).err = true := by
    rw [AccountsDB.DecreaseBalanceOf_err, b1]; omega
  have b2 : ∀ k, ((db.IncreaseBalanceOf tx.From (tx.Fee.add tx.Amount)).db.DecreaseBalanceOf
      tx.To tx.Amount).db.balance k =
      db.balance k + (if k = tx.From then (tx.Fee.add tx.Amount).val else 0)
        - (if k = tx.To then tx.Amount.val else 0) := by
    intro k
    rw [AccountsDB.DecreaseBalanceOf_balance, if_neg e2, b1, b1]
    by_cases hk : k = tx.To
    · subst hk; simp
    · simp [hk]
  have m2 : ∀ k, ((db.IncreaseBalanceOf tx.From (tx.Fee.add tx.Amount)).db.DecreaseBalanceOf
      tx.To tx.Amount).db.messages k = db.messages k := by
    intro k
    rw [AccountsDB.DecreaseBalanceOf_messages, AccountsDB.IncreaseBalanceOf_messages]
  unfold Transaction.RollBack
  rw [show MaxRetryOfExecution = 4 + 1 from rfl, Transaction.rollBackLoop_succ,
    if_neg e1, if_neg e2]
  by_cases hData : tx.Data.length ≠ 0
  · have e3 : ¬ (((db.IncreaseBalanceOf tx.From (tx.Fee.add tx.Amount)).db.DecreaseBalanceOf
        tx.To tx.Amount).db.DeleteMessageOf tx.To).err = true := by
      rw [AccountsDB.DeleteMessageOf_err, m2]; exact h3 hData
    rw [if_pos hData, if_neg e3]
    refine ⟨_, rfl, ?_, ?_⟩
    · intro k
      simp only [AccountsDB.DeleteMessageOf_balance, b2]
    · intro k
      simp only [AccountsDB.DeleteMessageOf_messages, m2]
      by_cases hk : k = tx.To
      · subst hk; simp [hData]
      · simp [hk]
  · rw [if_neg hData]
    refine ⟨_, rfl, ?_, ?_⟩
    · intro k
      simp only [b2]
    · intro k
      simp only [m2]
      simp [hData]

/-! ## The loops of BePackaged -/

theorem debited_nil (a : Address) : debited [] a = 0 := rfl

theorem debited_cons (tx : Transaction) (txs : List Transaction) (a : Address) :
    debited (tx :: txs) a =
      (if a = tx.From then (tx.Fee.add tx.Amount).val else 0) + debited txs a := by
  by_cases h : a = tx.From
  · subst h; simp [debited]
  · have h' : ¬ tx.From = a := fun e => h e.symm
    simp [debited, h, h']

theorem credited_nil (a : Address) : credited [] a = 0 := rfl

theorem credited_cons (tx : Transaction) (txs : List Transaction) (a : Address) :
    credited (tx :: txs) a = (if a = tx.To then tx.Amount.val else 0) + credited txs a := by
  by_cases h : a = tx.To
  · subst h; simp [credited]
  · have h' : ¬ tx.To = a := fun e => h e.symm
    simp [credited, h, h']

theorem delivered_nil (a : Address) : delivered [] a = [] := rfl

theorem delivered_cons (tx : Transaction) (txs : List Transaction) (a : Address) :
    delivered (tx :: txs) a =
      (if a = tx.To ∧ tx.Data.length ≠ 0 then [tx.Data] else []) ++ delivered txs a := by
  by_cases h : a = tx.To
  · subst h
    by_cases hd : tx.Data = []
    · simp [delivered, List.filter_cons, hd]
    · simp [delivered, List.filter_cons, hd]
  · have h' : ¬ tx.To = a := fun e => h e.symm
    simp [delivered, List.filter_cons, h, h']

theorem feeSum_cons (tx : Transaction) (txs : List Transaction) :
    feeSum (tx :: txs) = tx.Fee.val + feeSum txs := by
  simp [feeSum]

theorem debited_nonneg (txs : List Transaction) (a : Address)
    (h : ∀ tx ∈ txs, 0 ≤ (tx.Fee.add tx.Amount).val) : 0 ≤ debited txs a := by
  induction txs with
  | nil => simp [debited]
  | cons tx rest ih =>
    rw [debited_cons]
    have := ih (fun t ht => h t (List.mem_cons_of_mem _ ht))
    have := h tx (List.mem_cons_self _ _)
    split <;> omega

theorem credited_nonneg (txs : List Transaction) (a : Address)
    (h : ∀ tx ∈ txs, 0 ≤ tx.Amount.val) : 0 ≤ credited txs a := by
  induction txs with
  | nil => simp [credited]
  | cons tx rest ih =>
    rw [credited_cons]
    have := ih (fun t ht => h t (List.mem_cons_of_mem _ ht))
    have := h tx (List.mem_cons_self _ _)
    split <;> omega

/-- The first loop of `BePackaged` always runs to its end; `realTxs` and
`notPackagedTxs` grow by the executed and the rejected transactions, and the account
store has absorbed exactly the executed ones. -/
theorem execLoop_spec (txs : List Transaction) :
    ∀ st : ExecLoop, ∃ st1, execLoop txs st = Outcome.ok st1 ∧
      st1.realTxs = st.realTxs ++ pick true txs (execFlags txs st.db) ∧
      st1.notPackagedTxs = st.notPackagedTxs ++ pick false txs (execFlags txs st.db) ∧
      (∀ a, st1.db.balance a = st.db.balance a
          - debited (pick true txs (execFlags txs st.db)) a
          + credited (pick true txs (execFlags txs st.db)) a) ∧
      (∀ a, st1.db.messages a =
          st.db.messages a ++ delivered (pick true txs (execFlags txs st.db)) a) ∧
      (∀ tx ∈ pick true txs (execFlags txs st.db),
          0 ≤ tx.Amount.val ∧ 0 ≤ (tx.Fee.add tx.Amount).val ∧
          (tx.Fee.add tx.Amount).val = tx.Fee.val + tx.Amount.val) := by
  induction txs with
  | nil =>
    intro st
    exact ⟨st, rfl, by simp [pick, execFlags], by simp [pick, execFlags],
      by simp [pick, execFlags, debited, credited], by simp [pick, execFlags, delivered],
      by simp [pick, execFlags]⟩
  | cons tx rest ih =>
    intro st
    cases h : tx.Exec st.db with
    | ok db1 =>
      obtain ⟨hA, hD, hsum, _, hb, hm⟩ := Transaction.Exec_ok_view tx st.db db1 h
      obtain ⟨st1, e, hr, hn, hbal, hmsg, hall⟩ :=
        ih { st with realTxs := st.realTxs ++ [tx], db := db1 }
      refine ⟨st1, ?_, ?_, ?_, ?_, ?_, ?_⟩
      · simp only [execLoop, h]; exact e
      · simp only [execFlags, h, pick]; simpa using hr
      · simp only [execFlags, h, pick]; simpa using hn
      · intro a
        simp only [execFlags, h, pick, if_true, debited_cons, credited_cons]
        have := hbal a
        simp only [hb] at this
        rw [this, hsum]
        omega
      · intro a
        simp only [execFlags, h, pick, if_true, delivered_cons]
        have := hmsg a
        simp only [hm] at this
        rw [this]
        split <;> simp
      · intro t ht
        simp only [execFlags, h, pick, if_true, List.mem_cons] at ht
        rcases ht with rfl | ht
        · exact ⟨hA, by omega, hsum⟩
        · exact hall t ht
    | error db1 =>
      have hv := Transaction.Exec_error_view tx st.db db1 h
      obtain ⟨st1, e, hr, hn, hbal, hmsg, hall⟩ :=
        ih { st with notPackagedTxs := st.notPackagedTxs ++ [tx], db := db1 }
      refine ⟨st1, ?_, ?_, ?_, ?_, ?_, ?_⟩
      · simp only [execLoop, h]; exact e
      · simp only [execFlags, h, pick, Outcome.state]; simpa using hr
      · simp only [execFlags, h, pick, Outcome.state]; simpa using hn
      · intro a
        simp only [execFlags, h, pick, Outcome.state]
        have := hbal a
        simp only [(hv a).1] at this
        simpa using this
      · intro a
        simp only [execFlags, h, pick, Outcome.state]
        have := hmsg a
        simp only [(hv a).2] at this
        simpa using this
      · intro t ht
        simp only [execFlags, h, pick, Outcome.state] at ht
        exact hall t (by simpa using ht)
    | panic db1 => exact absurd h (Transaction.Exec_no_panic tx st.db db1)

theorem rollBackAll_cons_ok (tx : Transaction) (rest : List Transaction) (db db1 : AccountsDB)
    (h : tx.RollBack db = Outcome.ok db1) :
    rollBackAll (tx :: rest) db = rollBackAll rest db1 := by
  simp [rollBackAll, h]

/-- Rolling the executed transactions back in list order restores the balances `B` and
removes the delivered messages, provided no intermediate balance can leave the
`int64` range. -/
theorem rollBackAll_spec (txs : List Transaction) :
    ∀ (s : AccountsDB) (B : Address → Int),
      (∀ a, s.balance a = B a - debited txs a + credited txs a) →
      (∀ tx ∈ txs, 0 ≤ tx.Amount.val ∧ 0 ≤ (tx.Fee.add tx.Amount).val) →
      (∀ a, B a + credited txs a ≤ 9223372036854775807) →
      (∀ a, -9223372036854775808 ≤ B a - debited txs a) →
      (∀ a, (delivered txs a).length ≤ (s.messages a).length) →
      ∃ s1, rollBackAll txs s = Outcome.ok s1 ∧ (∀ a, s1.balance a = B a) ∧
        (∀ a, s1.messages a =
          (s.messages a).take ((s.messages a).length - (delivered txs a).length)) := by
  induction txs with
  | nil =>
    intro s B hb _ _ _ _
    refine ⟨s, rfl, ?_, ?_⟩
    · intro a; have := hb a; simp [debited, credited] at this; exact this
    · intro a; simp [delivered]
  | cons tx rest ih =>
    intro s B hb hpos hhi hlo hlen
    have hposr : ∀ t ∈ rest, 0 ≤ t.Amount.val ∧ 0 ≤ (t.Fee.add t.Amount).val :=
      fun t ht => hpos t (List.mem_cons_of_mem _ ht)
    obtain ⟨hA, hD⟩ := hpos tx (List.mem_cons_self _ _)
    have dn : ∀ a, 0 ≤ debited rest a := fun a => debited_nonneg rest a (fun t ht => (hposr t ht).2)
    have cn : ∀ a, 0 ≤ credited rest a :=
      fun a => credited_nonneg rest a (fun t ht => (hposr t ht).1)
    have hbF := hb tx.From
    have hbT := hb tx.To
    have hhiF := hhi tx.From
    have hloT := hlo tx.To
    simp only [debited_cons, credited_cons, if_true] at hbF hbT hhiF hloT
    have r1 : s.balance tx.From + (tx.Fee.add tx.Amount).val ≤ 9223372036854775807 := by
      have := dn tx.From
      omega
    have r2 : -9223372036854775808 ≤
        s.balance tx.To + (if tx.To = tx.From then (tx.Fee.add tx.Amount).val else 0)
          - tx.Amount.val := by
      have := cn tx.To
      have := cn tx.From
      by_cases e : tx.To = tx.From
      · rw [if_pos e.symm] at hbF hhiF
        simp only [e, if_true] at hbT hloT ⊢
        omega
      · rw [if_neg e]
        rw [if_neg e] at hbT hloT
        omega
    have r3 : tx.Data.length ≠ 0 → s.messages tx.To ≠ [] := by
      intro hd hnil
      have := hlen tx.To
      rw [delivered_cons, hnil] at this
      simp [hd] at this
    obtain ⟨s1, e1, b1, m1⟩ := Transaction.RollBack_ok tx s hD r1 hA r2 r3
    have hb1 : ∀ a, s1.balance a = B a - debited rest a + credited rest a := by
      intro a
      have := hb a
      rw [debited_cons, credited_cons] at this
      rw [b1 a, this]
      omega
    have hhi1 : ∀ a, B a + credited rest a ≤ 9223372036854775807 := by
      intro a
      have := hhi a
      rw [credited_cons] at this
      split at this <;> omega
    have hlo1 : ∀ a, -9223372036854775808 ≤ B a - debited rest a := by
      intro a
      have := hlo a
      rw [debited_cons] at this
      split at this <;> omega
    have hlen1 : ∀ a, (delivered rest a).length ≤ (s1.messages a).length := by
      intro a
      have := hlen a
      rw [delivered_cons] at this
      rw [m1 a]
      split
      · next hc => simp [hc] at this ⊢; omega
      · next hc => simp [hc] at this ⊢; omega
    obtain ⟨s2, e2, b2, m2⟩ := ih s1 B hb1 hposr hhi1 hlo1 hlen1
    refine ⟨s2, ?_, b2, ?_⟩
    · rw [rollBackAll_cons_ok tx rest s s1 e1]; exact e2
    · intro a
      have := hlen a
      rw [delivered_cons] at this
      rw [m2 a, m1 a, delivered_cons]
      split
      · next hc =>
        simp [hc] at this ⊢
        rw [List.dropLast_eq_take, List.take_take]
        congr 1
        omega
      · next hc => simp [hc]

theorem execLoop_executed (txs : List Transaction) (db : AccountsDB) :
    execLoop txs ⟨[], [], db⟩ = Outcome.ok (executed txs db) := by
  obtain ⟨st1, e, -⟩ := execLoop_spec txs ⟨[], [], db⟩
  simp [executed, e, Outcome.state]

theorem executed_spec (txs : List Transaction) (db : AccountsDB) :
    (executed txs db).realTxs = pick true txs (execFlags txs db) ∧
    (executed txs db).notPackagedTxs = pick false txs (execFlags txs db) ∧
    (∀ a, (executed txs db).db.balance a = db.balance a
        - debited (executed txs db).realTxs a + credited (executed txs db).realTxs a) ∧
    (∀ a, (executed txs db).db.messages a =
        db.messages a ++ delivered (executed txs db).realTxs a) ∧
    (∀ tx ∈ (executed txs db).realTxs,
        0 ≤ tx.Amount.val ∧ 0 ≤ (tx.Fee.add tx.Amount).val ∧
        (tx.Fee.add tx.Amount).val = tx.Fee.val + tx.Amount.val) := by
  obtain ⟨st1, e, hr, hn, hb, hm, hall⟩ := execLoop_spec txs ⟨[], [], db⟩
  have hx : executed txs db = st1 := by simp [executed, e, Outcome.state]
  simp only [List.nil_append] at hr hn
  rw [hx, hr]
  exact ⟨rfl, hn, hb, hm, hall⟩

/-- The method `BePackaged` after its first loop, written with `executed` and `packagedBlock`. -/
theorem Block.BePackaged_eq (sha : List Byte → MemoryChain.Hash) (b : Block) (miner : Address)
    (blocksDB : BlocksDB) (accountsDB : AccountsDB) :
    b.BePackaged sha miner blocksDB accountsDB =
      if (executed b.Txs accountsDB).realTxs.length = 0 then
        Outcome.error ⟨b, blocksDB, (executed b.Txs accountsDB).db, []⟩
      else if ((executed b.Txs accountsDB).db.IncreaseBalanceOf miner
          (awardOf (executed b.Txs accountsDB).realTxs)).err = true then
        match rollBackAll (executed b.Txs accountsDB).realTxs
            ((executed b.Txs accountsDB).db.IncreaseBalanceOf miner
              (awardOf (executed b.Txs accountsDB).realTxs)).db with
        | Outcome.ok db2 =>
          Outcome.error
            ⟨{ packagedBlock sha b miner accountsDB with
                Txs := b.Txs, Nonce := b.Nonce, Hash := b.Hash, Miner := b.Miner },
              blocksDB, db2, []⟩
        | o => Outcome.panic ⟨packagedBlock sha b miner accountsDB, blocksDB, o.state, []⟩
      else if (blocksDB.AddBlockWithRetry (packagedBlock sha b miner accountsDB)
          MaxRetryOfAddingBlock).2 = true then
        match rollBackAll (executed b.Txs accountsDB).realTxs
            ((executed b.Txs accountsDB).db.IncreaseBalanceOf miner
              (awardOf (executed b.Txs accountsDB).realTxs)).db with
        | Outcome.ok db2 =>
          Outcome.error
            ⟨{ packagedBlock sha b miner accountsDB with
                Txs := b.Txs, Nonce := b.Nonce, Hash := b.Hash, Miner := b.Miner },
              (blocksDB.AddBlockWithRetry (packagedBlock sha b miner accountsDB)
                MaxRetryOfAddingBlock).1, db2, []⟩
        | o => Outcome.panic ⟨packagedBlock sha b miner accountsDB,
              (blocksDB.AddBlockWithRetry (packagedBlock sha b miner accountsDB)
                MaxRetryOfAddingBlock).1, o.state, []⟩
      else
        Outcome.ok ⟨packagedBlock sha b miner accountsDB,
          (blocksDB.AddBlockWithRetry (packagedBlock sha b miner accountsDB)
            MaxRetryOfAddingBlock).1,
          ((executed b.Txs accountsDB).db.IncreaseBalanceOf miner
              (awardOf (executed b.Txs accountsDB).realTxs)).db,
          (executed b.Txs accountsDB).notPackagedTxs⟩ := by
  unfold Block.BePackaged
  rw [execLoop_executed]
  rfl

/-! ## Transactions: claims C1 to C4 -/

theorem Outcome.eq_ok_of_isOk {σ : Type} (o : Outcome σ) (h : o.isOk = true) :
    o = Outcome.ok o.state := by
  cases o <;> simp [Outcome.isOk, Outcome.state] at h ⊢

theorem Outcome.eq_error_of_isError {σ : Type} (o : Outcome σ) (h : o.isError = true) :
    o = Outcome.error o.state := by
  cases o <;> simp [Outcome.isError, Outcome.state] at h ⊢

/-- C1 (amended): a `RollBack` after a successful `Exec` ends normally and restores every
balance and message list, provided that `From` and `To` differ or that the balance
before `Exec` plus `Amount` does not exceed `MaxInt64`. -/
theorem rollBack_after_exec_restores (tx : Transaction) (db db1 : AccountsDB)
    (h : tx.Exec db = Outcome.ok db1)
    (hsafe : tx.From ≠ tx.To ∨ db.balance tx.From + tx.Amount.val ≤ 9223372036854775807) :
    ∃ db2, tx.RollBack db1 = Outcome.ok db2 ∧
      ∀ a, db2.balance a = db.balance a ∧ db2.messages a = db.messages a := by
  obtain ⟨hA, hD, hsum, hlo, hb, hm⟩ := Transaction.Exec_ok_view tx db db1 h
  have hhiT := db1.balance_hi tx.To
  have hbF := hb tx.From
  have hbT := hb tx.To
  simp only [if_true] at hbF hbT
  have r1 : db1.balance tx.From + (tx.Fee.add tx.Amount).val ≤ 9223372036854775807 := by
    have := db.balance_hi tx.From
    rw [hsum, hbF]
    by_cases e : tx.From = tx.To
    · rw [if_pos e]
      rcases hsafe with hne | hs
      · exact absurd e hne
      · omega
    · rw [if_neg e]; omega
  have r2 : -9223372036854775808 ≤
      db1.balance tx.To + (if tx.To = tx.From then (tx.Fee.add tx.Amount).val else 0)
        - tx.Amount.val := by
    have := db.balance_lo tx.To
    rw [hsum, hbT]
    by_cases e : tx.To = tx.From
    · simp only [if_pos e]; omega
    · simp only [if_neg e]; omega
  have r3 : tx.Data.length ≠ 0 → db1.messages tx.To ≠ [] := by
    intro hd
    rw [hm tx.To]
    simp [hd]
  obtain ⟨db2, e2, b2, m2⟩ :=
    Transaction.RollBack_ok tx db1 (by omega) r1 hA r2 r3
  refine ⟨db2, e2, fun a => ⟨?_, ?_⟩⟩
  · rw [b2 a, hb a, hsum]; omega
  · rw [m2 a, hm a]
    by_cases hc : a = tx.To ∧ tx.Data.length ≠ 0
    · rw [if_pos hc, if_pos hc]; simp
    · rw [if_neg hc, if_neg hc]

/-- C1, an instance: transaction S2 executed on the initial store and rolled back. -/
theorem rollBack_after_exec_restores_witness :
    ∃ db2, txS2.RollBack (txS2.Exec NewAccountsDB).state = Outcome.ok db2 ∧
      ∀ a, db2.balance a = NewAccountsDB.balance a ∧
        db2.messages a = NewAccountsDB.messages a :=
  rollBack_after_exec_restores txS2 NewAccountsDB (txS2.Exec NewAccountsDB).state
    (Outcome.eq_ok_of_isOk _ (by decide)) (Or.inl (by decide))

/-- C1 fails for a transfer to oneself: with balance `MaxInt64`, `Exec` of `txSelf`
succeeds (the balance becomes `MaxInt64 - 2`) and `RollBack` panics, because its first
step credits `Fee + Amount = 3` and overflows. -/
theorem rollBack_after_exec_self_transfer_panics :
    (txSelf.Exec dbMax2).isOk = true ∧
    (txSelf.RollBack (txSelf.Exec dbMax2).state).isPanic = true := by
  decide

/-- The method `Exec` ends with a nil error or with a non-nil error. -/
theorem Transaction.Exec_ok_or_error (tx : Transaction) (db : AccountsDB) :
    (∃ db1, tx.Exec db = Outcome.ok db1) ∨ (∃ db1, tx.Exec db = Outcome.error db1) := by
  cases h : tx.Exec db with
  | ok db1 => exact Or.inl ⟨db1, rfl⟩
  | error db1 => exact Or.inr ⟨db1, rfl⟩
  | panic db1 => exact absurd h (Transaction.Exec_no_panic tx db db1)

theorem Transaction.Exec_error_iff_not_ok (tx : Transaction) (db : AccountsDB) :
    (∃ db1, tx.Exec db = Outcome.error db1) ↔ ¬ ∃ db1, tx.Exec db = Outcome.ok db1 := by
  constructor
  · rintro ⟨d1, h1⟩ ⟨d2, h2⟩
    rw [h1] at h2
    cases h2
  · intro h
    rcases Transaction.Exec_ok_or_error tx db with h1 | h1
    · exact absurd h1 h
    · exact h1

/-- C2 (amended): `Exec` does not compare the sender's balance with `Fee + Amount`.  It
returns an error exactly when the `int64` sum `Fee + Amount` is negative, or the debit
would take the sender below `MinInt64`, or `Amount` is negative, or the credit would
take the recipient above `MaxInt64`; and whenever it returns nil on a transaction with
`From ≠ To`, the sender is left with its old balance minus `Fee + Amount`, negative
when the old balance was smaller. -/
theorem exec_error_iff (tx : Transaction) (db : AccountsDB) :
    ((∃ db1, tx.Exec db = Outcome.error db1) ↔
      ((tx.Fee.add tx.Amount).val < 0 ∨
       db.balance tx.From - (tx.Fee.add tx.Amount).val < -9223372036854775808 ∨
       tx.Amount.val < 0 ∨
       9223372036854775807 <
        (if tx.To = tx.From then db.balance tx.From - (tx.Fee.add tx.Amount).val
          else db.balance tx.To) + tx.Amount.val)) ∧
    (∀ db1, tx.Exec db = Outcome.ok db1 → tx.From ≠ tx.To →
      db1.balance tx.From = db.balance tx.From - (tx.Fee.val + tx.Amount.val)) := by
  constructor
  · rw [Transaction.Exec_error_iff_not_ok, Transaction.Exec_ok_iff]
    generalize (if tx.To = tx.From then db.balance tx.From - (tx.Fee.add tx.Amount).val
          else db.balance tx.To) = c
    omega
  · intro db1 h hne
    obtain ⟨-, -, -, -, hb, -⟩ := Transaction.Exec_ok_view tx db db1 h
    rw [hb tx.From, if_pos rfl, if_neg hne]
    omega

/-- C2 fails: on the initial store the never-funded sender `0x…0a` has balance 0, less
than `Fee + Amount = 7`, yet `Exec` returns nil, leaves the sender at `-7`, and the
first loop of `BePackaged` keeps the transaction. -/
theorem exec_overdraft_succeeds :
    NewAccountsDB.balance txOverdraft.From = 0 ∧
    (txOverdraft.Exec NewAccountsDB).isOk = true ∧
    (txOverdraft.Exec NewAccountsDB).state.balance txOverdraft.From = -7 ∧
    (executed [txOverdraft] NewAccountsDB).realTxs = [txOverdraft] ∧
    (executed [txOverdraft] NewAccountsDB).notPackagedTxs = [] := by
  decide

/-- C3: when `Exec` returns nil on a transaction with `From ≠ To`, the sender has its
old balance minus `Fee + Amount`, the recipient its old balance plus `Amount`, the
recipient's message list has `Data` appended when `Data` is non-empty and is unchanged
otherwise, the sender's messages are unchanged and every other account is unchanged. -/
theorem exec_success_postcondition (tx : Transaction) (db db1 : AccountsDB)
    (hne : tx.From ≠ tx.To) (h : tx.Exec db = Outcome.ok db1) :
    db1.balance tx.From = db.balance tx.From - (tx.Fee.val + tx.Amount.val) ∧
    db1.balance tx.To = db.balance tx.To + tx.Amount.val ∧
    db1.messages tx.To =
      (if tx.Data.length ≠ 0 then db.messages tx.To ++ [tx.Data] else db.messages tx.To) ∧
    db1.messages tx.From = db.messages tx.From ∧
    (∀ a, a ≠ tx.From → a ≠ tx.To →
      db1.balance a = db.balance a ∧ db1.messages a = db.messages a) := by
  obtain ⟨-, -, -, -, hb, hm⟩ := Transaction.Exec_ok_view tx db db1 h
  have hne' : ¬ tx.To = tx.From := fun e => hne e.symm
  refine ⟨?_, ?_, ?_, ?_, ?_⟩
  · rw [hb tx.From, if_pos rfl, if_neg hne]; omega
  · rw [hb tx.To, if_pos rfl, if_neg hne']; omega
  · rw [hm tx.To]
    by_cases hd : tx.Data.length ≠ 0
    · rw [if_pos ⟨rfl, hd⟩, if_pos hd]
    · rw [if_neg (fun c => hd c.2), if_neg hd]
  · rw [hm tx.From, if_neg (fun c => hne c.1)]
  · intro a hF hT
    rw [hb a, hm a, if_neg hF, if_neg hT, if_neg (fun c => hT c.1)]
    exact ⟨by omega, rfl⟩

/-- C3, an instance: transaction S2 on the initial store. -/
theorem exec_success_postcondition_witness :
    (txS2.Exec NewAccountsDB).state.balance (wellKnown 2) = 10000000000 - 1002 ∧
    (txS2.Exec NewAccountsDB).state.balance (wellKnown 3) = 10000000000 + 1000 ∧
    (txS2.Exec NewAccountsDB).state.messages (wellKnown 3) = [[104, 105]] := by
  have h := exec_success_postcondition txS2 NewAccountsDB (txS2.Exec NewAccountsDB).state
    (by decide) (Outcome.eq_ok_of_isOk _ (by decide))
  refine ⟨?_, ?_, ?_⟩
  · exact h.1.trans (by decide)
  · exact h.2.1.trans (by decide)
  · exact h.2.2.1.trans (by decide)

/-- C4: when `Exec` does not return nil it returns an error (its compensating credit
succeeds, it does not panic), and every account's balance and message list, as read
through `GetAccountOf`, is what it was before the call. -/
theorem exec_failure_atomic (tx : Transaction) (db : AccountsDB)
    (h : ¬ ∃ db1, tx.Exec db = Outcome.ok db1) :
    ∃ db1, tx.Exec db = Outcome.error db1 ∧
      ∀ a, (db1.GetAccountOf a).1.Balance = (db.GetAccountOf a).1.Balance ∧
        (db1.GetAccountOf a).1.Messages = (db.GetAccountOf a).1.Messages := by
  obtain ⟨db1, h1⟩ := (Transaction.Exec_error_iff_not_ok tx db).mpr h
  refine ⟨db1, h1, fun a => ?_⟩
  have hv := Transaction.Exec_error_view tx db db1 h1 a
  refine ⟨?_, hv.2⟩
  have h2 : (db1.GetAccountOf a).1.Balance.val = (db.GetAccountOf a).1.Balance.val := hv.1
  cases hx : (db1.GetAccountOf a).1.Balance
  cases hy : (db.GetAccountOf a).1.Balance
  simp only [hx, hy] at h2
  subst h2
  rfl

/-- C4, an instance: on `dbFull2` the recipient `0x…02` holds `MaxInt64`, so `txTo2`
fails at the credit after its sender `0x…01` was debited; the debit is compensated. -/
theorem exec_failure_atomic_witness :
    ∃ db1, txTo2.Exec dbFull2 = Outcome.error db1 ∧
      ∀ a, (db1.GetAccountOf a).1.Balance = (dbFull2.GetAccountOf a).1.Balance ∧
        (db1.GetAccountOf a).1.Messages = (dbFull2.GetAccountOf a).1.Messages :=
  exec_failure_atomic txTo2 dbFull2 (by
    rw [← Transaction.Exec_error_iff_not_ok]
    exact ⟨_, Outcome.eq_error_of_isError _ (by decide)⟩)

/-! ## Block packaging: claims C5 to C10 -/

theorem pick_sublist (keep : Bool) (txs : List Transaction) :
    ∀ fs : List Bool, List.Sublist (pick keep txs fs) txs := by
  induction txs with
  | nil => intro fs; cases fs <;> simp [pick]
  | cons tx rest ih =>
    intro fs
    cases fs with
    | nil => simp [pick]
    | cons f fs =>
      simp only [pick]
      split
      · exact (ih fs).cons₂ tx
      · exact (ih fs).cons tx

theorem execFlags_length (txs : List Transaction) :
    ∀ db : AccountsDB, (execFlags txs db).length = txs.length := by
  induction txs with
  | nil => intro db; rfl
  | cons tx rest ih =>
    intro db
    simp only [execFlags]
    split <;> simp [ih]

theorem pick_length_add (txs : List Transaction) :
    ∀ fs : List Bool, fs.length = txs.length →
      (pick true txs fs).length + (pick false txs fs).length = txs.length := by
  induction txs with
  | nil => intro fs _; cases fs <;> simp [pick]
  | cons tx rest ih =>
    intro fs h
    cases fs with
    | nil => simp at h
    | cons f fs =>
      have := ih fs (by simpa using h)
      cases f <;> simp [pick] <;> omega

/-- What `BePackaged` returns when it returns nil. -/
theorem Block.BePackaged_ok (sha : List Byte → MemoryChain.Hash) (b : Block) (miner : Address)
    (blocksDB : BlocksDB) (accountsDB : AccountsDB) (r : Packaging)
    (h : b.BePackaged sha miner blocksDB accountsDB = Outcome.ok r) :
    (executed b.Txs accountsDB).realTxs.length ≠ 0 ∧
    ((executed b.Txs accountsDB).db.IncreaseBalanceOf miner
        (awardOf (executed b.Txs accountsDB).realTxs)).err = false ∧
    r.block = packagedBlock sha b miner accountsDB ∧
    r.accountsDB = ((executed b.Txs accountsDB).db.IncreaseBalanceOf miner
        (awardOf (executed b.Txs accountsDB).realTxs)).db ∧
    r.returned = (executed b.Txs accountsDB).notPackagedTxs := by
  rw [Block.BePackaged_eq] at h
  split at h
  · cases h
  · next h0 =>
    split at h
    · split at h <;> cases h
    · next h1 =>
      split at h
      · split at h <;> cases h
      · injection h with h
        subst h
        exact ⟨h0, by simpa using h1, rfl, rfl, rfl⟩

/-- C7: when `BePackaged` succeeds, the block's `Txs` is the list of the proposed
transactions whose `Exec` returned nil (each executed on the store left by the ones
before it), the returned list is the list of those whose `Exec` failed, and both keep
the order of the proposed list, which they split between them. -/
theorem bePackaged_partitions_in_order (sha : List Byte → Hash) (b : Block) (miner : Address)
    (blocksDB : BlocksDB) (accountsDB : AccountsDB) (r : Packaging)
    (h : b.BePackaged sha miner blocksDB accountsDB = Outcome.ok r) :
    r.block.Txs = pick true b.Txs (execFlags b.Txs accountsDB) ∧
    r.returned = pick false b.Txs (execFlags b.Txs accountsDB) ∧
    List.Sublist r.block.Txs b.Txs ∧ List.Sublist r.returned b.Txs ∧
    r.block.Txs.length + r.returned.length = b.Txs.length := by
  obtain ⟨-, -, hb, -, hr⟩ := Block.BePackaged_ok sha b miner blocksDB accountsDB r h
  obtain ⟨e1, e2, -⟩ := executed_spec b.Txs accountsDB
  have t : r.block.Txs = pick true b.Txs (execFlags b.Txs accountsDB) := by
    rw [hb]; exact e1
  have f : r.returned = pick false b.Txs (execFlags b.Txs accountsDB) := by
    rw [hr]; exact e2
  refine ⟨t, f, ?_, ?_, ?_⟩
  · rw [t]; exact pick_sublist _ _ _
  · rw [f]; exact pick_sublist _ _ _
  · rw [t, f]; exact pick_length_add _ _ (execFlags_length _ _)

theorem Transaction.Exec_ok_congr (tx : Transaction) (db db1 : AccountsDB)
    (hv : ∀ a, db1.balance a = db.balance a) :
    (∃ d, tx.Exec db1 = Outcome.ok d) ↔ (∃ d, tx.Exec db = Outcome.ok d) := by
  rw [Transaction.Exec_ok_iff, Transaction.Exec_ok_iff, hv, hv]

theorem execFlags_all_fail (db : AccountsDB) (txs : List Transaction) :
    ∀ db1 : AccountsDB, (∀ a, db1.balance a = db.balance a) →
      (∀ tx ∈ txs, ¬ ∃ d, tx.Exec db = Outcome.ok d) →
      pick true txs (execFlags txs db1) = [] := by
  induction txs with
  | nil => intro db1 _ _; rfl
  | cons tx rest ih =>
    intro db1 hv hall
    have hno : ¬ ∃ d, tx.Exec db1 = Outcome.ok d := by
      rw [Transaction.Exec_ok_congr tx db db1 hv]
      exact hall tx (List.mem_cons_self _ _)
    have hrest := fun t ht => hall t (List.mem_cons_of_mem tx ht)
    cases h : tx.Exec db1 with
    | ok d => exact absurd ⟨d, h⟩ hno
    | error d =>
      have hd : ∀ a, d.balance a = db.balance a := fun a =>
        ((Transaction.Exec_error_view tx db1 d h a).1).trans (hv a)
      simp only [execFlags, h, pick, Outcome.state]
      simpa using ih d hd hrest
    | panic d => exact absurd h (Transaction.Exec_no_panic tx db1 d)

/-- C9: if `Exec` fails for every proposed transaction (or none is proposed),
`BePackaged` returns an error through its `len(realTxs) == 0` branch, which precedes the
proof of work: the outcome is the same for every digest function, and it leaves the
block (so its `Txs`, `Nonce`, `Hash` and `Miner`), the block store and every account's
balance and message list as they were; nothing is credited to the miner. -/
theorem bePackaged_nothing_executed (b : Block) (miner : Address)
    (blocksDB : BlocksDB) (accountsDB : AccountsDB)
    (h : ∀ tx ∈ b.Txs, ¬ ∃ db1, tx.Exec accountsDB = Outcome.ok db1) :
    ∃ r, (∀ sha, b.BePackaged sha miner blocksDB accountsDB = Outcome.error r) ∧
      r.block = b ∧ r.blocksDB = blocksDB ∧ r.returned = [] ∧
      ∀ a, r.accountsDB.balance a = accountsDB.balance a ∧
        r.accountsDB.messages a = accountsDB.messages a := by
  obtain ⟨e1, -, hb, hm, -⟩ := executed_spec b.Txs accountsDB
  have hnil : (executed b.Txs accountsDB).realTxs = [] := by
    rw [e1]; exact execFlags_all_fail accountsDB b.Txs accountsDB (fun _ => rfl) h
  refine ⟨⟨b, blocksDB, (executed b.Txs accountsDB).db, []⟩, ?_, rfl, rfl, rfl,
    fun a => ⟨?_, ?_⟩⟩
  · intro sha
    rw [Block.BePackaged_eq, if_pos (by rw [hnil]; rfl)]
  · have := hb a
    rw [hnil] at this
    simpa [debited, credited] using this
  · have := hm a
    rw [hnil] at this
    simpa [delivered] using this

theorem foldl_award (txs : List Transaction) :
    ∀ acc : Int64, (txs.foldl (fun award tx => award.add tx.Fee) acc).val =
      (Int64.wrap (acc.val + feeSum txs)).val := by
  induction txs with
  | nil =>
    intro acc
    have := acc.lo
    have := acc.hi
    simp only [List.foldl_nil, feeSum, List.map_nil, List.sum_nil, Int64.wrap_val]
    omega
  | cons tx rest ih =>
    intro acc
    rw [List.foldl_cons, ih, feeSum_cons]
    simp only [Int64.wrap_val, Int64.add_val]
    omega

/-- The award is the `int64` value of `10 + Σ Fee`. -/
theorem awardOf_val (txs : List Transaction) :
    (awardOf txs).val = (Int64.wrap (10 + feeSum txs)).val := by
  unfold awardOf
  rw [foldl_award]
  rfl

theorem rollBackAll_after_exec (txs : List Transaction) (db s : AccountsDB) (extra : Address → Int)
    (hextra : ∀ a, 0 ≤ extra a)
    (hs : ∀ a, s.balance a = (executed txs db).db.balance a + extra a)
    (hms : ∀ a, s.messages a = (executed txs db).db.messages a)
    (hhi : ∀ a, db.balance a + extra a + credited (executed txs db).realTxs a
      ≤ 9223372036854775807)
    (hlo : ∀ a, -9223372036854775808 ≤ db.balance a - debited (executed txs db).realTxs a) :
    ∃ s1, rollBackAll (executed txs db).realTxs s = Outcome.ok s1 ∧
      ∀ a, s1.balance a = db.balance a + extra a ∧ s1.messages a = db.messages a := by
  obtain ⟨-, -, hb, hm, hall⟩ := executed_spec txs db
  obtain ⟨s1, e, b1, m1⟩ := rollBackAll_spec (executed txs db).realTxs s
    (fun a => db.balance a + extra a)
    (fun a => by rw [hs a, hb a]; beta_reduce; omega)
    (fun tx ht => ⟨(hall tx ht).1, (hall tx ht).2.1⟩)
    (fun a => by have := hhi a; beta_reduce; omega)
    (fun a => by have := hlo a; have := hextra a; beta_reduce; omega)
    (fun a => by rw [hms a, hm a]; simp)
  refine ⟨s1, e, fun a => ⟨b1 a, ?_⟩⟩
  rw [m1 a, hms a, hm a]
  simp

/-- C5 (amended): if at least one transaction executes and `IncreaseBalanceOf(miner,
award)` fails, and for every account the balance before the call plus all amounts the
executed transactions credit to it stays at most `MaxInt64` and the balance before the
call minus all they debit from it stays at least `MinInt64`, then `BePackaged` returns
an error, the block's `Txs`, `Nonce`, `Hash` and `Miner` are what they were, and so is
every account's balance and message list. -/
theorem bePackaged_miner_credit_fails (sha : List Byte → Hash) (b : Block) (miner : Address)
    (blocksDB : BlocksDB) (accountsDB : AccountsDB)
    (hne : (executed b.Txs accountsDB).realTxs ≠ [])
    (hfail : ((executed b.Txs accountsDB).db.IncreaseBalanceOf miner
      (awardOf (executed b.Txs accountsDB).realTxs)).err = true)
    (hhi : ∀ a, accountsDB.balance a + credited (executed b.Txs accountsDB).realTxs a
      ≤ 9223372036854775807)
    (hlo : ∀ a, -9223372036854775808 ≤
      accountsDB.balance a - debited (executed b.Txs accountsDB).realTxs a) :
    ∃ r, b.BePackaged sha miner blocksDB accountsDB = Outcome.error r ∧
      r.block.Txs = b.Txs ∧ r.block.Nonce = b.Nonce ∧ r.block.Hash = b.Hash ∧
      r.block.Miner = b.Miner ∧
      ∀ a, r.accountsDB.balance a = accountsDB.balance a ∧
        r.accountsDB.messages a = accountsDB.messages a := by
  obtain ⟨s1, e, hv⟩ := rollBackAll_after_exec b.Txs accountsDB
    ((executed b.Txs accountsDB).db.IncreaseBalanceOf miner
      (awardOf (executed b.Txs accountsDB).realTxs)).db (fun _ => 0) (fun _ => le_refl _)
    (fun a => by rw [AccountsDB.IncreaseBalanceOf_balance, if_pos hfail]; beta_reduce; omega)
    (fun a => AccountsDB.IncreaseBalanceOf_messages _ _ _ _)
    (fun a => by have := hhi a; beta_reduce; omega) hlo
  have hlen : ¬ (executed b.Txs accountsDB).realTxs.length = 0 := by
    simpa using hne
  rw [Block.BePackaged_eq, if_neg hlen, if_pos hfail]
  simp only [e]
  refine ⟨_, rfl, rfl, rfl, rfl, rfl, fun a => ?_⟩
  have := hv a
  simpa using this

/-- C6 (amended): if at least one transaction executes, the miner is credited and all
`MaxRetryOfAddingBlock` attempts of `AddBlock` fail, and for every account the balance
before the call (plus the award, for the miner) plus all amounts the executed
transactions credit to it stays at most `MaxInt64` and the balance before the call
minus all they debit from it stays at least `MinInt64`, then `BePackaged` returns an
error, the block's `Txs`, `Nonce`, `Hash` and `Miner` are what they were, every message
list is what it was, and every balance is what it was except that the miner keeps the
award. -/
theorem bePackaged_commit_fails (sha : List Byte → Hash) (b : Block) (miner : Address)
    (blocksDB : BlocksDB) (accountsDB : AccountsDB)
    (hne : (executed b.Txs accountsDB).realTxs ≠ [])
    (hcredit : ((executed b.Txs accountsDB).db.IncreaseBalanceOf miner
      (awardOf (executed b.Txs accountsDB).realTxs)).err = false)
    (hadd : (blocksDB.AddBlockWithRetry (packagedBlock sha b miner accountsDB)
      MaxRetryOfAddingBlock).2 = true)
    (hhi : ∀ a, accountsDB.balance a
      + (if a = miner then (awardOf (executed b.Txs accountsDB).realTxs).val else 0)
      + credited (executed b.Txs accountsDB).realTxs a ≤ 9223372036854775807)
    (hlo : ∀ a, -9223372036854775808 ≤
      accountsDB.balance a - debited (executed b.Txs accountsDB).realTxs a) :
    ∃ r, b.BePackaged sha miner blocksDB accountsDB = Outcome.error r ∧
      r.block.Txs = b.Txs ∧ r.block.Nonce = b.Nonce ∧ r.block.Hash = b.Hash ∧
      r.block.Miner = b.Miner ∧
      ∀ a, r.accountsDB.balance a = accountsDB.balance a
          + (if a = miner then (awardOf (executed b.Txs accountsDB).realTxs).val else 0) ∧
        r.accountsDB.messages a = accountsDB.messages a := by
  have hc : ¬ ((executed b.Txs accountsDB).db.IncreaseBalanceOf miner
      (awardOf (executed b.Txs accountsDB).realTxs)).err = true := by
    rw [hcredit]; simp
  have haw : 0 ≤ (awardOf (executed b.Txs accountsDB).realTxs).val := by
    have := (AccountsDB.IncreaseBalanceOf_err _ miner
      (awardOf (executed b.Txs accountsDB).realTxs)).not.mp hc
    omega
  obtain ⟨s1, e, hv⟩ := rollBackAll_after_exec b.Txs accountsDB
    ((executed b.Txs accountsDB).db.IncreaseBalanceOf miner
      (awardOf (executed b.Txs accountsDB).realTxs)).db
    (fun a => if a = miner then (awardOf (executed b.Txs accountsDB).realTxs).val else 0)
    (fun a => by dsimp only; split <;> omega)
    (fun a => by
      rw [AccountsDB.IncreaseBalanceOf_balance, if_neg hc]
      by_cases ha : a = miner
      · subst ha; simp
      · simp [ha])
    (fun a => AccountsDB.IncreaseBalanceOf_messages _ _ _ _)
    hhi hlo
  have hlen : ¬ (executed b.Txs accountsDB).realTxs.length = 0 := by
    simpa using hne
  rw [Block.BePackaged_eq, if_neg hlen, if_neg hc, if_pos hadd]
  simp only [e]
  exact ⟨_, rfl, rfl, rfl, rfl, rfl, hv⟩

/-- The balances after a successful `BePackaged`: every balance is the one left by
executing the packaged transactions, except that the miner's is higher by `awardOf`,
the `int64` accumulation of `10 + Σ Fee` over the packaged transactions, which is
`10 + Σ Fee` whenever that sum lies in the `int64` range. -/
theorem bePackaged_ok_balances (sha : List Byte → Hash) (b : Block) (miner : Address)
    (blocksDB : BlocksDB) (accountsDB : AccountsDB) (r : Packaging)
    (h : b.BePackaged sha miner blocksDB accountsDB = Outcome.ok r) :
    r.block.Txs = (executed b.Txs accountsDB).realTxs ∧
    (∀ a, r.accountsDB.balance a =
      accountsDB.balance a - debited r.block.Txs a + credited r.block.Txs a
        + (if a = miner then (awardOf r.block.Txs).val else 0)) ∧
    (awardOf r.block.Txs).val = (Int64.wrap (10 + feeSum r.block.Txs)).val ∧
    (-9223372036854775808 ≤ 10 + feeSum r.block.Txs →
      10 + feeSum r.block.Txs ≤ 9223372036854775807 →
      (awardOf r.block.Txs).val = 10 + feeSum r.block.Txs) := by
  obtain ⟨-, hc, hb, hdb, -⟩ := Block.BePackaged_ok sha b miner blocksDB accountsDB r h
  obtain ⟨-, -, hbal, -, -⟩ := executed_spec b.Txs accountsDB
  have ht : r.block.Txs = (executed b.Txs accountsDB).realTxs := by rw [hb]; rfl
  refine ⟨ht, ?_, awardOf_val _, ?_⟩
  · intro a
    rw [hdb, ht, AccountsDB.IncreaseBalanceOf_balance, hc]
    simp only [hbal]
    by_cases ha : a = miner
    · subst ha; simp
    · simp [ha]
  · intro h1 h2
    rw [awardOf_val, Int64.wrap_val]
    omega

theorem credited_eq_zero (txs : List Transaction) (a : Address)
    (h : ∀ tx ∈ txs, tx.To ≠ a) : credited txs a = 0 := by
  induction txs with
  | nil => rfl
  | cons tx rest ih =>
    rw [credited_cons, ih (fun t ht => h t (List.mem_cons_of_mem _ ht)),
      if_neg (fun e => h tx (List.mem_cons_self _ _) e.symm)]
    rfl

theorem debited_eq_zero (txs : List Transaction) (a : Address)
    (h : ∀ tx ∈ txs, tx.From ≠ a) : debited txs a = 0 := by
  induction txs with
  | nil => rfl
  | cons tx rest ih =>
    rw [debited_cons, ih (fun t ht => h t (List.mem_cons_of_mem _ ht)),
      if_neg (fun e => h tx (List.mem_cons_self _ _) e.symm)]
    rfl

/-- C5 fails when a rollback overflows: on `dbNearFull` the miner holds `MaxInt64`, so
the credit of the award fails after `txOut2` and `txIn2` were executed; rolling back
`txOut2` first credits 12 to `0x…02`, which holds `MaxInt64 - 5` again, and
`BePackaged` panics instead of returning an error. -/
theorem bePackaged_miner_credit_fails_panics :
    (executed [txOut2, txIn2] dbNearFull).realTxs = [txOut2, txIn2] ∧
    ((executed [txOut2, txIn2] dbNearFull).db.IncreaseBalanceOf (wellKnown 1)
      (awardOf [txOut2, txIn2])).err = true ∧
    ((NewBlock timeS2 [txOut2, txIn2] ZeroHash).BePackaged zeroDigest (wellKnown 1)
      blocksOk dbNearFull).isPanic = true := by
  decide

/-- C5, an instance: on `dbMinerFull` transaction S2 executes, the credit of the award
12 to the miner, who holds `MaxInt64`, fails, and S2 is rolled back. -/
theorem bePackaged_miner_credit_fails_witness :
    ∃ r, (NewBlock timeS2 [txS2] ZeroHash).BePackaged zeroDigest (wellKnown 1)
        blocksOk dbMinerFull = Outcome.error r ∧
      r.block.Txs = [txS2] ∧ r.block.Nonce = Int64.zero ∧ r.block.Hash = ZeroHash ∧
      r.block.Miner = ZeroAddress ∧
      ∀ a, r.accountsDB.balance a = dbMinerFull.balance a ∧
        r.accountsDB.messages a = dbMinerFull.messages a := by
  have hx : (executed (NewBlock timeS2 [txS2] ZeroHash).Txs dbMinerFull).realTxs = [txS2] := by
    decide
  exact bePackaged_miner_credit_fails zeroDigest (NewBlock timeS2 [txS2] ZeroHash)
    (wellKnown 1) blocksOk dbMinerFull (by rw [hx]; simp) (by decide)
    (fun a => by
      rw [hx]
      by_cases ha : a = wellKnown 3
      · subst ha; decide
      · rw [credited_eq_zero [txS2] a (by
          intro t ht
          simp only [List.mem_singleton] at ht
          subst ht
          exact fun e => ha e.symm)]
        have := dbMinerFull.balance_hi a
        omega)
    (fun a => by
      rw [hx]
      by_cases ha : a = wellKnown 2
      · subst ha; decide
      · rw [debited_eq_zero [txS2] a (by
          intro t ht
          simp only [List.mem_singleton] at ht
          subst ht
          exact fun e => ha e.symm)]
        have := dbMinerFull.balance_lo a
        omega)

/-- C6 fails when a rollback overflows: on `dbMinerNearFull` the miner holds
`MaxInt64 - 10` and sends `txFromMiner`; the award 12 is credited, all five `AddBlock`
attempts fail, and the rollback's credit of 3 to the miner, who now holds
`MaxInt64 - 1`, overflows: `BePackaged` panics instead of returning an error. -/
theorem bePackaged_commit_fails_panics :
    (blocksFailing.AddBlockWithRetry
      (packagedBlock zeroDigest (NewBlock timeS2 [txFromMiner] ZeroHash) (wellKnown 1)
        dbMinerNearFull) MaxRetryOfAddingBlock).2 = true ∧
    ((NewBlock timeS2 [txFromMiner] ZeroHash).BePackaged zeroDigest (wellKnown 1)
      blocksFailing dbMinerNearFull).isPanic = true := by
  decide

/-- C6, an instance: transaction S2 on the initial store, with a block store whose five
writes fail; the miner `0x…01` keeps the award 12. -/
theorem bePackaged_commit_fails_witness :
    ∃ r, (NewBlock timeS2 [txS2] ZeroHash).BePackaged zeroDigest (wellKnown 1)
        blocksFailing NewAccountsDB = Outcome.error r ∧
      r.block.Txs = [txS2] ∧ r.block.Nonce = Int64.zero ∧ r.block.Hash = ZeroHash ∧
      r.block.Miner = ZeroAddress ∧
      ∀ a, r.accountsDB.balance a = NewAccountsDB.balance a
          + (if a = wellKnown 1 then
              (awardOf (executed (NewBlock timeS2 [txS2] ZeroHash).Txs
                NewAccountsDB).realTxs).val else 0) ∧
        r.accountsDB.messages a = NewAccountsDB.messages a := by
  have hx : (executed (NewBlock timeS2 [txS2] ZeroHash).Txs NewAccountsDB).realTxs = [txS2] := by
    decide
  exact bePackaged_commit_fails zeroDigest (NewBlock timeS2 [txS2] ZeroHash)
    (wellKnown 1) blocksFailing NewAccountsDB (by rw [hx]; simp) (by decide) (by decide)
    (fun a => by
      rw [hx]
      by_cases h3 : a = wellKnown 3
      · subst h3; decide
      · rw [credited_eq_zero [txS2] a (by
          intro t ht
          simp only [List.mem_singleton] at ht
          subst ht
          exact fun e => h3 e.symm)]
        by_cases h1 : a = wellKnown 1
        · subst h1; decide
        · rw [if_neg h1]
          have := NewAccountsDB.balance_hi a
          omega)
    (fun a => by
      rw [hx]
      by_cases ha : a = wellKnown 2
      · subst ha; decide
      · rw [debited_eq_zero [txS2] a (by
          intro t ht
          simp only [List.mem_singleton] at ht
          subst ht
          exact fun e => ha e.symm)]
        have := NewAccountsDB.balance_lo a
        omega)

/-- C7, an instance: on `dbFull2` the recipient `0x…02` of `txTo2` holds `MaxInt64`, so
`txTo2` is rejected and returned while S2, proposed after it, is packaged. -/
theorem bePackaged_partitions_in_order_witness :
    ((NewBlock timeS2 [txTo2, txS2] ZeroHash).BePackaged zeroDigest (wellKnown 1)
      blocksOk dbFull2).state.block.Txs = [txS2] ∧
    ((NewBlock timeS2 [txTo2, txS2] ZeroHash).BePackaged zeroDigest (wellKnown 1)
      blocksOk dbFull2).state.returned = [txTo2] := by
  have h := bePackaged_partitions_in_order zeroDigest (NewBlock timeS2 [txTo2, txS2] ZeroHash)
    (wellKnown 1) blocksOk dbFull2 _ (Outcome.eq_ok_of_isOk _ (by decide))
  exact ⟨h.1.trans (by decide), h.2.1.trans (by decide)⟩

/-- C9, an instance: on `dbFull2` the only proposed transaction `txTo2` fails. -/
theorem bePackaged_nothing_executed_witness :
    ∃ r, (∀ sha, (NewBlock timeS2 [txTo2] ZeroHash).BePackaged sha (wellKnown 1)
        blocksOk dbFull2 = Outcome.error r) ∧
      r.block = NewBlock timeS2 [txTo2] ZeroHash ∧ r.blocksDB = blocksOk ∧ r.returned = [] ∧
      ∀ a, r.accountsDB.balance a = dbFull2.balance a ∧
        r.accountsDB.messages a = dbFull2.messages a :=
  bePackaged_nothing_executed (NewBlock timeS2 [txTo2] ZeroHash) (wellKnown 1)
    blocksOk dbFull2 (by
      intro tx htx
      simp only [NewBlock, List.mem_singleton] at htx
      subst htx
      rw [← Transaction.Exec_error_iff_not_ok]
      exact ⟨_, Outcome.eq_error_of_isError _ (by decide)⟩)

theorem Address.eq_of_bytes_eq (a b : Address) (h : a.bytes = b.bytes) : a = b := by
  cases a; cases b; cases h; rfl

/-- C10: the digest that `BePackaged` stores is not the one `Validate` recomputes.  When
`BePackaged` succeeds, the stored `Nonce` and `Hash` are the ones `Run` returned for the
block that still carried its old `Miner`, and `Miner` is assigned afterwards; for a new
miner, the bytes that `Validate` hashes (from the stored fields) differ from the bytes
`Run` hashed, at every nonce. -/
theorem bePackaged_hash_precedes_miner (sha : List Byte → Hash) (b : Block) (miner : Address)
    (blocksDB : BlocksDB) (accountsDB : AccountsDB) (r : Packaging)
    (h : b.BePackaged sha miner blocksDB accountsDB = Outcome.ok r)
    (hm : miner ≠ b.Miner) :
    r.block.Miner = miner ∧
    r.block.Nonce = ((NewProofOfWork { b with Txs := r.block.Txs }).Run sha).1 ∧
    r.block.Hash = ((NewProofOfWork { b with Txs := r.block.Txs }).Run sha).2 ∧
    ∀ nonce, (NewProofOfWork r.block).prepareData nonce ≠
      (NewProofOfWork { b with Txs := r.block.Txs }).prepareData nonce := by
  obtain ⟨-, -, hb, -, -⟩ := Block.BePackaged_ok sha b miner blocksDB accountsDB r h
  rw [hb]
  refine ⟨rfl, rfl, rfl, ?_⟩
  intro nonce heq
  simp only [ProofOfWork.prepareData, NewProofOfWork, packagedBlock, bytesJoin,
    List.append_assoc, List.append_cancel_left_eq, Address.Bytes] at heq
  exact hm (Address.eq_of_bytes_eq _ _ heq)

set_option maxRecDepth 8192 in
/-- C10, an instance: S2 packaged for the miner `0x…01` with the digest `byteSumDigest`.
The stored hash is the digest of the input whose miner field is the zero address; the
digest of the input built from the stored fields is a different one, it is not below
the target, and `Validate` returns false. -/
theorem bePackaged_hash_precedes_miner_witness :
    (∀ nonce, (NewProofOfWork ((NewBlock timeS2 [txS2] ZeroHash).BePackaged byteSumDigest
        (wellKnown 1) blocksOk NewAccountsDB).state.block).prepareData nonce ≠
      (NewProofOfWork { NewBlock timeS2 [txS2] ZeroHash with
        Txs := ((NewBlock timeS2 [txS2] ZeroHash).BePackaged byteSumDigest
          (wellKnown 1) blocksOk NewAccountsDB).state.block.Txs }).prepareData nonce) ∧
    (NewProofOfWork ((NewBlock timeS2 [txS2] ZeroHash).BePackaged byteSumDigest
        (wellKnown 1) blocksOk NewAccountsDB).state.block).Validate byteSumDigest = false ∧
    byteSumDigest ((NewProofOfWork ((NewBlock timeS2 [txS2] ZeroHash).BePackaged byteSumDigest
        (wellKnown 1) blocksOk NewAccountsDB).state.block).prepareData
          ((NewBlock timeS2 [txS2] ZeroHash).BePackaged byteSumDigest
            (wellKnown 1) blocksOk NewAccountsDB).state.block.Nonce) ≠
      ((NewBlock timeS2 [txS2] ZeroHash).BePackaged byteSumDigest
        (wellKnown 1) blocksOk NewAccountsDB).state.block.Hash :=
  ⟨(bePackaged_hash_precedes_miner byteSumDigest (NewBlock timeS2 [txS2] ZeroHash)
      (wellKnown 1) blocksOk NewAccountsDB _ (Outcome.eq_ok_of_isOk _ (by decide))
      (by decide)).2.2.2,
    by decide, by decide⟩

/-! ## Proof of work: claims C11 and C12 -/

theorem bytesJoin_nil_sep (l : List (List Byte)) : bytesJoin l [] = l.flatten := by
  induction l with
  | nil => rfl
  | cons a rest ih =>
    cases rest with
    | nil => simp [bytesJoin]
    | cons b rest => simp only [bytesJoin, List.append_nil, ih, List.flatten_cons]

theorem flatten_hashes_length (txs : List Transaction) :
    ((txs.map (fun tx => tx.Hash.Bytes)).flatten).length = 32 * txs.length := by
  induction txs with
  | nil => rfl
  | cons tx rest ih =>
    have hs : tx.Hash.Bytes.length = 32 := tx.Hash.size
    simp only [List.map_cons, List.flatten_cons, List.length_append, ih, List.length_cons]
    omega

/-- C11: what `prepareData` builds.  The joined transaction hashes are passed to
`bytes.Join` as its separator, so they stand between the five fields (four times) and
not after them: the result is the layout of the specification when the block has no
transaction, and it is 96 bytes per transaction longer than that layout otherwise. -/
theorem prepareData_layout (pow : ProofOfWork) (nonce : Int64) :
    pow.prepareData nonce =
      pow.block.PrevBlockHash.Bytes
        ++ (pow.block.Txs.map (fun tx => tx.Hash.Bytes)).flatten
        ++ IntToHex pow.block.Timestamp
        ++ (pow.block.Txs.map (fun tx => tx.Hash.Bytes)).flatten
        ++ IntToHex (Int64.wrap 24)
        ++ (pow.block.Txs.map (fun tx => tx.Hash.Bytes)).flatten
        ++ IntToHex nonce
        ++ (pow.block.Txs.map (fun tx => tx.Hash.Bytes)).flatten
        ++ pow.block.Miner.Bytes ∧
    (pow.block.Txs = [] → pow.prepareData nonce = specPowInput pow.block nonce) ∧
    (pow.prepareData nonce).length =
      (specPowInput pow.block nonce).length + 96 * pow.block.Txs.length := by
  have h : pow.prepareData nonce =
      pow.block.PrevBlockHash.Bytes
        ++ (pow.block.Txs.map (fun tx => tx.Hash.Bytes)).flatten
        ++ IntToHex pow.block.Timestamp
        ++ (pow.block.Txs.map (fun tx => tx.Hash.Bytes)).flatten
        ++ IntToHex (Int64.wrap 24)
        ++ (pow.block.Txs.map (fun tx => tx.Hash.Bytes)).flatten
        ++ IntToHex nonce
        ++ (pow.block.Txs.map (fun tx => tx.Hash.Bytes)).flatten
        ++ pow.block.Miner.Bytes := by
    simp only [ProofOfWork.prepareData, bytesJoin, bytesJoin_nil_sep, List.append_assoc]
    rfl
  refine ⟨h, ?_, ?_⟩
  · intro hnil
    rw [h]
    simp [specPowInput, hnil]
  · rw [h]
    simp only [specPowInput, List.length_append, flatten_hashes_length]
    omega

theorem Int64.ext_val (a b : Int64) (h : a.val = b.val) : a = b := by
  cases a; cases b; cases h; rfl

theorem ProofOfWork.runLoop_succ (sha : List Byte → Hash) (pow : ProofOfWork) (k : Nat)
    (nonce : Int64) (hash : Hash) :
    pow.runLoop sha (k + 1) nonce hash =
      if nonce.val < MaxInt64 then
        if (sha (pow.prepareData nonce)).toNat < pow.target then
          (nonce, sha (pow.prepareData nonce))
        else pow.runLoop sha k (nonce.add ⟨1, by decide, by decide⟩)
          (sha (pow.prepareData nonce))
      else (nonce, hash) := rfl

theorem runLoop_spec (sha : List Byte → Hash) (pow : ProofOfWork) :
    ∀ (k : Nat) (nonce : Int64) (hash : Hash),
      0 ≤ nonce.val → nonce.val + k = 9223372036854775807 →
      (pow.runLoop sha k nonce hash).1.val < 9223372036854775807 →
      (pow.runLoop sha k nonce hash).2 =
          sha (pow.prepareData (pow.runLoop sha k nonce hash).1) ∧
        (pow.runLoop sha k nonce hash).2.toNat < pow.target ∧
        nonce.val ≤ (pow.runLoop sha k nonce hash).1.val ∧
        ∀ m : Int64, nonce.val ≤ m.val → m.val < (pow.runLoop sha k nonce hash).1.val →
          ¬ (sha (pow.prepareData m)).toNat < pow.target := by
  intro k
  induction k with
  | zero =>
    intro nonce hash _ hk hlt
    simp only [ProofOfWork.runLoop] at hlt
    omega
  | succ k ih =>
    intro nonce hash h0 hk hlt
    have hn : nonce.val < MaxInt64 := by
      show nonce.val < 9223372036854775807
      omega
    rw [ProofOfWork.runLoop_succ, if_pos hn] at hlt ⊢
    by_cases hacc : (sha (pow.prepareData nonce)).toNat < pow.target
    · rw [if_pos hacc] at hlt ⊢
      refine ⟨rfl, hacc, le_refl _, ?_⟩
      intro m h1 h2
      exact absurd h2 (by simp only []; omega)
    · rw [if_neg hacc] at hlt ⊢
      have hv : (nonce.add ⟨1, by decide, by decide⟩).val = nonce.val + 1 := by
        have := nonce.lo
        simp only [Int64.add_val]
        omega
      obtain ⟨e1, e2, e3, e4⟩ := ih (nonce.add ⟨1, by decide, by decide⟩)
        (sha (pow.prepareData nonce)) (by omega) (by omega) hlt
      refine ⟨e1, e2, by omega, ?_⟩
      intro m h1 h2
      by_cases hm : m.val = nonce.val
      · rw [Int64.ext_val m nonce hm]
        exact hacc
      · exact e4 m (by omega) h2

/-- C12: whenever `Run` returns a nonce `n < MaxInt64` with a hash `h`, then
`h = sha (prepareData n)`, `h` read as a big-endian unsigned integer is below `2^232`,
and no nonce `m` with `0 ≤ m < n` has its digest below the target. -/
theorem run_returns_first_accepted (sha : List Byte → Hash) (b : Block)
    (h : ((NewProofOfWork b).Run sha).1.val < 9223372036854775807) :
    ((NewProofOfWork b).Run sha).2 =
        sha ((NewProofOfWork b).prepareData ((NewProofOfWork b).Run sha).1) ∧
      ((NewProofOfWork b).Run sha).2.toNat < 2 ^ 232 ∧
      ∀ m : Int64, 0 ≤ m.val → m.val < ((NewProofOfWork b).Run sha).1.val →
        ¬ (sha ((NewProofOfWork b).prepareData m)).toNat < 2 ^ 232 := by
  have ht : (NewProofOfWork b).target = 2 ^ 232 := by
    simp [NewProofOfWork, targetBits, Nat.shiftLeft_eq]
  obtain ⟨e1, e2, -, e4⟩ := runLoop_spec sha (NewProofOfWork b) 9223372036854775807
    Int64.zero ZeroHash (by decide) (by decide) h
  rw [ht] at e2 e4
  exact ⟨e1, e2, e4⟩

/-! ## NewTransaction: claims C13 to C16 -/

theorem bitLen_zero (fuel : Nat) : bitLen fuel 0 = 0 := by
  cases fuel <;> simp [bitLen]

theorem bitLen_spec : ∀ (fuel n : Nat), n < 2 ^ fuel → n ≠ 0 →
    1 ≤ bitLen fuel n ∧ 2 ^ (bitLen fuel n - 1) ≤ n ∧ n < 2 ^ (bitLen fuel n) := by
  intro fuel
  induction fuel with
  | zero => intro n h hn; simp at h; exact absurd h hn
  | succ f ih =>
    intro n h hn
    simp only [bitLen, hn, if_false]
    by_cases h2 : n / 2 = 0
    · rw [h2, bitLen_zero]
      have : n = 1 := by omega
      subst this
      simp
    · have hlt : n / 2 < 2 ^ f := by
        rw [pow_succ] at h
        omega
      obtain ⟨l1, l2, l3⟩ := ih (n / 2) hlt h2
      have hp : 2 ^ (bitLen f (n / 2)) = 2 * 2 ^ (bitLen f (n / 2) - 1) := by
        conv_lhs => rw [show bitLen f (n / 2) = (bitLen f (n / 2) - 1) + 1 by omega]
        rw [pow_succ]; ring
      refine ⟨by omega, ?_, ?_⟩
      · simp only [Nat.add_sub_cancel]
        omega
      · rw [pow_succ]
        omega

theorem bitLen_self (n : Nat) (hn : n ≠ 0) :
    1 ≤ bitLen n n ∧ 2 ^ (bitLen n n - 1) ≤ n ∧ n < 2 ^ (bitLen n n) :=
  bitLen_spec n n (Nat.lt_two_pow n) hn

theorem round53_small (n : Nat) (h : n < 2 ^ 53) : round53 n = n := by
  unfold round53
  by_cases hn : n = 0
  · subst hn; simp [bitLen_zero]
  · obtain ⟨-, l2, -⟩ := bitLen_self n hn
    have : bitLen n n - 1 < 53 := by
      have := lt_of_le_of_lt l2 h
      exact (Nat.pow_lt_pow_iff_right (by norm_num)).mp this
    simp only []
    rw [if_pos (by omega)]

/-- How `round53` rounds a number of more than 53 bits: to a multiple of `2^s`, where
`2^(s+52) ≤ n < 2^(s+53)`, and up only from the upper half. -/
theorem round53_cases (n : Nat) :
    round53 n = n ∨
    ∃ s, 1 ≤ s ∧ 2 ^ (s + 52) ≤ n ∧ n < 2 ^ (s + 53) ∧
      (round53 n = (n / 2 ^ s) * 2 ^ s ∨
        (round53 n = (n / 2 ^ s + 1) * 2 ^ s ∧ 2 ^ (s - 1) ≤ n % 2 ^ s)) := by
  by_cases hlen : bitLen n n ≤ 53
  · left
    unfold round53
    simp only []
    rw [if_pos hlen]
  · right
    have hn : n ≠ 0 := by
      intro h0; subst h0; simp [bitLen_zero] at hlen
    obtain ⟨l1, l2, l3⟩ := bitLen_self n hn
    refine ⟨bitLen n n - 53, by omega, ?_, ?_, ?_⟩
    · rw [show bitLen n n - 53 + 52 = bitLen n n - 1 by omega]; exact l2
    · rw [show bitLen n n - 53 + 53 = bitLen n n by omega]; exact l3
    · unfold round53
      simp only []
      rw [if_neg hlen]
      split
      · next hc =>
        right
        refine ⟨rfl, ?_⟩
        rcases hc with hc | hc
        · omega
        · omega
      · left; rfl

/-- The rounding error of `round53` is at most `n / 2^53`. -/
theorem round53_le (n : Nat) : round53 n ≤ n + n / 2 ^ 53 := by
  rcases round53_cases n with h | ⟨s, hs, h1, h2, h3⟩
  · omega
  · have hp : 2 ^ s = 2 * 2 ^ (s - 1) := by
      conv_lhs => rw [show s = (s - 1) + 1 by omega]
      rw [pow_succ]; ring
    have hh : 2 ^ (s - 1) * 2 ^ 53 ≤ n := by
      rw [← pow_add, show s - 1 + 53 = s + 52 by omega]; exact h1
    have hdm := Nat.div_add_mod n (2 ^ s)
    have hmod := Nat.mod_lt n (show 0 < 2 ^ s by positivity)
    have hhalf : 2 ^ (s - 1) ≤ n / 2 ^ 53 := by
      rw [Nat.le_div_iff_mul_le (by norm_num)]; exact hh
    rcases h3 with h3 | ⟨h3, h4⟩
    · rw [h3]
      have : n / 2 ^ s * 2 ^ s ≤ n := Nat.div_mul_le_self n (2 ^ s)
      omega
    · rw [h3, Nat.add_mul, Nat.one_mul]
      have : n / 2 ^ s * 2 ^ s = 2 ^ s * (n / 2 ^ s) := Nat.mul_comm _ _
      omega

/-- Up to `6 * 10^15` the amount fee computed in `float64` is the exact floor of
`amount / 10000`. -/
theorem amountFee_exact (a : Nat) (ha : a ≤ 6000000000000000) :
    floorMulFloat64 7378697629483821 66 a = a / 10000 := by
  have p66 : (2 : Nat) ^ 66 = 73786976294838206464 := by norm_num
  have p53 : (2 : Nat) ^ 53 = 9007199254740992 := by norm_num
  unfold floorMulFloat64
  rw [round53_small a (by omega)]
  generalize hN : 7378697629483821 * a = N
  have hle := round53_le N
  rw [p53] at hle
  rcases round53_cases N with h | ⟨s, hs, h1, h2, h3⟩
  · rw [h, p66]; omega
  · have hs66 : s + 52 < 106 := by
      have hlt : (2 : Nat) ^ (s + 52) < 2 ^ 106 := by
        have : (2 : Nat) ^ 106 = 81129638414606681695789005144064 := by norm_num
        omega
      exact (Nat.pow_lt_pow_iff_right (by norm_num)).mp hlt
    have hsplit : (2 : Nat) ^ 66 = 2 ^ (66 - s) * 2 ^ s := by
      rw [← pow_add]; congr 1; omega
    have hk : a / 10000 * 2 ^ 66 ≤ N := by rw [p66]; omega
    have hq : a / 10000 * 2 ^ (66 - s) ≤ N / 2 ^ s := by
      rw [Nat.le_div_iff_mul_le (by positivity), Nat.mul_assoc, ← hsplit]; exact hk
    have hlow : a / 10000 * 2 ^ 66 ≤ round53 N := by
      have hqp : a / 10000 * 2 ^ 66 ≤ N / 2 ^ s * 2 ^ s := by
        rw [hsplit, ← Nat.mul_assoc]
        exact Nat.mul_le_mul_right _ hq
      rcases h3 with h3 | ⟨h3, -⟩
      · rw [h3]; exact hqp
      · rw [h3, Nat.add_mul]; omega
    rw [p66] at hlow ⊢
    omega

/-- For at most 256 bytes the data fee computed in `float64` is the exact floor of
`len / 10`. -/
theorem dataFee_exact (n : Nat) (hn : n ≤ 256) :
    floorMulFloat64 3602879701896397 55 n = n / 10 := by
  have p55 : (2 : Nat) ^ 55 = 36028797018963968 := by norm_num
  have p53 : (2 : Nat) ^ 53 = 9007199254740992 := by norm_num
  unfold floorMulFloat64
  rw [round53_small n (by omega)]
  generalize hN : 3602879701896397 * n = N
  have hle := round53_le N
  rw [p53] at hle
  rcases round53_cases N with h | ⟨s, hs, h1, h2, h3⟩
  · rw [h, p55]; omega
  · have hs55 : s + 52 < 64 := by
      have hlt : (2 : Nat) ^ (s + 52) < 2 ^ 64 := by
        have : (2 : Nat) ^ 64 = 18446744073709551616 := by norm_num
        omega
      exact (Nat.pow_lt_pow_iff_right (by norm_num)).mp hlt
    have hsplit : (2 : Nat) ^ 55 = 2 ^ (55 - s) * 2 ^ s := by
      rw [← pow_add]; congr 1; omega
    have hk : n / 10 * 2 ^ 55 ≤ N := by rw [p55]; omega
    have hq : n / 10 * 2 ^ (55 - s) ≤ N / 2 ^ s := by
      rw [Nat.le_div_iff_mul_le (by positivity), Nat.mul_assoc, ← hsplit]; exact hk
    have hlow : n / 10 * 2 ^ 55 ≤ round53 N := by
      have hqp : n / 10 * 2 ^ 55 ≤ N / 2 ^ s * 2 ^ s := by
        rw [hsplit, ← Nat.mul_assoc]
        exact Nat.mul_le_mul_right _ hq
      rcases h3 with h3 | ⟨h3, -⟩
      · rw [h3]; exact hqp
      · rw [h3, Nat.add_mul]; omega
    rw [p55] at hlow ⊢
    omega

/-- The amount fee computed in `float64` stays far below `2^63`. -/
theorem amountFee_lt (a : Nat) (ha : a ≤ 9223372036854775807) :
    floorMulFloat64 7378697629483821 66 a < 1000000000000000 := by
  have p66 : (2 : Nat) ^ 66 = 73786976294838206464 := by norm_num
  have p53 : (2 : Nat) ^ 53 = 9007199254740992 := by norm_num
  unfold floorMulFloat64
  have h1 := round53_le a
  generalize round53 a = m at h1 ⊢
  generalize hN : 7378697629483821 * m = N
  have h2 := round53_le N
  rw [p53] at h1 h2
  rw [p66]
  omega

theorem Int64.wrap_val_of_range (x : Int) (h1 : -9223372036854775808 ≤ x)
    (h2 : x ≤ 9223372036854775807) : (Int64.wrap x).val = x := by
  rw [Int64.wrap_val]; omega

/-- What `NewTransaction` returns on an input it accepts. -/
theorem NewTransaction_accepts (sha : List Byte → Hash) (sender recipient : Address)
    (message : List Byte) (amount : Int64)
    (h0 : 0 ≤ amount.val) (hl : message.length ≤ 256) :
    ∃ tx, NewTransaction sha sender recipient message amount = some tx ∧
      tx.From = sender ∧ tx.To = recipient ∧ tx.Data = message ∧ tx.Amount = amount ∧
      tx.Fee.val = max 1 ((message.length / 10 : Nat) : Int)
        + max 1 ((floorMulFloat64 7378697629483821 66 amount.val.toNat : Nat) : Int) ∧
      tx.Hash = sha (tx.From.Bytes ++ tx.To.Bytes ++ tx.Data ++ IntToHex tx.Amount
        ++ IntToHex tx.Fee) := by
  have hd := dataFee_exact message.length hl
  have ha := amountFee_lt amount.val.toNat (by have := amount.hi; omega)
  generalize hA : floorMulFloat64 7378697629483821 66 amount.val.toNat = A at ha
  have c1 : ¬ amount.val < 0 := by omega
  have c2 : ¬ message.length > MaxLengthOfData := by simp [MaxLengthOfData]; omega
  have c3 : ¬ (message.length / 10 ≥ 9223372036854775808 ∨
      ((message.length / 10 : Nat) : Int) ≤ -9223372036854775808) := by omega
  have c4 : ¬ (A ≥ 9223372036854775808 ∨ ((A : Nat) : Int) ≤ -9223372036854775808) := by omega
  have w1 : (Int64.wrap ((message.length / 10 : Nat) : Int)).val = ((message.length / 10 : Nat) : Int) :=
    Int64.wrap_val_of_range _ (by omega) (by omega)
  have w2 : (Int64.wrap ((A : Nat) : Int)).val = ((A : Nat) : Int) :=
    Int64.wrap_val_of_range _ (by omega) (by omega)
  unfold NewTransaction
  simp only [hd, hA, if_neg c1, if_neg c2, if_neg c3, if_neg c4]
  refine ⟨_, rfl, rfl, rfl, rfl, rfl, ?_, ?_⟩
  · simp only [Int64.add_val]
    split <;> split <;> simp only [w1, w2] at * <;> omega
  · simp only [bytesJoin_nil_sep, List.flatten_cons, List.flatten_nil, List.append_nil,
      List.append_assoc]

theorem hexDigit_eq_lowerHex : ∀ d : Fin 16, hexDigit d.val = lowerHex.getD d.val 0 := by
  decide

theorem hexDigits_eq_digits : ∀ (fuel n : Nat), 0 < n → n < 16 ^ fuel →
    hexDigits fuel n = (Nat.digits 16 n).reverse.map (fun d => lowerHex.getD d 0) := by
  intro fuel
  induction fuel with
  | zero => intro n h1 h2; simp at h2; omega
  | succ f ih =>
    intro n h1 h2
    rw [Nat.digits_def' (by norm_num) h1]
    simp only [hexDigits, List.reverse_cons, List.map_append, List.map_cons, List.map_nil]
    by_cases h16 : n < 16
    · rw [if_pos h16]
      have e1 : n / 16 = 0 := by omega
      have e2 : n % 16 = n := by omega
      rw [e1, e2]
      simp only [Nat.digits_zero, List.reverse_nil, List.map_nil, List.nil_append]
      exact congrArg (fun x => [x]) (hexDigit_eq_lowerHex ⟨n, h16⟩)
    · rw [if_neg h16]
      have hlt : n / 16 < 16 ^ f := by
        rw [pow_succ] at h2
        omega
      rw [ih (n / 16) (by omega) hlt]
      exact congrArg (fun x => _ ++ [x]) (hexDigit_eq_lowerHex ⟨n % 16, Nat.mod_lt _ (by norm_num)⟩)

/-- For a non-negative `int64`, `IntToHex` is the unprefixed, unpadded lower-case base-16
rendering. -/
theorem IntToHex_eq_hexAscii (x : Int64) (h : 0 ≤ x.val) :
    IntToHex x = hexAscii x.val.toNat := by
  have hx := x.hi
  have hn : x.val.natAbs = x.val.toNat := by omega
  unfold IntToHex hexAscii
  rw [if_neg (by omega), hn]
  by_cases h0 : x.val.toNat = 0
  · rw [h0]; rfl
  · rw [if_neg h0]
    exact hexDigits_eq_digits 16 _ (by omega) (by
      have : (16 : Nat) ^ 16 = 18446744073709551616 := by norm_num
      omega)

theorem NewTransaction_none_iff (sha : List Byte → Hash) (sender recipient : Address)
    (message : List Byte) (amount : Int64) :
    NewTransaction sha sender recipient message amount = none ↔
      (amount.val < 0 ∨ 256 < message.length) := by
  constructor
  · intro h
    by_contra hc
    obtain ⟨tx, e, -⟩ := NewTransaction_accepts sha sender recipient message amount
      (by omega) (by omega)
    rw [h] at e
    cases e
  · intro h
    unfold NewTransaction
    rcases h with h | h
    · rw [if_pos h]
    · by_cases h1 : amount.val < 0
      · rw [if_pos h1]
      · rw [if_neg h1]
        simp only []
        rw [if_pos (by simpa [MaxLengthOfData] using h)]

theorem NewTransaction_some (sha : List Byte → Hash) (sender recipient : Address)
    (message : List Byte) (amount : Int64) (tx : Transaction)
    (h : NewTransaction sha sender recipient message amount = some tx) :
    0 ≤ amount.val ∧ message.length ≤ 256 ∧
      tx.From = sender ∧ tx.To = recipient ∧ tx.Data = message ∧ tx.Amount = amount ∧
      tx.Fee.val = max 1 ((message.length / 10 : Nat) : Int)
        + max 1 ((floorMulFloat64 7378697629483821 66 amount.val.toNat : Nat) : Int) ∧
      tx.Hash = sha (tx.From.Bytes ++ tx.To.Bytes ++ tx.Data ++ IntToHex tx.Amount
        ++ IntToHex tx.Fee) := by
  have hn : ¬ (amount.val < 0 ∨ 256 < message.length) := by
    rw [← NewTransaction_none_iff sha sender recipient message amount, h]
    simp
  have h0 : 0 ≤ amount.val := by omega
  have hl : message.length ≤ 256 := by omega
  obtain ⟨tx1, e, r⟩ := NewTransaction_accepts sha sender recipient message amount h0 hl
  rw [h] at e
  cases e
  exact ⟨h0, hl, r⟩

/-- C13: for every input accepted by `NewTransaction`, the returned `Hash` is the digest
of `from ‖ to ‖ data ‖ hex-ascii(Amount) ‖ hex-ascii(Fee)` with nothing in between,
where hex-ascii is the unprefixed, unpadded lower-case base-16 rendering; the other
fields are the given `from`, `to`, message bytes and amount, so that the hash is
recomputed from the stored fields. -/
theorem newTransaction_hash_layout (sha : List Byte → Hash) (sender recipient : Address)
    (message : List Byte) (amount : Int64) (tx : Transaction)
    (h : NewTransaction sha sender recipient message amount = some tx) :
    tx.Hash = sha (tx.From.bytes ++ tx.To.bytes ++ tx.Data
        ++ hexAscii tx.Amount.val.toNat ++ hexAscii tx.Fee.val.toNat) ∧
    tx.Hash = sha (sender.bytes ++ recipient.bytes ++ message
        ++ hexAscii amount.val.toNat ++ hexAscii tx.Fee.val.toNat) := by
  obtain ⟨h0, -, hF, hT, hD, hA, hfee, hh⟩ :=
    NewTransaction_some sha sender recipient message amount tx h
  have e1 : IntToHex tx.Amount = hexAscii tx.Amount.val.toNat :=
    IntToHex_eq_hexAscii _ (by rw [hA]; exact h0)
  have e2 : IntToHex tx.Fee = hexAscii tx.Fee.val.toNat :=
    IntToHex_eq_hexAscii _ (by rw [hfee]; omega)
  rw [e1, e2] at hh
  refine ⟨hh, ?_⟩
  rw [hh, hF, hT, hD, hA]
  rfl

/-- C14 (amended): for every message of at most 256 bytes and every amount `≥ 0`,
`NewTransaction` succeeds and sets `Fee = max(1, floor(len/10)) + max(1, f)`, where `f`
is the floor of the `float64` product `0.0001 * float64(amount)`; `f` is the exact
floor of `amount / 10000` for every amount up to `6 * 10^15`. -/
theorem newTransaction_fee (sha : List Byte → Hash) (sender recipient : Address)
    (message : List Byte) (amount : Int64)
    (h0 : 0 ≤ amount.val) (hl : message.length ≤ 256) :
    ∃ tx, NewTransaction sha sender recipient message amount = some tx ∧
      tx.Fee.val = max 1 ((message.length / 10 : Nat) : Int)
        + max 1 ((floorMulFloat64 7378697629483821 66 amount.val.toNat : Nat) : Int) ∧
      (amount.val ≤ 6000000000000000 →
        tx.Fee.val = max 1 ((message.length / 10 : Nat) : Int)
          + max 1 ((amount.val.toNat / 10000 : Nat) : Int)) := by
  obtain ⟨tx, e, -, -, -, -, hfee, -⟩ :=
    NewTransaction_accepts sha sender recipient message amount h0 hl
  refine ⟨tx, e, hfee, ?_⟩
  intro hb
  rw [hfee, amountFee_exact amount.val.toNat (by omega)]

/-- C15: every transaction returned by `NewTransaction` has `Fee ≥ 2`: the fee is the
sum of a data fee and an amount fee that are at least 1 each. -/
theorem newTransaction_fee_ge_two (sha : List Byte → Hash) (sender recipient : Address)
    (message : List Byte) (amount : Int64) (tx : Transaction)
    (h : NewTransaction sha sender recipient message amount = some tx) :
    2 ≤ tx.Fee.val ∧
    ∃ dataFee amountFee : Int, 1 ≤ dataFee ∧ 1 ≤ amountFee ∧
      tx.Fee.val = dataFee + amountFee := by
  obtain ⟨-, -, -, -, -, -, hfee, -⟩ :=
    NewTransaction_some sha sender recipient message amount tx h
  refine ⟨by rw [hfee]; omega, _, _, ?_, ?_, hfee⟩ <;> omega

/-- C16: `NewTransaction` returns an error exactly when `amount < 0` or the message is
longer than 256 bytes, and a transaction it returns carries the given `from`, `to`,
message bytes and amount. -/
theorem newTransaction_validation (sha : List Byte → Hash) (sender recipient : Address)
    (message : List Byte) (amount : Int64) :
    (NewTransaction sha sender recipient message amount = none ↔
      (amount.val < 0 ∨ 256 < message.length)) ∧
    (∀ tx, NewTransaction sha sender recipient message amount = some tx →
      tx.From = sender ∧ tx.To = recipient ∧ tx.Data = message ∧ tx.Amount = amount) := by
  refine ⟨NewTransaction_none_iff sha sender recipient message amount, ?_⟩
  intro tx h
  obtain ⟨-, -, hF, hT, hD, hA, -⟩ :=
    NewTransaction_some sha sender recipient message amount tx h
  exact ⟨hF, hT, hD, hA⟩

set_option maxRecDepth 8192 in
/-- C12, an instance: on `blockSearch` with the digest `byteSumDigest`, `Run` rejects the
nonces 0, 1 and 2 and returns the nonce 3. -/
theorem run_returns_first_accepted_witness :
    ((NewProofOfWork blockSearch).Run byteSumDigest).1.val = 3 ∧
    ((NewProofOfWork blockSearch).Run byteSumDigest).2 =
      byteSumDigest ((NewProofOfWork blockSearch).prepareData
        ((NewProofOfWork blockSearch).Run byteSumDigest).1) ∧
    ((NewProofOfWork blockSearch).Run byteSumDigest).2.toNat < 2 ^ 232 ∧
    ∀ m : Int64, 0 ≤ m.val → m.val < ((NewProofOfWork blockSearch).Run byteSumDigest).1.val →
      ¬ (byteSumDigest ((NewProofOfWork blockSearch).prepareData m)).toNat < 2 ^ 232 :=
  ⟨by decide, run_returns_first_accepted byteSumDigest blockSearch (by decide)⟩

/-- C13, an instance: `NewTransaction` builds S2, whose hash is the digest of the 20
bytes of `0x…02`, the 20 bytes of `0x…03`, `hi`, `3e8` and `2`. -/
theorem newTransaction_hash_layout_witness :
    NewTransaction zeroDigest (wellKnown 2) (wellKnown 3) [104, 105]
        ⟨1000, by decide, by decide⟩ = some txS2 ∧
    txS2.Hash = zeroDigest (txS2.From.bytes ++ txS2.To.bytes ++ txS2.Data
        ++ hexAscii txS2.Amount.val.toNat ++ hexAscii txS2.Fee.val.toNat) ∧
    hexAscii txS2.Amount.val.toNat = [51, 101, 56] ∧ hexAscii txS2.Fee.val.toNat = [50] :=
  ⟨by decide,
    (newTransaction_hash_layout zeroDigest (wellKnown 2) (wellKnown 3) [104, 105]
      ⟨1000, by decide, by decide⟩ txS2 (by decide)).1,
    by simp [hexAscii, lowerHex, txS2], by simp [hexAscii, lowerHex, txS2]⟩

/-- C14, an instance: S2 has the fee `max(1, 2/10) + max(1, 1000/10000) = 2`. -/
theorem newTransaction_fee_witness :
    ∃ tx, NewTransaction zeroDigest (wellKnown 2) (wellKnown 3) txS2.Data txS2.Amount
        = some tx ∧
      tx.Fee.val = max 1 ((txS2.Data.length / 10 : Nat) : Int)
        + max 1 ((floorMulFloat64 7378697629483821 66 txS2.Amount.val.toNat : Nat) : Int) ∧
      (txS2.Amount.val ≤ 6000000000000000 →
        tx.Fee.val = max 1 ((txS2.Data.length / 10 : Nat) : Int)
          + max 1 ((txS2.Amount.val.toNat / 10000 : Nat) : Int)) :=
  newTransaction_fee zeroDigest (wellKnown 2) (wellKnown 3) txS2.Data txS2.Amount
    (by decide) (by decide)

set_option maxRecDepth 8192 in
/-- C14 fails for large amounts: for the amount `10^16 - 1` and no message
`NewTransaction` returns `txFloat`, whose fee is `1 + 10^12`, while
`max(1, 0) + max(1, floor((10^16 - 1) / 10000)) = 10^12`, because the `float64` product
`0.0001 * float64(10^16 - 1)` is `10^12`. -/
theorem newTransaction_fee_float_rounds_up :
    NewTransaction zeroDigest (wellKnown 2) (wellKnown 3) []
        ⟨9999999999999999, by decide, by decide⟩ = some txFloat ∧
    txFloat.Fee.val = 1000000000001 ∧
    max 1 ((([] : List Byte).length / 10 : Nat) : Int)
      + max 1 (((9999999999999999 : Nat) / 10000 : Nat) : Int) = 1000000000000 := by
  decide

/-- C15, an instance: the fee of S2 is 2. -/
theorem newTransaction_fee_ge_two_witness :
    2 ≤ txS2.Fee.val ∧
    ∃ dataFee amountFee : Int, 1 ≤ dataFee ∧ 1 ≤ amountFee ∧
      txS2.Fee.val = dataFee + amountFee :=
  newTransaction_fee_ge_two zeroDigest (wellKnown 2) (wellKnown 3) [104, 105]
    ⟨1000, by decide, by decide⟩ txS2 (by decide)

/-- C16, an instance: a message of exactly 256 bytes with the amount 0 is accepted, a
message of 257 bytes is not, and neither is the amount `-1`. -/
theorem newTransaction_validation_witness :
    NewTransaction zeroDigest (wellKnown 2) (wellKnown 3) (List.replicate 256 65)
        Int64.zero ≠ none ∧
    NewTransaction zeroDigest (wellKnown 2) (wellKnown 3) (List.replicate 257 65)
        Int64.zero = none ∧
    NewTransaction zeroDigest (wellKnown 2) (wellKnown 3) []
        ⟨-1, by decide, by decide⟩ = none :=
  ⟨(newTransaction_validation zeroDigest (wellKnown 2) (wellKnown 3)
      (List.replicate 256 65) Int64.zero).1.not.mpr (by rw [List.length_replicate]; decide),
    (newTransaction_validation zeroDigest (wellKnown 2) (wellKnown 3)
      (List.replicate 257 65) Int64.zero).1.mpr (by rw [List.length_replicate]; decide),
    (newTransaction_validation zeroDigest (wellKnown 2) (wellKnown 3) []
      ⟨-1, by decide, by decide⟩).1.mpr (by decide)⟩

/-! ## SendTransaction and MineBlock: claims C17 to C20 -/

/-- What `SendTransaction` does: it compares the sender's balance with the `int64` sum
`tx.Amount + tx.Fee`. -/
theorem Blockchain.SendTransaction_spec (bc : Blockchain) (tx : Transaction) :
    ((bc.SendTransaction tx).2 = true ↔
      bc.AccountsDB.balance tx.From < (tx.Amount.add tx.Fee).val) ∧
    ((bc.SendTransaction tx).2 = true →
      (bc.SendTransaction tx).1.TxsPoolDB.TxsPool.Txs = bc.TxsPoolDB.TxsPool.Txs) ∧
    ((bc.SendTransaction tx).2 = false →
      (bc.SendTransaction tx).1.TxsPoolDB.TxsPool.Txs = bc.TxsPoolDB.TxsPool.Txs ++ [tx]) := by
  have hb : (bc.AccountsDB.GetBalanceOf tx.From).1.val = bc.AccountsDB.balance tx.From := rfl
  unfold Blockchain.SendTransaction
  simp only [hb]
  by_cases h : bc.AccountsDB.balance tx.From < (tx.Amount.add tx.Fee).val
  · simp [h]
  · simp [h, TxsPoolDB.AddTxs, TxsPool.addTxs]

set_option maxRecDepth 8192 in
/-- C17 fails when `Amount + Fee` leaves the `int64` range: `txMax`, which
`NewTransaction` builds for the amount `MaxInt64`, has `Amount ≥ 0` and `Fee ≥ 2`; on the
fresh blockchain its sender holds `10^10`, less than the exact sum
`Amount + Fee = 9224294374058461285`, yet `SendTransaction` returns nil and appends it to
the pool, because the `int64` sum is negative. -/
theorem sendTransaction_admits_wrapped_sum :
    NewTransaction zeroDigest (wellKnown 2) (wellKnown 3) [] maxInt64 = some txMax ∧
    0 ≤ txMax.Amount.val ∧ 2 ≤ txMax.Fee.val ∧
    (freshChain timeGenesis).AccountsDB.balance txMax.From = 10000000000 ∧
    txMax.Amount.val + txMax.Fee.val = 9224294374058461285 ∧
    (txMax.Amount.add txMax.Fee).val = -9222449699651090331 ∧
    ((freshChain timeGenesis).SendTransaction txMax).2 = false ∧
    ((freshChain timeGenesis).SendTransaction txMax).1.TxsPoolDB.TxsPool.Txs = [txMax] := by
  decide

theorem TxsPool.getSomeTxs_eq (p : TxsPool) (number : Nat) :
    p.getSomeTxs number = p.Txs.take (min number p.Txs.length) := by
  unfold TxsPool.getSomeTxs TxsPool.getAllTxs
  split
  · next h => rw [Nat.min_eq_right h, List.take_length]
  · next h => rw [Nat.min_eq_left (by omega)]

theorem TxsPool.deleteSomeTxs_eq (p : TxsPool) (number : Nat) :
    (p.deleteSomeTxs number).Txs = p.Txs.drop number := by
  unfold TxsPool.deleteSomeTxs
  split
  · next h => simp [List.drop_eq_nil_of_le h]
  · rfl

/-- The method `MineBlock` in terms of the outcome of `BePackaged`. -/
theorem Blockchain.MineBlock_eq (sha : List Byte → Hash) (now : Int64) (bc : Blockchain)
    (miner : Address) :
    bc.MineBlock sha now miner =
      if (bc.TxsPoolDB.GetSomeTxs DefaultNumberOfTxsInBlock).length = 0 then Outcome.error bc
      else
        match (NewBlock now (bc.TxsPoolDB.GetSomeTxs DefaultNumberOfTxsInBlock)
            bc.Tip).BePackaged sha miner bc.BlocksDB bc.AccountsDB with
        | Outcome.ok r =>
          Outcome.ok
            { bc with
              BlocksDB := r.blocksDB
              AccountsDB := r.accountsDB
              TxsPoolDB := (bc.TxsPoolDB.DeleteSomeTxs
                (bc.TxsPoolDB.GetSomeTxs DefaultNumberOfTxsInBlock).length).LeftAddTxs
                  r.returned }
        | Outcome.error r =>
          Outcome.error { bc with BlocksDB := r.blocksDB, AccountsDB := r.accountsDB }
        | Outcome.panic r =>
          Outcome.panic { bc with BlocksDB := r.blocksDB, AccountsDB := r.accountsDB } := rfl

/-- The method `MineBlock` never assigns `Tip`. -/
theorem Blockchain.MineBlock_tip (sha : List Byte → Hash) (now : Int64) (bc : Blockchain)
    (miner : Address) : (bc.MineBlock sha now miner).state.Tip = bc.Tip := by
  rw [Blockchain.MineBlock_eq]
  split
  · rfl
  · split <;> rfl

/-- The two lists that a successful `BePackaged` leaves. -/
theorem Block.BePackaged_ok_lists (sha : List Byte → MemoryChain.Hash) (b : Block)
    (miner : Address) (blocksDB : BlocksDB) (accountsDB : AccountsDB) (r : Packaging)
    (h : b.BePackaged sha miner blocksDB accountsDB = Outcome.ok r) :
    r.block.Txs = pick true b.Txs (execFlags b.Txs accountsDB) ∧
    r.returned = pick false b.Txs (execFlags b.Txs accountsDB) ∧
    r.block.Txs.length + r.returned.length = b.Txs.length := by
  obtain ⟨-, -, hb, -, hr⟩ := Block.BePackaged_ok sha b miner blocksDB accountsDB r h
  obtain ⟨e1, e2, -⟩ := executed_spec b.Txs accountsDB
  have t : r.block.Txs = pick true b.Txs (execFlags b.Txs accountsDB) := by
    rw [hb]; exact e1
  have f : r.returned = pick false b.Txs (execFlags b.Txs accountsDB) := by
    rw [hr]; exact e2
  refine ⟨t, f, ?_⟩
  rw [t, f]
  exact pick_length_add _ _ (execFlags_length _ _)

/-- C18: when `MineBlock` succeeds on a pool `p`, `BePackaged` has succeeded on the
`k = min(10, len(p))` first transactions of `p`, and the pool afterwards is the list
`BePackaged` returned (the peeked transactions whose `Exec` failed, in order) followed
by `p[k:]`; the pool has lost exactly as many transactions as were packaged. -/
theorem mineBlock_pool_update (sha : List Byte → Hash) (now : Int64) (bc bc1 : Blockchain)
    (miner : Address) (h : bc.MineBlock sha now miner = Outcome.ok bc1) :
    ∃ r, (NewBlock now (bc.TxsPoolDB.TxsPool.Txs.take
          (min 10 bc.TxsPoolDB.TxsPool.Txs.length)) bc.Tip).BePackaged sha miner
          bc.BlocksDB bc.AccountsDB = Outcome.ok r ∧
      bc1.TxsPoolDB.TxsPool.Txs =
        r.returned ++ bc.TxsPoolDB.TxsPool.Txs.drop (min 10 bc.TxsPoolDB.TxsPool.Txs.length) ∧
      r.returned = pick false
        (bc.TxsPoolDB.TxsPool.Txs.take (min 10 bc.TxsPoolDB.TxsPool.Txs.length))
        (execFlags (bc.TxsPoolDB.TxsPool.Txs.take (min 10 bc.TxsPoolDB.TxsPool.Txs.length))
          bc.AccountsDB) ∧
      r.block.Txs = pick true
        (bc.TxsPoolDB.TxsPool.Txs.take (min 10 bc.TxsPoolDB.TxsPool.Txs.length))
        (execFlags (bc.TxsPoolDB.TxsPool.Txs.take (min 10 bc.TxsPoolDB.TxsPool.Txs.length))
          bc.AccountsDB) ∧
      bc1.TxsPoolDB.TxsPool.Txs.length + r.block.Txs.length
        = bc.TxsPoolDB.TxsPool.Txs.length := by
  have hpeek : bc.TxsPoolDB.GetSomeTxs DefaultNumberOfTxsInBlock =
      bc.TxsPoolDB.TxsPool.Txs.take (min 10 bc.TxsPoolDB.TxsPool.Txs.length) :=
    TxsPool.getSomeTxs_eq _ _
  rw [Blockchain.MineBlock_eq, hpeek] at h
  split at h
  · cases h
  · split at h
    · next r hr =>
      injection h with h
      subst h
      obtain ⟨t, f, hlen⟩ := Block.BePackaged_ok_lists sha _ miner _ _ r hr
      refine ⟨r, hr, ?_, f, t, ?_⟩
      · simp only [TxsPoolDB.LeftAddTxs, TxsPool.leftAddTxs, TxsPoolDB.DeleteSomeTxs,
          TxsPool.deleteSomeTxs_eq, List.length_take]
        congr 2
        omega
      · simp only [TxsPoolDB.LeftAddTxs, TxsPool.leftAddTxs, TxsPoolDB.DeleteSomeTxs,
          TxsPool.deleteSomeTxs_eq, List.length_take, List.length_append, List.length_drop]
        simp only [NewBlock, List.length_take] at hlen
        omega
    · cases h
    · cases h

/-- C18, an instance: the pool of `chainMixed` is `[txTo2, S2]`; `txTo2` fails `Exec`,
S2 is packaged, and the pool afterwards is `[txTo2]`. -/
theorem mineBlock_pool_update_witness :
    (chainMixed.MineBlock zeroDigest timeS2 (wellKnown 1)).state.TxsPoolDB.TxsPool.Txs
      = [txTo2] ∧
    ∃ r, (NewBlock timeS2 (chainMixed.TxsPoolDB.TxsPool.Txs.take
          (min 10 chainMixed.TxsPoolDB.TxsPool.Txs.length)) chainMixed.Tip).BePackaged
          zeroDigest (wellKnown 1) chainMixed.BlocksDB chainMixed.AccountsDB = Outcome.ok r ∧
      (chainMixed.MineBlock zeroDigest timeS2 (wellKnown 1)).state.TxsPoolDB.TxsPool.Txs =
        r.returned ++ chainMixed.TxsPoolDB.TxsPool.Txs.drop
          (min 10 chainMixed.TxsPoolDB.TxsPool.Txs.length) ∧
      r.returned = pick false
        (chainMixed.TxsPoolDB.TxsPool.Txs.take
          (min 10 chainMixed.TxsPoolDB.TxsPool.Txs.length))
        (execFlags (chainMixed.TxsPoolDB.TxsPool.Txs.take
          (min 10 chainMixed.TxsPoolDB.TxsPool.Txs.length)) chainMixed.AccountsDB) ∧
      r.block.Txs = pick true
        (chainMixed.TxsPoolDB.TxsPool.Txs.take
          (min 10 chainMixed.TxsPoolDB.TxsPool.Txs.length))
        (execFlags (chainMixed.TxsPoolDB.TxsPool.Txs.take
          (min 10 chainMixed.TxsPoolDB.TxsPool.Txs.length)) chainMixed.AccountsDB) ∧
      (chainMixed.MineBlock zeroDigest timeS2 (wellKnown 1)).state.TxsPoolDB.TxsPool.Txs.length
          + r.block.Txs.length
        = chainMixed.TxsPoolDB.TxsPool.Txs.length :=
  ⟨by decide,
    mineBlock_pool_update zeroDigest timeS2 chainMixed _ (wellKnown 1)
      (Outcome.eq_ok_of_isOk _ (by decide))⟩

theorem BlocksDB.AddBlock_stored (db : BlocksDB) (block : Block)
    (h : ¬ (db.AddBlock block).2 = true) :
    (db.AddBlock block).1.GetBlock block.Hash = some block := by
  unfold BlocksDB.AddBlock at h ⊢
  cases hb : db.bucket with
  | none => simp [hb] at h
  | some bkt =>
    simp only [hb] at h ⊢
    by_cases hf : db.faults.head? = some true
    · simp [hf] at h
    · simp [hf, BlocksDB.GetBlock]

theorem BlocksDB.addBlockLoop_stored (block : Block) :
    ∀ (n : Nat) (db : BlocksDB),
      (BlocksDB.addBlockLoop block n db true).2 = false →
      (BlocksDB.addBlockLoop block n db true).1.GetBlock block.Hash = some block := by
  intro n
  induction n with
  | zero => intro db h; simp [BlocksDB.addBlockLoop] at h
  | succ n ih =>
    intro db h
    simp only [BlocksDB.addBlockLoop] at h ⊢
    by_cases hr : (db.AddBlock block).2 = true
    · simp only [hr, if_true] at h ⊢
      exact ih _ h
    · simp only [hr, if_false]
      exact BlocksDB.AddBlock_stored db block hr

theorem BlocksDB.AddBlockWithRetry_stored (db : BlocksDB) (block : Block)
    (h : (db.AddBlockWithRetry block MaxRetryOfAddingBlock).2 = false) :
    (db.AddBlockWithRetry block MaxRetryOfAddingBlock).1.GetBlock block.Hash = some block := by
  unfold BlocksDB.AddBlockWithRetry at h ⊢
  have h5 : MaxRetryOfAddingBlock.toNat = 4 + 1 := rfl
  rw [h5] at h ⊢
  simp only [BlocksDB.addBlockLoop] at h ⊢
  by_cases hr : (db.AddBlock block).2 = true
  · simp only [hr, if_true] at h ⊢
    exact BlocksDB.addBlockLoop_stored block 4 _ h
  · simp only [hr, if_false]
    exact BlocksDB.AddBlock_stored db block hr

/-- After a successful `MineBlock` the block store holds `minedBlock` under its hash;
the `PrevBlockHash` of that block is the `Tip` of before the call, and `Tip` is what it
was. -/
theorem Blockchain.MineBlock_ok_block (sha : List Byte → Hash) (now : Int64)
    (bc bc1 : Blockchain) (miner : Address)
    (h : bc.MineBlock sha now miner = Outcome.ok bc1) :
    bc1.Tip = bc.Tip ∧
    bc1.BlocksDB.GetBlock (bc.minedBlock sha now miner).Hash
      = some (bc.minedBlock sha now miner) ∧
    (bc.minedBlock sha now miner).PrevBlockHash = bc.Tip := by
  have ht := Blockchain.MineBlock_tip sha now bc miner
  rw [h] at ht
  refine ⟨ht, ?_, rfl⟩
  rw [Blockchain.MineBlock_eq] at h
  split at h
  · cases h
  · split at h
    · next r hr =>
      injection h with h
      subst h
      rw [Block.BePackaged_eq] at hr
      split at hr
      · cases hr
      · split at hr
        · split at hr <;> cases hr
        · split at hr
          · split at hr <;> cases hr
          · next hadd =>
            injection hr with hr
            subst hr
            exact BlocksDB.AddBlockWithRetry_stored _ _ (by simpa using hadd)
    · cases h
    · cases h

set_option maxRecDepth 8192 in
/-- C19 fails: `MineBlock` does not assign `Tip`.  On the blockchain that
`NewBlockchain` returns, S2 is sent and a block is mined (digest `tagDigest`): the block
is stored under its hash, which ends in the byte 1, while `Tip` is still the zero hash.
After `txOut2` is sent and a second block is mined, the `PrevBlockHash` of the second
block is the zero hash again, not the hash of the first block. -/
theorem mineBlock_leaves_tip_behind :
    (NewBlockchain timeGenesis).map (fun bc => bc.Tip) = some ZeroHash ∧
    (chainSent.MineBlock tagDigest timeS2 (wellKnown 1)).isOk = true ∧
    (chainMined.BlocksDB.GetBlock (chainSent.minedBlock tagDigest timeS2 (wellKnown 1)).Hash).map
        (fun b => b.Hash) = some (chainSent.minedBlock tagDigest timeS2 (wellKnown 1)).Hash ∧
    chainMined.Tip = ZeroHash ∧
    (chainSent.minedBlock tagDigest timeS2 (wellKnown 1)).Hash ≠ chainMined.Tip ∧
    (chainSentAgain.MineBlock tagDigest timeLater (wellKnown 1)).isOk = true ∧
    (chainSentAgain.minedBlock tagDigest timeLater (wellKnown 1)).PrevBlockHash = ZeroHash ∧
    (chainSentAgain.minedBlock tagDigest timeLater (wellKnown 1)).PrevBlockHash ≠
      (chainSent.minedBlock tagDigest timeS2 (wellKnown 1)).Hash := by
  decide

/-- C20: with an empty pool `MineBlock` returns an error and leaves the whole blockchain
(accounts, block store, pool and `Tip`) as it was; and whenever `MineBlock` returns an
error, the pool and `Tip` are what they were before the call. -/
theorem mineBlock_failure_frame (sha : List Byte → Hash) (now : Int64) (bc : Blockchain)
    (miner : Address) :
    (bc.TxsPoolDB.TxsPool.Txs = [] → bc.MineBlock sha now miner = Outcome.error bc) ∧
    (∀ bc1, bc.MineBlock sha now miner = Outcome.error bc1 →
      bc1.TxsPoolDB.TxsPool.Txs = bc.TxsPoolDB.TxsPool.Txs ∧ bc1.Tip = bc.Tip) := by
  constructor
  · intro hnil
    rw [Blockchain.MineBlock_eq, if_pos]
    simp [TxsPoolDB.GetSomeTxs, TxsPool.getSomeTxs_eq, hnil]
  · intro bc1 h
    have ht := Blockchain.MineBlock_tip sha now bc miner
    rw [h] at ht
    refine ⟨?_, ht⟩
    rw [Blockchain.MineBlock_eq] at h
    split at h
    · injection h with h
      subst h
      rfl
    · split at h
      · cases h
      · injection h with h
        subst h
        rfl
      · cases h

/-- C20, an instance: mining on the fresh blockchain, whose pool is empty, and on
`chainFailing`, whose only transaction fails `Exec`. -/
theorem mineBlock_failure_frame_witness :
    NewBlockchain timeGenesis = some (freshChain timeGenesis) ∧
    (freshChain timeGenesis).MineBlock zeroDigest timeS2 (wellKnown 1)
      = Outcome.error (freshChain timeGenesis) ∧
    (chainFailing.MineBlock zeroDigest timeS2 (wellKnown 1)).state.TxsPoolDB.TxsPool.Txs
      = chainFailing.TxsPoolDB.TxsPool.Txs ∧
    (chainFailing.MineBlock zeroDigest timeS2 (wellKnown 1)).state.Tip = chainFailing.Tip :=
  ⟨rfl,
    (mineBlock_failure_frame zeroDigest timeS2 (freshChain timeGenesis) (wellKnown 1)).1 rfl,
    (mineBlock_failure_frame zeroDigest timeS2 chainFailing (wellKnown 1)).2 _
      (Outcome.eq_error_of_isError _ (by decide))⟩

/-! ## The pool and the account store: claims C21 to C25 -/

/-- C21: `GetSomeTxs(n)` returns the first `min(n, len)` transactions of the pool in
order (it is a read: the pool is not assigned), `DeleteSomeTxs(n)` leaves the pool
without its first `n` transactions, and what was peeked followed by the pool after the
deletion is the pool before; the same holds for `getSomeTxs` and `deleteSomeTxs` of
`TxsPool`. -/
theorem txsPool_peek_then_delete (db : TxsPoolDB) (n : Nat) :
    db.GetSomeTxs n = db.TxsPool.Txs.take (min n db.TxsPool.Txs.length) ∧
    (db.GetSomeTxs n).length = min n db.TxsPool.Txs.length ∧
    (db.DeleteSomeTxs n).TxsPool.Txs = db.TxsPool.Txs.drop n ∧
    db.GetSomeTxs n ++ (db.DeleteSomeTxs n).TxsPool.Txs = db.TxsPool.Txs ∧
    db.TxsPool.getSomeTxs n ++ (db.TxsPool.deleteSomeTxs n).Txs = db.TxsPool.Txs := by
  have h1 : db.GetSomeTxs n = db.TxsPool.Txs.take (min n db.TxsPool.Txs.length) :=
    TxsPool.getSomeTxs_eq db.TxsPool n
  have h2 : (db.DeleteSomeTxs n).TxsPool.Txs = db.TxsPool.Txs.drop n :=
    TxsPool.deleteSomeTxs_eq db.TxsPool n
  have h3 : db.TxsPool.Txs.take (min n db.TxsPool.Txs.length) = db.TxsPool.Txs.take n := by
    rw [List.take_eq_take]
    omega
  have h4 : db.GetSomeTxs n ++ (db.DeleteSomeTxs n).TxsPool.Txs = db.TxsPool.Txs := by
    rw [h1, h2, h3, List.take_append_drop]
  refine ⟨h1, ?_, h2, h4, h4⟩
  rw [h1, List.length_take]
  omega

theorem AccountsDB.GetAccountOf_rows_ne (db : AccountsDB) (a k : Address) (h : k ≠ a) :
    (db.GetAccountOf a).2.rows k = db.rows k := by
  unfold AccountsDB.GetAccountOf
  cases db.rows a with
  | none => simp [AccountsDB.put, h]
  | some acc => rfl

theorem AccountsDB.put_rows_ne (db : AccountsDB) (a k : Address) (acc : Account) (h : k ≠ a) :
    (db.put a acc).rows k = db.rows k := by
  simp [AccountsDB.put, h]

theorem AccountsDB.IncreaseBalanceOf_rows_ne (db : AccountsDB) (a k : Address) (x : Int64)
    (h : k ≠ a) : (db.IncreaseBalanceOf a x).db.rows k = db.rows k := by
  rw [AccountsDB.IncreaseBalanceOf_eq]
  split
  · rfl
  · split
    · exact db.GetAccountOf_rows_ne a k h
    · rw [AccountsDB.put_rows_ne _ _ _ _ h]
      exact db.GetAccountOf_rows_ne a k h

theorem AccountsDB.DecreaseBalanceOf_rows_ne (db : AccountsDB) (a k : Address) (x : Int64)
    (h : k ≠ a) : (db.DecreaseBalanceOf a x).db.rows k = db.rows k := by
  rw [AccountsDB.DecreaseBalanceOf_eq]
  split
  · rfl
  · split
    · exact db.GetAccountOf_rows_ne a k h
    · rw [AccountsDB.put_rows_ne _ _ _ _ h]
      exact db.GetAccountOf_rows_ne a k h

theorem AccountsDB.PutMessagesTo_rows_ne (db : AccountsDB) (a k : Address) (m : List Byte)
    (h : k ≠ a) : (db.PutMessagesTo a m).db.rows k = db.rows k := by
  rw [AccountsDB.PutMessagesTo_eq, AccountsDB.put_rows_ne _ _ _ _ h]
  exact db.GetAccountOf_rows_ne a k h

theorem AccountsDB.DeleteMessageOf_rows_ne (db : AccountsDB) (a k : Address)
    (h : k ≠ a) : (db.DeleteMessageOf a).db.rows k = db.rows k := by
  rw [AccountsDB.DeleteMessageOf_eq]
  split
  · exact db.GetAccountOf_rows_ne a k h
  · rw [AccountsDB.put_rows_ne _ _ _ _ h]
    exact db.GetAccountOf_rows_ne a k h

/-- C22: `IncreaseBalanceOf(a, x)` returns an error exactly when `x < 0` or
`balance(a) + x` exceeds `MaxInt64`, and then no balance and no message list changes;
otherwise the balance of `a` becomes `balance(a) + x`, its message list is unchanged and
every other account is unchanged (its row, hence its balance and messages). -/
theorem increaseBalanceOf_contract (db : AccountsDB) (a : Address) (x : Int64) :
    ((db.IncreaseBalanceOf a x).err = true ↔
      (x.val < 0 ∨ MaxInt64 < db.balance a + x.val)) ∧
    ((db.IncreaseBalanceOf a x).err = true →
      ∀ k, (db.IncreaseBalanceOf a x).db.balance k = db.balance k ∧
        (db.IncreaseBalanceOf a x).db.messages k = db.messages k) ∧
    ((db.IncreaseBalanceOf a x).err = false →
      (db.IncreaseBalanceOf a x).db.balance a = db.balance a + x.val ∧
      (db.IncreaseBalanceOf a x).db.messages a = db.messages a) ∧
    (∀ k, k ≠ a →
      (db.IncreaseBalanceOf a x).db.rows k = db.rows k ∧
      (db.IncreaseBalanceOf a x).db.balance k = db.balance k ∧
      (db.IncreaseBalanceOf a x).db.messages k = db.messages k) := by
  refine ⟨db.IncreaseBalanceOf_err a x, ?_, ?_, ?_⟩
  · intro h k
    refine ⟨?_, db.IncreaseBalanceOf_messages a k x⟩
    rw [db.IncreaseBalanceOf_balance a k x, if_pos h]
  · intro h
    refine ⟨?_, db.IncreaseBalanceOf_messages a a x⟩
    rw [db.IncreaseBalanceOf_balance a a x, if_neg (by simp [h]), if_pos rfl]
  · intro k hk
    refine ⟨db.IncreaseBalanceOf_rows_ne a k x hk, ?_, db.IncreaseBalanceOf_messages a k x⟩
    rw [db.IncreaseBalanceOf_balance a k x, if_neg hk]
    simp

/-- C23: `DecreaseBalanceOf(a, x)` returns an error exactly when `x < 0` or
`balance(a) - x` is below `MinInt64`, and then no balance and no message list changes;
in every other case, a negative result included, the balance of `a` becomes
`balance(a) - x`, its message list is unchanged and every other account is unchanged. -/
theorem decreaseBalanceOf_contract (db : AccountsDB) (a : Address) (x : Int64) :
    ((db.DecreaseBalanceOf a x).err = true ↔
      (x.val < 0 ∨ db.balance a - x.val < MinInt64)) ∧
    ((db.DecreaseBalanceOf a x).err = true →
      ∀ k, (db.DecreaseBalanceOf a x).db.balance k = db.balance k ∧
        (db.DecreaseBalanceOf a x).db.messages k = db.messages k) ∧
    ((db.DecreaseBalanceOf a x).err = false →
      (db.DecreaseBalanceOf a x).db.balance a = db.balance a - x.val ∧
      (db.DecreaseBalanceOf a x).db.messages a = db.messages a) ∧
    (∀ k, k ≠ a →
      (db.DecreaseBalanceOf a x).db.rows k = db.rows k ∧
      (db.DecreaseBalanceOf a x).db.balance k = db.balance k ∧
      (db.DecreaseBalanceOf a x).db.messages k = db.messages k) := by
  refine ⟨db.DecreaseBalanceOf_err a x, ?_, ?_, ?_⟩
  · intro h k
    refine ⟨?_, db.DecreaseBalanceOf_messages a k x⟩
    rw [db.DecreaseBalanceOf_balance a k x, if_pos h]
  · intro h
    refine ⟨?_, db.DecreaseBalanceOf_messages a a x⟩
    rw [db.DecreaseBalanceOf_balance a a x, if_neg (by simp [h]), if_pos rfl]
  · intro k hk
    refine ⟨db.DecreaseBalanceOf_rows_ne a k x hk, ?_, db.DecreaseBalanceOf_messages a k x⟩
    rw [db.DecreaseBalanceOf_balance a k x, if_neg hk]
    simp

/-- C24: `PutMessagesTo(a, m)` returns nil, appends `m` at the end of the message list
of `a` and changes no other message list, no balance and no other row;
`DeleteMessageOf(a)` fails exactly when the list of `a` is empty, and then changes no
message list and no balance; otherwise it removes the last message of `a` and nothing
else; `PutMessagesTo(a, m)` followed by `DeleteMessageOf(a)` succeeds and leaves every
message list and every balance as before. -/
theorem messages_are_a_stack (db : AccountsDB) (a : Address) (m : List Byte) :
    ((db.PutMessagesTo a m).err = false ∧
      (db.PutMessagesTo a m).db.messages a = db.messages a ++ [m] ∧
      (∀ k, k ≠ a → (db.PutMessagesTo a m).db.messages k = db.messages k ∧
        (db.PutMessagesTo a m).db.rows k = db.rows k) ∧
      (∀ k, (db.PutMessagesTo a m).db.balance k = db.balance k)) ∧
    (((db.DeleteMessageOf a).err = true ↔ db.messages a = []) ∧
      ((db.DeleteMessageOf a).err = true →
        ∀ k, (db.DeleteMessageOf a).db.messages k = db.messages k) ∧
      ((db.DeleteMessageOf a).err = false →
        (db.DeleteMessageOf a).db.messages a = (db.messages a).dropLast ∧
        ∃ last, db.messages a = (db.DeleteMessageOf a).db.messages a ++ [last]) ∧
      (∀ k, k ≠ a → (db.DeleteMessageOf a).db.messages k = db.messages k ∧
        (db.DeleteMessageOf a).db.rows k = db.rows k) ∧
      (∀ k, (db.DeleteMessageOf a).db.balance k = db.balance k)) ∧
    (((db.PutMessagesTo a m).db.DeleteMessageOf a).err = false ∧
      (∀ k, ((db.PutMessagesTo a m).db.DeleteMessageOf a).db.messages k = db.messages k) ∧
      (∀ k, ((db.PutMessagesTo a m).db.DeleteMessageOf a).db.balance k = db.balance k)) := by
  have hput : ∀ k, (db.PutMessagesTo a m).db.messages k =
      if k = a then db.messages a ++ [m] else db.messages k :=
    fun k => db.PutMessagesTo_messages a k m
  have hdel : ∀ (d : AccountsDB) k, (d.DeleteMessageOf a).db.messages k =
      if k = a then (d.messages a).dropLast else d.messages k :=
    fun d k => d.DeleteMessageOf_messages a k
  refine ⟨⟨rfl, ?_, ?_, fun k => db.PutMessagesTo_balance a k m⟩,
    ⟨db.DeleteMessageOf_err a, ?_, ?_, ?_, fun k => db.DeleteMessageOf_balance a k⟩,
    ⟨?_, ?_, ?_⟩⟩
  · rw [hput, if_pos rfl]
  · intro k hk
    refine ⟨?_, db.PutMessagesTo_rows_ne a k m hk⟩
    rw [hput, if_neg hk]
  · intro h k
    rw [hdel]
    split
    · next hk =>
      subst hk
      rw [(db.DeleteMessageOf_err k).mp h]
      rfl
    · rfl
  · intro h
    have hne : db.messages a ≠ [] := by
      intro e
      have := (db.DeleteMessageOf_err a).mpr e
      rw [h] at this
      cases this
    refine ⟨by rw [hdel, if_pos rfl], (db.messages a).getLast hne, ?_⟩
    rw [hdel, if_pos rfl, List.dropLast_append_getLast]
  · intro k hk
    refine ⟨?_, db.DeleteMessageOf_rows_ne a k hk⟩
    rw [hdel, if_neg hk]
  · cases h : ((db.PutMessagesTo a m).db.DeleteMessageOf a).err with
    | false => rfl
    | true =>
      have := ((db.PutMessagesTo a m).db.DeleteMessageOf_err a).mp h
      rw [hput, if_pos rfl] at this
      simp at this
  · intro k
    rw [hdel, hput]
    split
    · next hk =>
      subst hk
      rw [if_pos rfl, List.dropLast_concat]
    · rw [hput]
      next hk => rw [if_neg hk]
  · intro k
    rw [AccountsDB.DeleteMessageOf_balance, AccountsDB.PutMessagesTo_balance]

theorem AccountsDB.GetAccountOf_of_some (db : AccountsDB) (a : Address) (acc : Account)
    (h : db.rows a = some acc) : db.GetAccountOf a = (acc, db) := by
  unfold AccountsDB.GetAccountOf
  rw [h]

/-- C25: `GetAccountOf(a)` on a store with no row for `a` returns the account with
address `a`, balance 0 and no message and stores exactly that account as the row of `a`;
on a store with a row for `a` it returns that row and leaves the store as it is; no
other row changes; and a second `GetAccountOf(a)` returns the same account and leaves
the store as the first call left it. -/
theorem getAccountOf_read_through (db : AccountsDB) (a : Address) :
    (db.rows a = none →
      (db.GetAccountOf a).1 = { Address := a, Balance := Int64.zero, Messages := [] } ∧
      (db.GetAccountOf a).2.rows a =
        some { Address := a, Balance := Int64.zero, Messages := [] }) ∧
    (∀ acc, db.rows a = some acc →
      (db.GetAccountOf a).1 = acc ∧ (db.GetAccountOf a).2 = db) ∧
    (∀ k, k ≠ a → (db.GetAccountOf a).2.rows k = db.rows k) ∧
    (db.GetAccountOf a).2.rows a = some (db.GetAccountOf a).1 ∧
    ((db.GetAccountOf a).2.GetAccountOf a).1 = (db.GetAccountOf a).1 ∧
    ((db.GetAccountOf a).2.GetAccountOf a).2 = (db.GetAccountOf a).2 := by
  have hrow : (db.GetAccountOf a).2.rows a = some (db.GetAccountOf a).1 := by
    unfold AccountsDB.GetAccountOf
    cases h : db.rows a with
    | none => simp [AccountsDB.put]
    | some acc => exact h
  refine ⟨?_, ?_, fun k hk => db.GetAccountOf_rows_ne a k hk, hrow, ?_, ?_⟩
  · intro h
    unfold AccountsDB.GetAccountOf
    rw [h]
    simp [AccountsDB.put]
  · intro acc h
    unfold AccountsDB.GetAccountOf
    rw [h]
    exact ⟨rfl, rfl⟩
  · rw [AccountsDB.GetAccountOf_of_some _ _ _ hrow]
  · rw [AccountsDB.GetAccountOf_of_some _ _ _ hrow]

/-! ## The hex codec: claims C26 and C27 -/

set_option maxRecDepth 100000 in
theorem fromHexChar_hexDigit_pair : ∀ b : Byte,
    fromHexChar (hexDigit (b.val / 16)) = some (b.val / 16) ∧
    fromHexChar (hexDigit (b.val % 16)) = some (b.val % 16) ∧
    (Fin.ofNat (b.val / 16 * 16 + b.val % 16) : Byte) = b ∧
    hexDigit (b.val / 16) ∈ lowerHex ∧ hexDigit (b.val % 16) ∈ lowerHex := by
  decide

theorem hexEncode_cons (b : Byte) (bs : List Byte) :
    hexEncode (b :: bs) = hexDigit (b.val / 16) :: hexDigit (b.val % 16) :: hexEncode bs := rfl

theorem hexDecodeString_hexEncode (bs : List Byte) :
    hexDecodeString (hexEncode bs) = (bs, false) := by
  induction bs with
  | nil => rfl
  | cons b bs ih =>
    obtain ⟨h1, h2, h3, -, -⟩ := fromHexChar_hexDigit_pair b
    rw [hexEncode_cons, hexDecodeString, h1, h2]
    simp only [ih, h3]

theorem hexEncode_length (bs : List Byte) : (hexEncode bs).length = 2 * bs.length := by
  induction bs with
  | nil => rfl
  | cons b bs ih =>
    rw [hexEncode_cons]
    simp only [List.length_cons, ih]
    omega

theorem hexEncode_lower (bs : List Byte) : ∀ c ∈ hexEncode bs, c ∈ lowerHex := by
  induction bs with
  | nil => intro c hc; cases hc
  | cons b bs ih =>
    obtain ⟨-, -, -, h4, h5⟩ := fromHexChar_hexDigit_pair b
    intro c hc
    rw [hexEncode_cons] at hc
    rcases List.mem_cons.mp hc with rfl | hc
    · exact h4
    · rcases List.mem_cons.mp hc with rfl | hc
      · exact h5
      · exact ih c hc

set_option maxRecDepth 100000 in
theorem fromHexChar_none_iff : ∀ c : Byte, fromHexChar c = none ↔ c ∉ hexChars := by
  decide

theorem hexDecodeString_spec : ∀ (l : List Byte), l.length % 2 = 0 →
    ((hexDecodeString l).2 = true ↔ ∃ c ∈ l, fromHexChar c = none) ∧
    ((hexDecodeString l).2 = false → 2 * (hexDecodeString l).1.length = l.length)
  | [], _ => by simp [hexDecodeString]
  | [_], h => by simp at h
  | p :: q :: rest, h => by
    have hr : rest.length % 2 = 0 := by
      simp only [List.length_cons] at h
      omega
    have ih := hexDecodeString_spec rest hr
    rw [hexDecodeString]
    cases hp : fromHexChar p with
    | none => simp [hp]
    | some a =>
      cases hq : fromHexChar q with
      | none => simp [hq]
      | some b =>
        simp only [List.mem_cons, exists_eq_or_imp, hp, hq, List.length_cons]
        refine ⟨?_, ?_⟩
        · rw [ih.1]
          simp
        · intro h2
          have := ih.2 h2
          omega

theorem NewAddress_eq (hexS : List Byte) :
    NewAddress hexS =
      if ¬ hasPrefix0x hexS then (ZeroAddress, true)
      else if hexS.length ≠ 42 then (ZeroAddress, true)
      else
        if h : (hexDecodeString (hexS.drop 2)).2 = true ∨
            (hexDecodeString (hexS.drop 2)).1.length ≠ 20 then (ZeroAddress, true)
        else (⟨(hexDecodeString (hexS.drop 2)).1,
          Decidable.of_not_not (fun e => h (Or.inr e))⟩, false) := rfl

theorem NewHash_eq (hexS : List Byte) :
    NewHash hexS =
      if ¬ hasPrefix0x hexS then (ZeroHash, true)
      else if hexS.length ≠ 66 then (ZeroHash, true)
      else
        if h : (hexDecodeString (hexS.drop 2)).2 = true ∨
            (hexDecodeString (hexS.drop 2)).1.length ≠ 32 then (ZeroHash, true)
        else (⟨(hexDecodeString (hexS.drop 2)).1,
          Decidable.of_not_not (fun e => h (Or.inr e))⟩, false) := rfl

theorem hasPrefix0x_append (l : List Byte) : hasPrefix0x ([48, 120] ++ l) = true := by
  simp [hasPrefix0x]

theorem hasPrefix0x_iff (s : List Byte) : hasPrefix0x s = true ↔ [48, 120] <+: s := by
  rw [List.prefix_iff_eq_take]
  simp only [hasPrefix0x, decide_eq_true_eq, List.length_cons, List.length_nil]
  exact eq_comm

/-- C26: for every address `a`, `NewAddress(a.Hex(true))` returns `a` and no error, and
`a.Hex(true)` is `0x` followed by 40 lower-case hexadecimal digits; for every hash `h`,
`NewHash(h.Hex(true))` returns `h` and no error, and `h.Hex(true)` is `0x` followed by 64
lower-case hexadecimal digits. -/
theorem hex_round_trip (a : Address) (h : Hash) :
    NewAddress (a.Hex true) = (a, false) ∧
    (∃ digits, a.Hex true = [48, 120] ++ digits ∧ digits.length = 40 ∧
      ∀ c ∈ digits, c ∈ lowerHex) ∧
    NewHash (h.Hex true) = (h, false) ∧
    (∃ digits, h.Hex true = [48, 120] ++ digits ∧ digits.length = 64 ∧
      ∀ c ∈ digits, c ∈ lowerHex) := by
  have ha : a.Hex true = [48, 120] ++ hexEncode a.bytes := rfl
  have hh : h.Hex true = [48, 120] ++ hexEncode h.bytes := rfl
  have la : (hexEncode a.bytes).length = 40 := by rw [hexEncode_length, a.size]
  have lh : (hexEncode h.bytes).length = 64 := by rw [hexEncode_length, h.size]
  refine ⟨?_, ⟨_, ha, la, hexEncode_lower _⟩, ?_, ⟨_, hh, lh, hexEncode_lower _⟩⟩
  · rw [NewAddress_eq, ha, if_neg (by rw [hasPrefix0x_append]; simp),
      if_neg (by simp [la])]
    have hd : List.drop 2 ([48, 120] ++ hexEncode a.bytes) = hexEncode a.bytes := rfl
    rw [dif_neg (by rw [hd, hexDecodeString_hexEncode]; simp [a.size])]
    simp only [hd, hexDecodeString_hexEncode]
  · rw [NewHash_eq, hh, if_neg (by rw [hasPrefix0x_append]; simp),
      if_neg (by simp [lh])]
    have hd : List.drop 2 ([48, 120] ++ hexEncode h.bytes) = hexEncode h.bytes := rfl
    rw [dif_neg (by rw [hd, hexDecodeString_hexEncode]; simp [h.size])]
    simp only [hd, hexDecodeString_hexEncode]

theorem hexDecodeString_drop (s : List Byte) (n : Nat) (hl : s.length = 2 * n + 2) :
    ((hexDecodeString (s.drop 2)).2 = true ∨ (hexDecodeString (s.drop 2)).1.length ≠ n) ↔
      ∃ c ∈ s.drop 2, c ∉ hexChars := by
  have hlen : (s.drop 2).length = 2 * n := by
    rw [List.length_drop, hl]
    omega
  obtain ⟨h1, h2⟩ := hexDecodeString_spec (s.drop 2) (by rw [hlen]; omega)
  simp only [fromHexChar_none_iff] at h1
  rw [← h1]
  constructor
  · rintro (h | h)
    · exact h
    · cases he : (hexDecodeString (s.drop 2)).2 with
      | true => rfl
      | false =>
        have := h2 he
        omega
  · exact Or.inl

theorem NewAddress_err (s : List Byte) :
    ((NewAddress s).2 = true ↔
      (¬ [48, 120] <+: s ∨ s.length ≠ 42 ∨ ∃ c ∈ s.drop 2, c ∉ hexChars)) ∧
    ((NewAddress s).2 = true → (NewAddress s).1 = ZeroAddress) := by
  rw [NewAddress_eq, ← hasPrefix0x_iff]
  by_cases hp : hasPrefix0x s = true
  · rw [if_neg (not_not.mpr hp)]
    by_cases hl : s.length = 42
    · rw [if_neg (not_not.mpr hl)]
      have hd := hexDecodeString_drop s 20 hl
      by_cases hc : (hexDecodeString (s.drop 2)).2 = true ∨
          (hexDecodeString (s.drop 2)).1.length ≠ 20
      · rw [dif_pos hc]
        simp [hd.mp hc]
      · rw [dif_neg hc]
        have hall : ∀ x ∈ List.drop 2 s, x ∈ hexChars := by
          intro x hx
          by_contra hn
          exact hc (hd.mpr ⟨x, hx, hn⟩)
        simp only [hp, hl, not_true_eq_false, ne_eq, false_or, Bool.false_eq_true, false_iff,
          not_exists, not_and, not_not, reduceCtorEq, false_implies, and_true]
        exact hall
    · rw [if_pos hl]
      simp [hl]
  · rw [if_pos hp]
    simp [hp]

theorem NewHash_err (s : List Byte) :
    ((NewHash s).2 = true ↔
      (¬ [48, 120] <+: s ∨ s.length ≠ 66 ∨ ∃ c ∈ s.drop 2, c ∉ hexChars)) ∧
    ((NewHash s).2 = true → (NewHash s).1 = ZeroHash) := by
  rw [NewHash_eq, ← hasPrefix0x_iff]
  by_cases hp : hasPrefix0x s = true
  · rw [if_neg (not_not.mpr hp)]
    by_cases hl : s.length = 66
    · rw [if_neg (not_not.mpr hl)]
      have hd := hexDecodeString_drop s 32 hl
      by_cases hc : (hexDecodeString (s.drop 2)).2 = true ∨
          (hexDecodeString (s.drop 2)).1.length ≠ 32
      · rw [dif_pos hc]
        simp [hd.mp hc]
      · rw [dif_neg hc]
        have hall : ∀ x ∈ List.drop 2 s, x ∈ hexChars := by
          intro x hx
          by_contra hn
          exact hc (hd.mpr ⟨x, hx, hn⟩)
        simp only [hp, hl, not_true_eq_false, ne_eq, false_or, Bool.false_eq_true, false_iff,
          not_exists, not_and, not_not, reduceCtorEq, false_implies, and_true]
        exact hall
    · rw [if_pos hl]
      simp [hl]
  · rw [if_pos hp]
    simp [hp]

/-- C27: `NewAddress(s)` returns an error exactly when `s` does not start with `0x`, or
its length is not 42, or some character after the first two is not one of
`0123456789abcdefABCDEF`; `NewHash(s)` likewise with the length 66; and on an error the
value returned is the zero address, respectively the zero hash. -/
theorem hex_decoding_rejects (s : List Byte) :
    ((NewAddress s).2 = true ↔
      (¬ [48, 120] <+: s ∨ s.length ≠ 42 ∨ ∃ c ∈ s.drop 2, c ∉ hexChars)) ∧
    ((NewAddress s).2 = true → (NewAddress s).1 = ZeroAddress) ∧
    ((NewHash s).2 = true ↔
      (¬ [48, 120] <+: s ∨ s.length ≠ 66 ∨ ∃ c ∈ s.drop 2, c ∉ hexChars)) ∧
    ((NewHash s).2 = true → (NewHash s).1 = ZeroHash) :=
  ⟨(NewAddress_err s).1, (NewAddress_err s).2, (NewHash_err s).1, (NewHash_err s).2⟩

/-! ## The stored tip and the initial accounts: claims C28 and C30 -/

theorem Account.ext_fields (x y : Account) (h1 : x.Address = y.Address)
    (h2 : x.Balance.val = y.Balance.val) (h3 : x.Messages = y.Messages) : x = y := by
  obtain ⟨a, b, m⟩ := x
  obtain ⟨a2, b2, m2⟩ := y
  have hb : b = b2 := Int64.ext_val b b2 h2
  simp only at h1 h3
  subst h1 hb h3
  rfl

/-- C28 fails: `DeserializeHash` checks the length of its argument and returns the zero
hash, whatever the 32 bytes are; so `DeserializeHash(h.Serialize())` is the zero hash for
every `h`, `GetLastBlockHash` returns the zero hash whatever 32 bytes are stored under
`last_block_hash`, and for the hash `tagDigest []`, whose last byte is 1, the decoded
value differs from the hash that was serialised. -/
theorem deserializeHash_returns_zero_hash (h : Hash) (bkt : BlocksBucket)
    (faults : List Bool) :
    DeserializeHash h.Serialize = some ZeroHash ∧
    BlocksDB.GetLastBlockHash
      { bucket := some { bkt with last := some h.Serialize }, faults := faults } =
        some ZeroHash ∧
    DeserializeHash (tagDigest []).Serialize ≠ some (tagDigest []) ∧
    BlocksDB.GetLastBlockHash
      { bucket := some { bkt with last := some (tagDigest []).Serialize }, faults := faults } ≠
        some (tagDigest []) := by
  have hz : ∀ x : Hash, DeserializeHash x.Serialize = some ZeroHash := by
    intro x
    unfold DeserializeHash Hash.Serialize Hash.Bytes
    rw [if_neg (by simp [x.size])]
  have hne : some ZeroHash ≠ some (tagDigest []) := by decide
  refine ⟨hz h, hz h, ?_, ?_⟩
  · rw [hz]
    exact hne
  · show DeserializeHash (tagDigest []).Serialize ≠ some (tagDigest [])
    rw [hz]
    exact hne

/-- C30: `initAccounts` returns five accounts; an account is among them exactly when its
address is `0x00…0n` for some `n` from 1 to 5, its balance is `10^10` and its message
list is empty; the five addresses are distinct, the bytes of `0x00…0n` are 19 zero bytes
followed by `n`, and they are the addresses that `NewAddress` returns, without error,
for the five literals of the source. -/
theorem initAccounts_funding :
    initAccounts.length = 5 ∧
    (∀ acc : Account, acc ∈ initAccounts ↔
      ∃ n : Nat, 1 ≤ n ∧ n ≤ 5 ∧ acc.Address = wellKnown (Fin.ofNat n) ∧
        acc.Balance.val = 10000000000 ∧ acc.Messages = []) ∧
    (initAccounts.map (fun acc => acc.Address)).Nodup ∧
    (∀ n : Byte, (wellKnown n).Bytes = List.replicate 19 0 ++ [n]) ∧
    (∀ n : Nat, 1 ≤ n ∧ n ≤ 5 →
      NewAddress (wellKnownHex n) = (wellKnown (Fin.ofNat n), false)) := by
  refine ⟨rfl, ?_, by decide, fun n => rfl, ?_⟩
  · intro acc
    constructor
    · intro h
      simp only [initAccounts, List.mem_cons, List.mem_singleton, List.not_mem_nil,
        or_false] at h
      rcases h with h | h | h | h | h
      · exact ⟨1, by omega, by omega, by rw [h]; rfl, by rw [h]; rfl, by rw [h]; rfl⟩
      · exact ⟨2, by omega, by omega, by rw [h]; rfl, by rw [h]; rfl, by rw [h]; rfl⟩
      · exact ⟨3, by omega, by omega, by rw [h]; rfl, by rw [h]; rfl, by rw [h]; rfl⟩
      · exact ⟨4, by omega, by omega, by rw [h]; rfl, by rw [h]; rfl, by rw [h]; rfl⟩
      · exact ⟨5, by omega, by omega, by rw [h]; rfl, by rw [h]; rfl, by rw [h]; rfl⟩
    · rintro ⟨n, h1, h2, ha, hb, hm⟩
      have hacc : acc = NewAccount (wellKnown (Fin.ofNat n))
          ⟨10000000000, by decide, by decide⟩ :=
        Account.ext_fields _ _ ha hb hm
      rw [hacc]
      interval_cases n <;> decide
  · rintro n ⟨h1, h2⟩
    interval_cases n <;> decide

/-! ## The block iterator: claim C29 -/

theorem ProofOfWork.runLoop_range (sha : List Byte → Hash) (pow : ProofOfWork) :
    ∀ (k : Nat) (nonce : Int64) (hash : Hash),
      (pow.runLoop sha k nonce hash).2 = hash ∨
        ∃ d, (pow.runLoop sha k nonce hash).2 = sha d := by
  intro k
  induction k with
  | zero => intro nonce hash; exact Or.inl rfl
  | succ k ih =>
    intro nonce hash
    rw [ProofOfWork.runLoop_succ]
    split
    · split
      · exact Or.inr ⟨_, rfl⟩
      · rcases ih (nonce.add ⟨1, by decide, by decide⟩) (sha (pow.prepareData nonce)) with h | h
        · exact Or.inr ⟨_, h⟩
        · exact Or.inr h
    · exact Or.inl rfl

theorem ProofOfWork.Run_range (sha : List Byte → Hash) (pow : ProofOfWork) :
    ∃ d, (pow.Run sha).2 = sha d := by
  have h : pow.Run sha = pow.runLoop sha (9223372036854775806 + 1) Int64.zero ZeroHash := rfl
  rw [h, ProofOfWork.runLoop_succ, if_pos (by decide)]
  split
  · exact ⟨_, rfl⟩
  · rcases ProofOfWork.runLoop_range sha pow 9223372036854775806
      (Int64.zero.add ⟨1, by decide, by decide⟩) (sha (pow.prepareData Int64.zero)) with h | h
    · exact ⟨_, h⟩
    · exact h

theorem BlocksDB.AddBlock_get (db : BlocksDB) (block : Block) (h : Hash) :
    (db.AddBlock block).1.GetBlock h = db.GetBlock h ∨
      (h = block.Hash ∧ (db.AddBlock block).1.GetBlock h = some block) := by
  unfold BlocksDB.AddBlock BlocksDB.GetBlock
  cases hb : db.bucket with
  | none => exact Or.inl rfl
  | some bkt =>
    simp only
    by_cases hf : db.faults.head? = some true
    · rw [if_pos hf]
      exact Or.inl rfl
    · rw [if_neg hf]
      simp only
      by_cases he : h = block.Hash
      · exact Or.inr ⟨he, by rw [if_pos he]⟩
      · exact Or.inl (by rw [if_neg he])

theorem BlocksDB.addBlockLoop_get (block : Block) (h : Hash) :
    ∀ (n : Nat) (db : BlocksDB) (err : Bool),
      (BlocksDB.addBlockLoop block n db err).1.GetBlock h = db.GetBlock h ∨
        (h = block.Hash ∧ (BlocksDB.addBlockLoop block n db err).1.GetBlock h = some block) := by
  intro n
  induction n with
  | zero => intro db err; exact Or.inl rfl
  | succ n ih =>
    intro db err
    simp only [BlocksDB.addBlockLoop]
    split
    · rcases ih (db.AddBlock block).1 true with h1 | h1
      · rcases db.AddBlock_get block h with h2 | h2
        · exact Or.inl (h1.trans h2)
        · exact Or.inr ⟨h2.1, h1.trans h2.2⟩
      · exact Or.inr h1
    · exact db.AddBlock_get block h

theorem BlocksDB.AddBlockWithRetry_get (db : BlocksDB) (block : Block) (maxRetry : Int)
    (h : Hash) :
    (db.AddBlockWithRetry block maxRetry).1.GetBlock h = db.GetBlock h ∨
      (h = block.Hash ∧ (db.AddBlockWithRetry block maxRetry).1.GetBlock h = some block) :=
  BlocksDB.addBlockLoop_get block h _ db false

theorem Block.BePackaged_blocksDB (sha : List Byte → MemoryChain.Hash) (b : Block)
    (miner : Address) (blocksDB : BlocksDB) (accountsDB : AccountsDB) :
    (b.BePackaged sha miner blocksDB accountsDB).state.blocksDB = blocksDB ∨
      (b.BePackaged sha miner blocksDB accountsDB).state.blocksDB =
        (blocksDB.AddBlockWithRetry (packagedBlock sha b miner accountsDB)
          MaxRetryOfAddingBlock).1 := by
  rw [Block.BePackaged_eq]
  split
  · exact Or.inl rfl
  · split
    · split
      · exact Or.inl rfl
      · exact Or.inl rfl
    · split
      · split
        · exact Or.inr rfl
        · exact Or.inr rfl
      · exact Or.inr rfl

theorem Blockchain.MineBlock_blocksDB (sha : List Byte → Hash) (now : Int64)
    (bc : Blockchain) (miner : Address) :
    (bc.MineBlock sha now miner).state.BlocksDB = bc.BlocksDB ∨
      (bc.MineBlock sha now miner).state.BlocksDB =
        (bc.BlocksDB.AddBlockWithRetry (bc.minedBlock sha now miner)
          MaxRetryOfAddingBlock).1 := by
  rw [Blockchain.MineBlock_eq]
  split
  · exact Or.inl rfl
  · have hp := Block.BePackaged_blocksDB sha
      (NewBlock now (bc.TxsPoolDB.GetSomeTxs DefaultNumberOfTxsInBlock) bc.Tip) miner
      bc.BlocksDB bc.AccountsDB
    unfold Blockchain.minedBlock
    generalize (NewBlock now (bc.TxsPoolDB.GetSomeTxs DefaultNumberOfTxsInBlock)
      bc.Tip).BePackaged sha miner bc.BlocksDB bc.AccountsDB = o at hp ⊢
    cases o <;> exact hp

theorem Blockchain.MineBlock_get (sha : List Byte → Hash) (now : Int64)
    (bc : Blockchain) (miner : Address) (h : Hash) :
    (bc.MineBlock sha now miner).state.BlocksDB.GetBlock h = bc.BlocksDB.GetBlock h ∨
      (h = (bc.minedBlock sha now miner).Hash ∧
        (bc.MineBlock sha now miner).state.BlocksDB.GetBlock h =
          some (bc.minedBlock sha now miner)) := by
  rcases bc.MineBlock_blocksDB sha now miner with e | e
  · exact Or.inl (by rw [e])
  · rw [e]
    exact BlocksDB.AddBlockWithRetry_get _ _ _ h

theorem Blockchain.minedBlock_hash_range (sha : List Byte → Hash) (now : Int64)
    (bc : Blockchain) (miner : Address) :
    ∃ d, (bc.minedBlock sha now miner).Hash = sha d :=
  ProofOfWork.Run_range sha _

theorem Blockchain.run_tip (sha : List Byte → Hash) :
    ∀ (calls : List Call) (bc : Blockchain), (Blockchain.run sha calls bc).Tip = bc.Tip := by
  intro calls
  induction calls with
  | nil => intro bc; rfl
  | cons c rest ih =>
    intro bc
    cases c with
    | send tx =>
      rw [Blockchain.run, ih]
      unfold Blockchain.SendTransaction
      simp only
      split <;> rfl
    | mine now miner =>
      rw [Blockchain.run, ih]
      exact Blockchain.MineBlock_tip sha now bc miner

theorem Blockchain.SendTransaction_blocksDB (bc : Blockchain) (tx : Transaction) :
    (bc.SendTransaction tx).1.BlocksDB = bc.BlocksDB ∧
    (bc.SendTransaction tx).1.Tip = bc.Tip := by
  unfold Blockchain.SendTransaction
  simp only
  split <;> exact ⟨rfl, rfl⟩

/-- On a blockchain whose `Tip` is the zero hash, the block stored under the zero hash
keeps a zero `PrevBlockHash` through every call. -/
theorem Blockchain.run_zero_loop (sha : List Byte → Hash) :
    ∀ (calls : List Call) (bc : Blockchain), bc.Tip = ZeroHash →
      (∃ b, bc.BlocksDB.GetBlock ZeroHash = some b ∧ b.PrevBlockHash = ZeroHash) →
      ∃ b, (Blockchain.run sha calls bc).BlocksDB.GetBlock ZeroHash = some b ∧
        b.PrevBlockHash = ZeroHash := by
  intro calls
  induction calls with
  | nil => intro bc _ h; exact h
  | cons c rest ih =>
    intro bc ht h
    cases c with
    | send tx =>
      rw [Blockchain.run]
      refine ih _ ((bc.SendTransaction_blocksDB tx).2.trans ht) ?_
      rw [(bc.SendTransaction_blocksDB tx).1]
      exact h
    | mine now miner =>
      rw [Blockchain.run]
      refine ih _ ((Blockchain.MineBlock_tip sha now bc miner).trans ht) ?_
      rcases bc.MineBlock_get sha now miner ZeroHash with e | e
      · rw [e]
        exact h
      · exact ⟨_, e.2, ht⟩

/-- With a digest that is never the zero hash, the block stored under the zero hash
stays the same through every call. -/
theorem Blockchain.run_zero_block (sha : List Byte → Hash) (hsha : ∀ d, sha d ≠ ZeroHash) :
    ∀ (calls : List Call) (bc : Blockchain),
      (Blockchain.run sha calls bc).BlocksDB.GetBlock ZeroHash =
        bc.BlocksDB.GetBlock ZeroHash := by
  intro calls
  induction calls with
  | nil => intro bc; rfl
  | cons c rest ih =>
    intro bc
    cases c with
    | send tx =>
      rw [Blockchain.run, ih, (bc.SendTransaction_blocksDB tx).1]
    | mine now miner =>
      rw [Blockchain.run, ih]
      rcases bc.MineBlock_get sha now miner ZeroHash with e | e
      · exact e
      · obtain ⟨d, hd⟩ := bc.minedBlock_hash_range sha now miner
        exact absurd (e.1.trans hd).symm (hsha d)

theorem BlocksIterator.Next_loop (i : BlocksIterator) (b : Block)
    (h1 : i.db.GetBlock i.currentHash = some b) (h2 : b.PrevBlockHash = i.currentHash) :
    i.Next = (i, some b) := by
  unfold BlocksIterator.Next
  rw [h1]
  simp only [h2]

theorem BlocksIterator.nexts_loop (i : BlocksIterator) (b : Block)
    (h1 : i.db.GetBlock i.currentHash = some b) (h2 : b.PrevBlockHash = i.currentHash) :
    ∀ n, BlocksIterator.nexts n i = List.replicate n (some b) ∧
      BlocksIterator.after n i = i := by
  intro n
  induction n with
  | zero => exact ⟨rfl, rfl⟩
  | succ n ih =>
    simp only [BlocksIterator.nexts, BlocksIterator.after, i.Next_loop b h1 h2, ih,
      List.replicate_succ, and_self]

theorem tagDigest_ne_zero (d : List Byte) : tagDigest d ≠ ZeroHash := by
  intro h
  have h2 := congrArg (fun x => x.bytes.getLast?) h
  simp [tagDigest, ZeroHash] at h2

theorem freshChain_zero_block (now : Int64) :
    (freshChain now).BlocksDB.GetBlock ZeroHash = some (NewGenesisBlock now) := by
  simp [freshChain, NewBlocksDB, BlocksDB.GetBlock, NewGenesisBlock, NewBlock]

theorem Blockchain.BlocksIterator_eq (bc : Blockchain) :
    bc.BlocksIterator = ⟨bc.Tip, bc.BlocksDB⟩ := rfl

set_option maxRecDepth 8192 in
/-- C29 fails: after S2 has been sent and a block mined (digest `tagDigest`) on the
blockchain that `NewBlockchain` returns, the first call of `Next()` on `BlocksIterator()`
returns the genesis block, and the second call returns the genesis block again instead
of an error. -/
theorem blocksIterator_returns_genesis_twice :
    (chainSent.MineBlock tagDigest timeS2 (wellKnown 1)).isOk = true ∧
    chainMined.BlocksIterator.nexts 2 =
      [some (NewGenesisBlock timeGenesis), some (NewGenesisBlock timeGenesis)] := by
  have hrun : chainMined = Blockchain.run tagDigest
      [Call.send txS2, Call.mine timeS2 (wellKnown 1)] (freshChain timeGenesis) := rfl
  have hz : chainMined.BlocksDB.GetBlock ZeroHash = some (NewGenesisBlock timeGenesis) := by
    rw [hrun, Blockchain.run_zero_block tagDigest tagDigest_ne_zero]
    exact freshChain_zero_block timeGenesis
  have ht : chainMined.Tip = ZeroHash := by
    rw [hrun, Blockchain.run_tip]
    rfl
  refine ⟨by decide, ?_⟩
  rw [Blockchain.BlocksIterator_eq, ht]
  generalize chainMined.BlocksDB = db at hz ⊢
  exact (BlocksIterator.nexts_loop ⟨ZeroHash, db⟩ (NewGenesisBlock timeGenesis) hz rfl 2).1

/-- C29 (amended): on the block store of a blockchain that `NewBlockchain` returned and
that `SendTransaction` and `MineBlock` calls extended, with a digest that is never the
zero hash, the genesis block is stored under the zero hash and its `PrevBlockHash` is the
zero hash; `Next()` returns the block stored under the current hash and moves the
current hash to the `PrevBlockHash` of that block, and returns an error, moving
nothing, only when no block is stored under the current hash; so once `Next()` has
returned a block whose `PrevBlockHash` is the zero hash, every further call returns the
genesis block, never an error. -/
theorem blocksIterator_loops_at_genesis (sha : List Byte → Hash)
    (hsha : ∀ d, sha d ≠ ZeroHash) (now : Int64) (calls : List Call) (start : Hash)
    (n : Nat) :
    NewBlockchain now = some (freshChain now) ∧
    (Blockchain.run sha calls (freshChain now)).BlocksDB.GetBlock ZeroHash =
      some (NewGenesisBlock now) ∧
    (NewGenesisBlock now).PrevBlockHash = ZeroHash ∧
    (BlocksIterator.Next ⟨start, (Blockchain.run sha calls (freshChain now)).BlocksDB⟩).2 =
      (Blockchain.run sha calls (freshChain now)).BlocksDB.GetBlock start ∧
    (∀ b, (Blockchain.run sha calls (freshChain now)).BlocksDB.GetBlock start = some b →
      (BlocksIterator.Next ⟨start, (Blockchain.run sha calls (freshChain now)).BlocksDB⟩).1 =
        ⟨b.PrevBlockHash, (Blockchain.run sha calls (freshChain now)).BlocksDB⟩) ∧
    ((Blockchain.run sha calls (freshChain now)).BlocksDB.GetBlock start = none →
      (BlocksIterator.Next ⟨start, (Blockchain.run sha calls (freshChain now)).BlocksDB⟩).1 =
        ⟨start, (Blockchain.run sha calls (freshChain now)).BlocksDB⟩) ∧
    (∀ b, (Blockchain.run sha calls (freshChain now)).BlocksDB.GetBlock start = some b →
      b.PrevBlockHash = ZeroHash →
      BlocksIterator.nexts n
        (BlocksIterator.Next
          ⟨start, (Blockchain.run sha calls (freshChain now)).BlocksDB⟩).1 =
        List.replicate n (some (NewGenesisBlock now))) := by
  have hz : (Blockchain.run sha calls (freshChain now)).BlocksDB.GetBlock ZeroHash =
      some (NewGenesisBlock now) := by
    rw [Blockchain.run_zero_block sha hsha]
    exact freshChain_zero_block now
  generalize (Blockchain.run sha calls (freshChain now)).BlocksDB = db at hz ⊢
  refine ⟨rfl, hz, rfl, ?_, ?_, ?_, ?_⟩
  · unfold BlocksIterator.Next
    cases db.GetBlock start <;> rfl
  · intro b hb
    unfold BlocksIterator.Next
    simp only [hb]
  · intro hb
    unfold BlocksIterator.Next
    simp only [hb]
  · intro b hb hp
    have hnext : (BlocksIterator.Next ⟨start, db⟩).1 = ⟨ZeroHash, db⟩ := by
      unfold BlocksIterator.Next
      simp only [hb, hp]
    rw [hnext]
    exact (BlocksIterator.nexts_loop ⟨ZeroHash, db⟩ (NewGenesisBlock now) hz rfl n).1

/-- The amended C29 at the digest `tagDigest`, after S2 was sent and a block mined,
for an iterator that starts at the zero hash, the `Tip` of that blockchain. -/
theorem blocksIterator_loops_at_genesis_witness :
    (∀ d, tagDigest d ≠ ZeroHash) ∧
    BlocksIterator.nexts 3
      (BlocksIterator.Next
        ⟨ZeroHash, (Blockchain.run tagDigest
          [Call.send txS2, Call.mine timeS2 (wellKnown 1)]
          (freshChain timeGenesis)).BlocksDB⟩).1 =
      List.replicate 3 (some (NewGenesisBlock timeGenesis)) :=
  ⟨tagDigest_ne_zero,
    (blocksIterator_loops_at_genesis tagDigest tagDigest_ne_zero timeGenesis
      [Call.send txS2, Call.mine timeS2 (wellKnown 1)] ZeroHash 3).2.2.2.2.2.2
      (NewGenesisBlock timeGenesis)
      ((blocksIterator_loops_at_genesis tagDigest tagDigest_ne_zero timeGenesis
        [Call.send txS2, Call.mine timeS2 (wellKnown 1)] ZeroHash 3).2.1) rfl⟩

/-! ## The retry of RollBack, the hash input and sums of balances: claims C32 and C33 -/

/-- One attempt of `RollBack` whose credit and debit pass and whose `DeleteMessageOf`
fails on an empty message list: the loop goes on with the credit and the debit applied. -/
theorem Transaction.rollBackLoop_failed_attempt (tx : Transaction) (n : Nat) (db : AccountsDB)
    (e : Bool) (hdata : tx.Data ≠ []) (hmsg : db.messages tx.To = [])
    (hA : 0 ≤ tx.Amount.val) (hS : 0 ≤ tx.Fee.val + tx.Amount.val)
    (hS2 : tx.Fee.val + tx.Amount.val ≤ 9223372036854775807)
    (hF : db.balance tx.From + (tx.Fee.val + tx.Amount.val) ≤ 9223372036854775807)
    (hT : -9223372036854775808 ≤
      db.balance tx.To + (if tx.To = tx.From then tx.Fee.val + tx.Amount.val else 0)
        - tx.Amount.val) :
    ∃ db1, tx.rollBackLoop (n + 1) db e = tx.rollBackLoop n db1 true ∧
      (∀ k, db1.balance k =
        db.balance k + (if k = tx.From then tx.Fee.val + tx.Amount.val else 0)
          - (if k = tx.To then tx.Amount.val else 0)) ∧
      (∀ k, db1.messages k = db.messages k) := by
  have hlo := db.balance_lo tx.From
  have hsum : (tx.Fee.add tx.Amount).val = tx.Fee.val + tx.Amount.val := by
    rw [Int64.add_val]
    omega
  have e1 : ¬ (db.IncreaseBalanceOf tx.From (tx.Fee.add tx.Amount)).err = true := by
    rw [AccountsDB.IncreaseBalanceOf_err, hsum]; omega
  have b1 : ∀ k, (db.IncreaseBalanceOf tx.From (tx.Fee.add tx.Amount)).db.balance k =
      db.balance k + (if k = tx.From then tx.Fee.val + tx.Amount.val else 0) := by
    intro k
    rw [AccountsDB.IncreaseBalanceOf_balance, if_neg e1, hsum]
    by_cases hk : k = tx.From
    · subst hk; simp
    · simp [hk]
  have e2 : ¬ ((db.IncreaseBalanceOf tx.From (tx.Fee.add tx.Amount)).db.DecreaseBalanceOf
      tx.To tx.Amount).err = true := by
    rw [AccountsDB.DecreaseBalanceOf_err, b1]; omega
  have b2 : ∀ k, ((db.IncreaseBalanceOf tx.From (tx.Fee.add tx.Amount)).db.DecreaseBalanceOf
      tx.To tx.Amount).db.balance k =
      db.balance k + (if k = tx.From then tx.Fee.val + tx.Amount.val else 0)
        - (if k = tx.To then tx.Amount.val else 0) := by
    intro k
    rw [AccountsDB.DecreaseBalanceOf_balance, if_neg e2, b1, b1]
    by_cases hk : k = tx.To
    · subst hk; simp
    · simp [hk]
  have m2 : ∀ k, ((db.IncreaseBalanceOf tx.From (tx.Fee.add tx.Amount)).db.DecreaseBalanceOf
      tx.To tx.Amount).db.messages k = db.messages k := by
    intro k
    rw [AccountsDB.DecreaseBalanceOf_messages, AccountsDB.IncreaseBalanceOf_messages]
  have hlen : tx.Data.length ≠ 0 := fun h => hdata (List.length_eq_zero.mp h)
  have e3 : (((db.IncreaseBalanceOf tx.From (tx.Fee.add tx.Amount)).db.DecreaseBalanceOf
      tx.To tx.Amount).db.DeleteMessageOf tx.To).err = true := by
    rw [AccountsDB.DeleteMessageOf_err, m2, hmsg]
  refine ⟨(((db.IncreaseBalanceOf tx.From (tx.Fee.add tx.Amount)).db.DecreaseBalanceOf
      tx.To tx.Amount).db.DeleteMessageOf tx.To).db, ?_, ?_, ?_⟩
  · rw [Transaction.rollBackLoop_succ, if_neg e1, if_neg e2, if_pos hlen, if_pos e3]
  · intro k
    rw [AccountsDB.DeleteMessageOf_balance, b2]
  · intro k
    rw [AccountsDB.DeleteMessageOf_messages, m2, m2]
    split
    · next hk => subst hk; rw [hmsg]; rfl
    · rfl

/-- After `n` attempts that fail at `DeleteMessageOf`, the loop of `RollBack` ends with
an error, the credit and the debit applied `n` times. -/
theorem Transaction.rollBackLoop_accumulates (tx : Transaction) (hdata : tx.Data ≠ [])
    (hA : 0 ≤ tx.Amount.val) (hS : 0 ≤ tx.Fee.val + tx.Amount.val)
    (hS2 : tx.Fee.val + tx.Amount.val ≤ 9223372036854775807) :
    ∀ (n : Nat) (db : AccountsDB), db.messages tx.To = [] →
      db.balance tx.From + n * (tx.Fee.val + tx.Amount.val) ≤ 9223372036854775807 →
      -9223372036854775808 ≤ db.balance tx.To - n * tx.Amount.val →
      (∀ k, (tx.rollBackLoop n db true).db.balance k =
        db.balance k + (if k = tx.From then n * (tx.Fee.val + tx.Amount.val) else 0)
          - (if k = tx.To then n * tx.Amount.val else 0)) ∧
      (∀ k, (tx.rollBackLoop n db true).db.messages k = db.messages k) ∧
      (tx.rollBackLoop n db true).err = true := by
  intro n
  induction n with
  | zero =>
    intro db _ _ _
    refine ⟨fun k => ?_, fun k => rfl, rfl⟩
    show db.balance k = _
    simp
  | succ n ih =>
    intro db hmsg hF hT
    have hmulS : 0 ≤ (n : Int) * (tx.Fee.val + tx.Amount.val) :=
      mul_nonneg (Int.ofNat_nonneg n) hS
    have hmulA : 0 ≤ (n : Int) * tx.Amount.val := mul_nonneg (Int.ofNat_nonneg n) hA
    have hF1 : db.balance tx.From + ((n : Int) * (tx.Fee.val + tx.Amount.val)
        + (tx.Fee.val + tx.Amount.val)) ≤ 9223372036854775807 := by
      have : ((n + 1 : Nat) : Int) * (tx.Fee.val + tx.Amount.val) =
          (n : Int) * (tx.Fee.val + tx.Amount.val) + (tx.Fee.val + tx.Amount.val) := by
        push_cast; ring
      rw [this] at hF
      exact hF
    have hT1 : -9223372036854775808 ≤ db.balance tx.To
        - ((n : Int) * tx.Amount.val + tx.Amount.val) := by
      have : ((n + 1 : Nat) : Int) * tx.Amount.val =
          (n : Int) * tx.Amount.val + tx.Amount.val := by
        push_cast; ring
      rw [this] at hT
      exact hT
    have hcastS : ((n + 1 : Nat) : Int) * (tx.Fee.val + tx.Amount.val) =
        (n : Int) * (tx.Fee.val + tx.Amount.val) + (tx.Fee.val + tx.Amount.val) := by
      push_cast; ring
    have hcastA : ((n + 1 : Nat) : Int) * tx.Amount.val =
        (n : Int) * tx.Amount.val + tx.Amount.val := by
      push_cast; ring
    generalize hPS : (n : Int) * (tx.Fee.val + tx.Amount.val) = PS at *
    generalize hPA : (n : Int) * tx.Amount.val = PA at *
    obtain ⟨db1, hstep, hb1, hm1⟩ := tx.rollBackLoop_failed_attempt n db true hdata hmsg hA hS hS2
      (by omega) (by split <;> omega)
    have hmsg1 : db1.messages tx.To = [] := by rw [hm1, hmsg]
    have hbF := hb1 tx.From
    have hbT := hb1 tx.To
    rw [if_pos rfl] at hbF
    rw [if_pos rfl] at hbT
    have hih := ih db1 hmsg1
      (by
        rw [hbF]
        split <;> omega)
      (by
        rw [hbT]
        split <;> omega)
    obtain ⟨i1, i2, i3⟩ := hih
    rw [hstep]
    refine ⟨fun k => ?_, fun k => by rw [i2, hm1], i3⟩
    rw [i1 k, hb1 k, hcastS, hcastA]
    split <;> split <;> omega

/-- C33: for a transaction with non-empty `Data`, on a state in which the message list
of the recipient is empty and in which five credits of `Fee + Amount` to the sender and
five debits of `Amount` from the recipient stay within the `int64` range, every attempt
of `RollBack` credits the sender and debits the recipient before `DeleteMessageOf`
fails, and the next attempt starts again with the credit: after `n ≤ 5` attempts the
sender has been credited `n * (Fee + Amount)` and the recipient debited `n * Amount`, and
`RollBack` panics with the sender credited `5 * (Fee + Amount)`, the recipient debited
`5 * Amount`, every other balance and every message list unchanged. -/
theorem rollBack_retry_accumulates (tx : Transaction) (db : AccountsDB)
    (hdata : tx.Data ≠ []) (hmsg : db.messages tx.To = [])
    (hA : 0 ≤ tx.Amount.val) (hS : 0 ≤ tx.Fee.val + tx.Amount.val)
    (hF : db.balance tx.From + 5 * (tx.Fee.val + tx.Amount.val) ≤ MaxInt64)
    (hT : MinInt64 ≤ db.balance tx.To - 5 * tx.Amount.val) :
    (tx.RollBack db).isPanic = true ∧
    (∀ k, (tx.RollBack db).state.balance k =
      db.balance k + (if k = tx.From then 5 * (tx.Fee.val + tx.Amount.val) else 0)
        - (if k = tx.To then 5 * tx.Amount.val else 0)) ∧
    (∀ k, (tx.RollBack db).state.messages k = db.messages k) ∧
    (∀ n : Nat, n ≤ 5 →
      (tx.rollBackLoop n db true).err = true ∧
      ∀ k, (tx.rollBackLoop n db true).db.balance k =
        db.balance k + (if k = tx.From then n * (tx.Fee.val + tx.Amount.val) else 0)
          - (if k = tx.To then n * tx.Amount.val else 0)) := by
  have hlo := db.balance_lo tx.From
  have hF1 : db.balance tx.From + 5 * (tx.Fee.val + tx.Amount.val) ≤ 9223372036854775807 := hF
  have hT1 : -9223372036854775808 ≤ db.balance tx.To - 5 * tx.Amount.val := hT
  have hS2 : tx.Fee.val + tx.Amount.val ≤ 9223372036854775807 := by omega
  have hacc := tx.rollBackLoop_accumulates hdata hA hS hS2
  have h5 := hacc 5 db hmsg (by push_cast; exact hF1) (by push_cast; exact hT1)
  have hloop : tx.rollBackLoop MaxRetryOfExecution db false = tx.rollBackLoop 5 db true := by
    exact (Transaction.rollBackLoop_succ tx 4 db false).trans
      (Transaction.rollBackLoop_succ tx 4 db true).symm
  have hroll : tx.RollBack db = Outcome.panic (tx.rollBackLoop 5 db true).db := by
    unfold Transaction.RollBack
    simp only [hloop, h5.2.2, if_true]
  rw [hroll]
  refine ⟨rfl, ?_, h5.2.1, ?_⟩
  · intro k
    have := h5.1 k
    push_cast at this
    exact this
  · intro n hn
    have hn1 : (n : Int) ≤ 5 := by exact_mod_cast hn
    have hm1 : (n : Int) * (tx.Fee.val + tx.Amount.val) ≤ 5 * (tx.Fee.val + tx.Amount.val) :=
      mul_le_mul_of_nonneg_right hn1 hS
    have hm2 : (n : Int) * tx.Amount.val ≤ 5 * tx.Amount.val :=
      mul_le_mul_of_nonneg_right hn1 hA
    have hn := hacc n db hmsg (by omega) (by omega)
    exact ⟨hn.2.2, hn.1⟩

/-- C33, an instance: `RollBack` of S2 (from `0x…02` to `0x…03`, amount 1000, fee 2,
message `hi`) on the initial store, where `0x…03` has no message, panics with the
balance of `0x…02` raised by `5 * 1002` and the balance of `0x…03` lowered by
`5 * 1000`. -/
theorem rollBack_retry_accumulates_witness :
    (txS2.RollBack NewAccountsDB).isPanic = true ∧
    (txS2.RollBack NewAccountsDB).state.balance (wellKnown 2) = 10000000000 + 5010 ∧
    (txS2.RollBack NewAccountsDB).state.balance (wellKnown 3) = 10000000000 - 5000 := by
  have h := rollBack_retry_accumulates txS2 NewAccountsDB (by decide) (by decide)
    (by decide) (by decide) (by decide) (by decide)
  refine ⟨h.1, ?_, ?_⟩
  · rw [h.2.1 (wellKnown 2)]
    decide
  · rw [h.2.1 (wellKnown 3)]
    decide

/-- C32: for every sender and recipient, `NewTransaction` accepts the message `""` with
the amount 18 and the message `"1"` with the amount 2; both get the fee 2, the amounts are
written `12` and `2`, the byte string hashed is `from ‖ to ‖ "122"` for both, and so both
transactions carry the same `Hash`, whatever the digest function is. -/
theorem newTransaction_hash_input_collides (sha : List Byte → Hash)
    (sender recipient : Address) :
    ∃ t1 t2,
      NewTransaction sha sender recipient [] ⟨18, by decide, by decide⟩ = some t1 ∧
      NewTransaction sha sender recipient [49] ⟨2, by decide, by decide⟩ = some t2 ∧
      t1.From = t2.From ∧ t1.To = t2.To ∧
      (t1.Data, t1.Amount) ≠ (t2.Data, t2.Amount) ∧
      t1.Fee.val = 2 ∧ t2.Fee.val = 2 ∧
      IntToHex t1.Amount = [49, 50] ∧ IntToHex t2.Amount = [50] ∧
      t1.hashInput = sender.bytes ++ recipient.bytes ++ [49, 50, 50] ∧
      t2.hashInput = sender.bytes ++ recipient.bytes ++ [49, 50, 50] ∧
      t1.Hash = sha t1.hashInput ∧ t2.Hash = sha t2.hashInput ∧
      t1.Hash = t2.Hash := by
  obtain ⟨t1, e1, f1, o1, d1, a1, fee1, hh1⟩ := NewTransaction_accepts sha sender recipient []
    ⟨18, by decide, by decide⟩ (by decide) (by decide)
  obtain ⟨t2, e2, f2, o2, d2, a2, fee2, hh2⟩ := NewTransaction_accepts sha sender recipient [49]
    ⟨2, by decide, by decide⟩ (by decide) (by decide)
  have x1 : floorMulFloat64 7378697629483821 66 18 = 0 := by
    rw [amountFee_exact 18 (by decide)]
  have x2 : floorMulFloat64 7378697629483821 66 2 = 0 := by
    rw [amountFee_exact 2 (by decide)]
  have v1 : t1.Fee.val = 2 := by
    rw [fee1]
    show max 1 ((([] : List Byte).length / 10 : Nat) : Int)
      + max 1 ((floorMulFloat64 7378697629483821 66 18 : Nat) : Int) = 2
    rw [x1]
    decide
  have v2 : t2.Fee.val = 2 := by
    rw [fee2]
    show max 1 ((([49] : List Byte).length / 10 : Nat) : Int)
      + max 1 ((floorMulFloat64 7378697629483821 66 2 : Nat) : Int) = 2
    rw [x2]
    decide
  have w1 : t1.Fee = ⟨2, by decide, by decide⟩ := Int64.ext_val _ _ v1
  have w2 : t2.Fee = ⟨2, by decide, by decide⟩ := Int64.ext_val _ _ v2
  have i1 : IntToHex t1.Amount = [49, 50] := by rw [a1]; decide
  have i2 : IntToHex t2.Amount = [50] := by rw [a2]; decide
  have j1 : IntToHex t1.Fee = [50] := by rw [w1]; decide
  have j2 : IntToHex t2.Fee = [50] := by rw [w2]; decide
  have k1 : t1.hashInput = sender.bytes ++ recipient.bytes ++ [49, 50, 50] := by
    unfold Transaction.hashInput
    rw [bytesJoin_nil_sep, i1, j1, f1, o1, d1]
    simp [Address.Bytes]
  have k2 : t2.hashInput = sender.bytes ++ recipient.bytes ++ [49, 50, 50] := by
    unfold Transaction.hashInput
    rw [bytesJoin_nil_sep, i2, j2, f2, o2, d2]
    simp [Address.Bytes]
  have g1 : t1.Hash = sha t1.hashInput := by
    rw [hh1]
    unfold Transaction.hashInput
    rw [bytesJoin_nil_sep]
    simp
  have g2 : t2.Hash = sha t2.hashInput := by
    rw [hh2]
    unfold Transaction.hashInput
    rw [bytesJoin_nil_sep]
    simp
  refine ⟨t1, t2, e1, e2, by rw [f1, f2], by rw [o1, o2], ?_, v1, v2, i1, i2, k1, k2, g1, g2,
    by rw [g1, g2, k1, k2]⟩
  rw [d1, d2]
  intro h
  cases h

theorem sum_indicator (addrs : List Address) (hnd : addrs.Nodup) (x : Address) (c : Int) :
    (addrs.map (fun a => if a = x then c else 0)).sum = if x ∈ addrs then c else 0 := by
  induction addrs with
  | nil => rfl
  | cons a rest ih =>
    have hnd1 := List.nodup_cons.mp hnd
    rw [List.map_cons, List.sum_cons, ih hnd1.2]
    by_cases hax : a = x
    · subst hax
      simp [hnd1.1]
    · have hxa : ¬ x = a := fun e => hax e.symm
      simp [hax, hxa]

theorem totalBalance_shift (db db1 : AccountsDB) (g : Address → Int)
    (h : ∀ k, db1.balance k = db.balance k + g k) (addrs : List Address) :
    totalBalance db1 addrs = totalBalance db addrs + (addrs.map g).sum := by
  unfold totalBalance
  induction addrs with
  | nil => rfl
  | cons a rest ih =>
    simp only [List.map_cons, List.sum_cons, h a, ih]
    omega

theorem sum_debited (addrs : List Address) (hnd : addrs.Nodup) (txs : List Transaction)
    (h : ∀ tx ∈ txs, tx.From ∈ addrs) :
    (addrs.map (fun a => debited txs a)).sum =
      (txs.map (fun tx => (tx.Fee.add tx.Amount).val)).sum := by
  induction txs with
  | nil => simp [debited_nil]
  | cons tx rest ih =>
    have h1 := ih (fun t ht => h t (List.mem_cons_of_mem _ ht))
    simp only [debited_cons, List.map_cons, List.sum_cons]
    rw [List.sum_map_add, h1, sum_indicator addrs hnd, if_pos (h tx (List.mem_cons_self _ _))]

theorem sum_credited (addrs : List Address) (hnd : addrs.Nodup) (txs : List Transaction)
    (h : ∀ tx ∈ txs, tx.To ∈ addrs) :
    (addrs.map (fun a => credited txs a)).sum = (txs.map (fun tx => tx.Amount.val)).sum := by
  induction txs with
  | nil => simp [credited_nil]
  | cons tx rest ih =>
    have h1 := ih (fun t ht => h t (List.mem_cons_of_mem _ ht))
    simp only [credited_cons, List.map_cons, List.sum_cons]
    rw [List.sum_map_add, h1, sum_indicator addrs hnd, if_pos (h tx (List.mem_cons_self _ _))]

theorem sum_debited_sub_credited (txs : List Transaction)
    (h : ∀ tx ∈ txs, (tx.Fee.add tx.Amount).val = tx.Fee.val + tx.Amount.val) :
    (txs.map (fun tx => (tx.Fee.add tx.Amount).val)).sum =
      feeSum txs + (txs.map (fun tx => tx.Amount.val)).sum := by
  induction txs with
  | nil => rfl
  | cons tx rest ih =>
    have h1 := ih (fun t ht => h t (List.mem_cons_of_mem _ ht))
    simp only [List.map_cons, List.sum_cons, feeSum_cons, h1, h tx (List.mem_cons_self _ _)]
    omega

/-- A successful `Exec` and the exact sum of the balances of a duplicate-free list of
accounts that holds the sender and the recipient. -/
theorem Transaction.Exec_ok_total (tx : Transaction) (db db1 : AccountsDB)
    (h : tx.Exec db = Outcome.ok db1) (addrs : List Address) (hnd : addrs.Nodup)
    (hF : tx.From ∈ addrs) (hT : tx.To ∈ addrs) :
    totalBalance db1 addrs = totalBalance db addrs - tx.Fee.val ∧
    ∀ a, a ∉ addrs → db1.balance a = db.balance a := by
  obtain ⟨-, -, -, -, hb, -⟩ := tx.Exec_ok_view db db1 h
  constructor
  · rw [totalBalance_shift db db1
      (fun k => (if k = tx.From then -(tx.Fee.val + tx.Amount.val) else 0)
        + (if k = tx.To then tx.Amount.val else 0))
      (fun k => by beta_reduce; rw [hb k]; split <;> split <;> omega)]
    rw [List.sum_map_add, sum_indicator addrs hnd, sum_indicator addrs hnd, if_pos hF, if_pos hT]
    omega
  · intro a ha
    have h1 : ¬ a = tx.From := fun e => ha (by rw [e]; exact hF)
    have h2 : ¬ a = tx.To := fun e => ha (by rw [e]; exact hT)
    rw [hb a, if_neg h1, if_neg h2]
    omega

/-- A successful `BePackaged` and the exact sum of the balances of a duplicate-free list
of accounts that holds the miner and the senders and recipients of the packaged
transactions. -/
theorem Block.BePackaged_ok_total (sha : List Byte → MemoryChain.Hash) (b : Block)
    (miner : Address) (blocksDB : BlocksDB) (accountsDB : AccountsDB) (r : Packaging)
    (h : b.BePackaged sha miner blocksDB accountsDB = Outcome.ok r)
    (addrs : List Address) (hnd : addrs.Nodup) (hm : miner ∈ addrs)
    (htx : ∀ tx ∈ r.block.Txs, tx.From ∈ addrs ∧ tx.To ∈ addrs) :
    totalBalance r.accountsDB addrs =
      totalBalance accountsDB addrs - feeSum r.block.Txs + (awardOf r.block.Txs).val ∧
    ∀ a, a ∉ addrs → r.accountsDB.balance a = accountsDB.balance a := by
  obtain ⟨-, hc, hb, hdb, -⟩ := Block.BePackaged_ok sha b miner blocksDB accountsDB r h
  obtain ⟨-, -, hbal, -, hall⟩ := executed_spec b.Txs accountsDB
  have ht : r.block.Txs = (executed b.Txs accountsDB).realTxs := by rw [hb]; rfl
  rw [← ht] at hbal hall hc hdb
  have hform : ∀ a, r.accountsDB.balance a =
      accountsDB.balance a + ((-debited r.block.Txs a + credited r.block.Txs a)
        + (if a = miner then (awardOf r.block.Txs).val else 0)) := by
    intro a
    rw [hdb, AccountsDB.IncreaseBalanceOf_balance, hc]
    simp only [hbal]
    by_cases ha : a = miner
    · subst ha; simp; omega
    · simp [ha]; omega
  constructor
  · rw [totalBalance_shift accountsDB r.accountsDB _ hform, List.sum_map_add,
      List.sum_map_add, sum_indicator addrs hnd, if_pos hm,
      sum_credited addrs hnd _ (fun tx h => (htx tx h).2)]
    have hd := sum_debited addrs hnd r.block.Txs (fun tx h => (htx tx h).1)
    have hneg : (addrs.map (fun a => -debited r.block.Txs a)).sum =
        -(addrs.map (fun a => debited r.block.Txs a)).sum := by
      generalize addrs = l
      induction l with
      | nil => rfl
      | cons a rest ih =>
        simp only [List.map_cons, List.sum_cons, ih]
        omega
    rw [hneg, hd, sum_debited_sub_credited r.block.Txs (fun tx h => (hall tx h).2.2)]
    omega
  · intro a ha
    have h1 : ∀ tx ∈ r.block.Txs, tx.From ≠ a :=
      fun tx h e => ha (by rw [← e]; exact (htx tx h).1)
    have h2 : ∀ tx ∈ r.block.Txs, tx.To ≠ a :=
      fun tx h e => ha (by rw [← e]; exact (htx tx h).2)
    have h3 : ¬ a = miner := fun e => ha (by rw [e]; exact hm)
    rw [hform a, debited_eq_zero _ _ h1, credited_eq_zero _ _ h2, if_neg h3]
    omega

/-! ## The award and the supply on transactions built by NewTransaction: claims C8 and C31 -/

/-- The fee of a transaction that `NewTransaction` returns. -/
theorem NewTransaction_fee_range (sha : List Byte → Hash) (sender recipient : Address)
    (message : List Byte) (amount : Int64) (tx : Transaction)
    (h : NewTransaction sha sender recipient message amount = some tx) :
    2 ≤ tx.Fee.val ∧ tx.Fee.val ≤ 1000000000000025 := by
  obtain ⟨h0, hl, -, -, -, -, hfee, -⟩ :=
    NewTransaction_some sha sender recipient message amount tx h
  have ha := amountFee_lt amount.val.toNat (by have := amount.hi; omega)
  have hd : message.length / 10 ≤ 25 := by omega
  rw [hfee]
  generalize floorMulFloat64 7378697629483821 66 amount.val.toNat = A at ha
  generalize message.length / 10 = D at hd
  have hA : ((A : Nat) : Int) < 1000000000000000 := by exact_mod_cast ha
  have hD : ((D : Nat) : Int) ≤ 25 := by exact_mod_cast hd
  have hA0 : 0 ≤ ((A : Nat) : Int) := Int.ofNat_nonneg A
  have hD0 : 0 ≤ ((D : Nat) : Int) := Int.ofNat_nonneg D
  omega

theorem feeSum_range (txs : List Transaction)
    (h : ∀ tx ∈ txs, 2 ≤ tx.Fee.val ∧ tx.Fee.val ≤ 1000000000000025) :
    0 ≤ feeSum txs ∧ feeSum txs ≤ txs.length * 1000000000000025 := by
  induction txs with
  | nil => exact ⟨le_refl _, le_refl _⟩
  | cons tx rest ih =>
    have h1 := ih (fun t ht => h t (List.mem_cons_of_mem _ ht))
    have h2 := h tx (List.mem_cons_self _ _)
    rw [feeSum_cons, List.length_cons]
    push_cast
    omega

/-- On a block of at most 9223 proposed transactions, each one returned by
`NewTransaction`, `10 + Σ Fee` over the executed transactions lies in the `int64`
range, so the award is that sum. -/
theorem awardOf_executed_exact (txs : List Transaction) (db : AccountsDB)
    (hnew : ∀ tx ∈ txs, ∃ (sha0 : List Byte → Hash) (sender recipient : Address)
      (message : List Byte) (amount : Int64),
      NewTransaction sha0 sender recipient message amount = some tx)
    (hlen : txs.length ≤ 9223) :
    0 ≤ feeSum (executed txs db).realTxs ∧
    (awardOf (executed txs db).realTxs).val = 10 + feeSum (executed txs db).realTxs := by
  obtain ⟨hreal, -, -, -, -⟩ := executed_spec txs db
  have hsub : List.Sublist (executed txs db).realTxs txs := by
    rw [hreal]
    exact pick_sublist true txs _
  have hfee : ∀ tx ∈ (executed txs db).realTxs,
      2 ≤ tx.Fee.val ∧ tx.Fee.val ≤ 1000000000000025 := by
    intro tx htx
    obtain ⟨sha0, s, t, m, a, e⟩ := hnew tx (hsub.subset htx)
    exact NewTransaction_fee_range sha0 s t m a tx e
  obtain ⟨f0, f1⟩ := feeSum_range _ hfee
  have hl := hsub.length_le
  have hl2 : ((executed txs db).realTxs.length : Int) ≤ 9223 := by
    exact_mod_cast (le_trans hl hlen)
  refine ⟨f0, ?_⟩
  rw [awardOf_val, Int64.wrap_val]
  generalize feeSum (executed txs db).realTxs = S at f0 f1 ⊢
  generalize ((executed txs db).realTxs.length : Int) = L at f1 hl2
  omega

/-- C8: when `BePackaged` succeeds on a block of at most 9223 proposed transactions,
each one a transaction that `NewTransaction` returned (`MineBlock` proposes at most 10
transactions of the pool), the balance of the miner is the one that executing the
packaged transactions leaves, increased by exactly `10 + Σ Fee` over the packaged
transactions, and the award changes no other balance; a miner that no packaged
transaction involves gains exactly `10 + Σ Fee`. -/
theorem bePackaged_award (sha : List Byte → Hash) (b : Block) (miner : Address)
    (blocksDB : BlocksDB) (accountsDB : AccountsDB) (r : Packaging)
    (hnew : ∀ tx ∈ b.Txs, ∃ (sha0 : List Byte → Hash) (sender recipient : Address)
      (message : List Byte) (amount : Int64),
      NewTransaction sha0 sender recipient message amount = some tx)
    (hlen : b.Txs.length ≤ 9223)
    (h : b.BePackaged sha miner blocksDB accountsDB = Outcome.ok r) :
    r.block.Txs = (executed b.Txs accountsDB).realTxs ∧
    r.accountsDB.balance miner =
      (executed b.Txs accountsDB).db.balance miner + (10 + feeSum r.block.Txs) ∧
    (∀ a, a ≠ miner →
      r.accountsDB.balance a = (executed b.Txs accountsDB).db.balance a) ∧
    (∀ a, r.accountsDB.balance a =
      accountsDB.balance a - debited r.block.Txs a + credited r.block.Txs a
        + (if a = miner then 10 + feeSum r.block.Txs else 0)) ∧
    ((∀ tx ∈ r.block.Txs, tx.From ≠ miner ∧ tx.To ≠ miner) →
      r.accountsDB.balance miner = accountsDB.balance miner + (10 + feeSum r.block.Txs)) := by
  obtain ⟨-, hc, hb, hdb, -⟩ := Block.BePackaged_ok sha b miner blocksDB accountsDB r h
  obtain ⟨-, -, hbal, -, -⟩ := executed_spec b.Txs accountsDB
  obtain ⟨-, haw⟩ := awardOf_executed_exact b.Txs accountsDB hnew hlen
  have ht : r.block.Txs = (executed b.Txs accountsDB).realTxs := by rw [hb]; rfl
  have hex : ∀ a, r.accountsDB.balance a = (executed b.Txs accountsDB).db.balance a
      + (if a = miner then 10 + feeSum r.block.Txs else 0) := by
    intro a
    rw [hdb, AccountsDB.IncreaseBalanceOf_balance, hc, ht, haw]
    by_cases ha : a = miner
    · subst ha; simp
    · simp [ha]
  have hform : ∀ a, r.accountsDB.balance a =
      accountsDB.balance a - debited r.block.Txs a + credited r.block.Txs a
        + (if a = miner then 10 + feeSum r.block.Txs else 0) := by
    intro a
    rw [hex a, hbal a, ht]
  refine ⟨ht, ?_, ?_, hform, ?_⟩
  · rw [hex miner, if_pos rfl]
  · intro a ha
    rw [hex a, if_neg ha]
    omega
  · intro hno
    rw [hform miner, debited_eq_zero _ _ (fun tx htx => (hno tx htx).1),
      credited_eq_zero _ _ (fun tx htx => (hno tx htx).2), if_pos rfl]
    omega

set_option maxRecDepth 8192 in
/-- C8, an instance: S2 (fee 2, returned by `NewTransaction`, the miner `0x…01` not
involved) packaged on the initial store raises the miner's balance by 12. -/
theorem bePackaged_award_witness :
    NewTransaction zeroDigest (wellKnown 2) (wellKnown 3) [104, 105]
      ⟨1000, by decide, by decide⟩ = some txS2 ∧
    ((NewBlock timeS2 [txS2] ZeroHash).BePackaged zeroDigest (wellKnown 1)
      blocksOk NewAccountsDB).state.accountsDB.balance (wellKnown 1)
      = NewAccountsDB.balance (wellKnown 1) + 12 := by
  have hS2 : NewTransaction zeroDigest (wellKnown 2) (wellKnown 3) [104, 105]
      ⟨1000, by decide, by decide⟩ = some txS2 := by decide
  have hnew : ∀ tx ∈ (NewBlock timeS2 [txS2] ZeroHash).Txs,
      ∃ (sha0 : List Byte → Hash) (sender recipient : Address) (message : List Byte)
        (amount : Int64), NewTransaction sha0 sender recipient message amount = some tx := by
    intro tx htx
    have e : tx = txS2 := List.mem_singleton.mp htx
    rw [e]
    exact ⟨_, _, _, _, _, hS2⟩
  have h := bePackaged_award zeroDigest (NewBlock timeS2 [txS2] ZeroHash)
    (wellKnown 1) blocksOk NewAccountsDB _ hnew (by decide)
    (Outcome.eq_ok_of_isOk _ (by decide))
  refine ⟨hS2, ?_⟩
  rw [h.2.2.2.1 (wellKnown 1)]
  decide

/-- C31: for a duplicate-free list of accounts that holds every account involved (all
other balances are unchanged), over exact integers: a successful `Exec` lowers the sum of
the balances by exactly `tx.Fee`, and an `Exec` that returns an error changes no balance;
a successful `BePackaged`, on a block of at most 9223 proposed transactions that
`NewTransaction` returned (`MineBlock` proposes at most 10), changes the sum by exactly
`+10`: the senders of the packaged transactions lose `Σ Fee` in all and the award of the
miner is `10 + Σ Fee`. -/
theorem supply_accounting (sha : List Byte → Hash) (addrs : List Address)
    (hnd : addrs.Nodup) :
    (∀ (tx : Transaction) (db db1 : AccountsDB), tx.Exec db = Outcome.ok db1 →
      tx.From ∈ addrs → tx.To ∈ addrs →
      totalBalance db1 addrs = totalBalance db addrs - tx.Fee.val ∧
      ∀ a, a ∉ addrs → db1.balance a = db.balance a) ∧
    (∀ (tx : Transaction) (db db1 : AccountsDB), tx.Exec db = Outcome.error db1 →
      ∀ a, db1.balance a = db.balance a) ∧
    (∀ (b : Block) (miner : Address) (blocksDB : BlocksDB) (accountsDB : AccountsDB)
      (r : Packaging), b.BePackaged sha miner blocksDB accountsDB = Outcome.ok r →
      (∀ tx ∈ b.Txs, ∃ (sha0 : List Byte → Hash) (sender recipient : Address)
        (message : List Byte) (amount : Int64),
        NewTransaction sha0 sender recipient message amount = some tx) →
      b.Txs.length ≤ 9223 →
      miner ∈ addrs → (∀ tx ∈ r.block.Txs, tx.From ∈ addrs ∧ tx.To ∈ addrs) →
      r.block.Txs = (executed b.Txs accountsDB).realTxs ∧
      totalBalance r.accountsDB addrs = totalBalance accountsDB addrs + 10 ∧
      totalBalance r.accountsDB addrs =
        totalBalance accountsDB addrs - feeSum r.block.Txs + (awardOf r.block.Txs).val ∧
      (awardOf r.block.Txs).val = 10 + feeSum r.block.Txs ∧
      (∀ a, a ∉ addrs → r.accountsDB.balance a = accountsDB.balance a)) := by
  refine ⟨?_, ?_, ?_⟩
  · intro tx db db1 h hF hT
    exact tx.Exec_ok_total db db1 h addrs hnd hF hT
  · intro tx db db1 h a
    exact (tx.Exec_error_view db db1 h a).1
  · intro b miner blocksDB accountsDB r h hnew hlen hm htx
    obtain ⟨-, -, hb, -, -⟩ := Block.BePackaged_ok sha b miner blocksDB accountsDB r h
    obtain ⟨h1, h2⟩ := Block.BePackaged_ok_total sha b miner blocksDB accountsDB r h addrs hnd
      hm htx
    have ht : r.block.Txs = (executed b.Txs accountsDB).realTxs := by rw [hb]; rfl
    obtain ⟨-, haw⟩ := awardOf_executed_exact b.Txs accountsDB hnew hlen
    rw [← ht] at haw
    refine ⟨ht, ?_, h1, haw, h2⟩
    rw [h1, haw]
    omega

set_option maxRecDepth 8192 in
/-- C31, an instance: on the initial store, `Exec` of S2 (fee 2, returned by
`NewTransaction`) lowers the sum of the balances of `0x…01`, `0x…02` and `0x…03` by 2,
and `BePackaged` of the block that proposes S2, for the miner `0x…01`, raises it by
10. -/
theorem supply_accounting_witness :
    [wellKnown 1, wellKnown 2, wellKnown 3].Nodup ∧
    totalBalance (txS2.Exec NewAccountsDB).state [wellKnown 1, wellKnown 2, wellKnown 3] =
      totalBalance NewAccountsDB [wellKnown 1, wellKnown 2, wellKnown 3] - 2 ∧
    totalBalance ((NewBlock timeS2 [txS2] ZeroHash).BePackaged zeroDigest (wellKnown 1)
        blocksOk NewAccountsDB).state.accountsDB [wellKnown 1, wellKnown 2, wellKnown 3] =
      totalBalance NewAccountsDB [wellKnown 1, wellKnown 2, wellKnown 3] + 10 := by
  have h := supply_accounting zeroDigest [wellKnown 1, wellKnown 2, wellKnown 3] (by decide)
  have hnew : ∀ tx ∈ (NewBlock timeS2 [txS2] ZeroHash).Txs,
      ∃ (sha0 : List Byte → Hash) (sender recipient : Address) (message : List Byte)
        (amount : Int64), NewTransaction sha0 sender recipient message amount = some tx := by
    intro tx htx
    have e : tx = txS2 := List.mem_singleton.mp htx
    rw [e]
    exact ⟨zeroDigest, wellKnown 2, wellKnown 3, [104, 105], ⟨1000, by decide, by decide⟩,
      by decide⟩
  refine ⟨by decide, ?_, ?_⟩
  · exact (h.1 txS2 NewAccountsDB _ (Outcome.eq_ok_of_isOk _ (by decide)) (by decide)
      (by decide)).1
  · exact (h.2.2 (NewBlock timeS2 [txS2] ZeroHash) (wellKnown 1) blocksOk NewAccountsDB _
      (Outcome.eq_ok_of_isOk _ (by decide)) hnew (by decide) (by decide) (by decide)).2.1

end MemoryChain
